import Mathlib

/-!
# AniHelper: the RIFF/ACON decoder (`ani.c`) and its walker

A shallow embedding of `src/ani.c`.

Modelling conventions.

* A byte is a `Nat` below 256; a stream is a `List Nat`.  Theorems that need the
  bound carry it as the hypothesis `Bytes`.
* `FILE` is a stdio stream over a regular file: contents, read position and the
  end-of-file indicator.  `fread` delivers what is left when fewer bytes than
  asked for remain, moves the position by what it delivered and raises the
  indicator; `fseek` (always forward here, on an LP64 target) moves the position,
  possibly past the end, and clears the indicator; `feof` reads the indicator.
* Allocation always succeeds, also `malloc(0)` (glibc returns a pointer for
  it), so the out-of-memory returns of the source are not modelled.  Logging
  (`info`, `err`) has no effect on the decoded document and is left out.
* A value the C code never wrote, or one computed from bytes outside an
  allocation, is indeterminate and is written `none` (`ChunkSeq.indexes`,
  `ChunkList.hotx`, `ChunkList.hoty`).  The embedding assumes that such a read
  returns some byte and does not trap.
* The two `while` loops take fuel; `none` means that the loop has not been left
  after that many iterations.  The counted `for` loops are structural.
* `unsigned` counters of chunks and frames are plain `Nat`: every appended
  chunk or frame consumed at least eight bytes of the stream, so a counter
  can wrap only on streams of 2^35 bytes or more.
-/

namespace AniHelper

/-! ## Data model (`ani.h`) -/

/-- Stdio stream: contents, read position, end-of-file indicator. -/
structure FILE where
  data : List Nat
  pos : Nat
  eofInd : Bool
deriving DecidableEq, Repr

/-- The `ParseContext` of `ani.c`. -/
structure ParseContext where
  file : FILE
  csize : Nat
  eof : Bool
deriving DecidableEq, Repr

/-- The nine DWORDs of the `anih` chunk. -/
structure ChunkAnih where
  cbSize : Nat
  cFrames : Nat
  cSteps : Nat
  cx : Nat
  cy : Nat
  cBitCount : Nat
  cPlanes : Nat
  jifRate : Nat
  flags : Nat
deriving DecidableEq, Repr

/-- The `seq ` chunk: `indexes` is the allocated array, `none` marking a slot
that was allocated and never written. -/
structure ChunkSeq where
  count : Nat
  indexes : List (Option Nat)
deriving DecidableEq, Repr

/-- The `rate` chunk. -/
structure ChunkRate where
  count : Nat
  jiffies : List Nat
deriving DecidableEq, Repr

/-- One `icon` payload. -/
structure Frame where
  size : Nat
  buffer : List Nat
deriving DecidableEq, Repr

/-- The `LIST`/`fram` chunk.  `ani.c` assigns `hotx` and `hoty`, which the
`ani.h` at hand does not declare; they are modelled as fields, `none` while
indeterminate. -/
structure ChunkList where
  count : Nat
  frames : List Frame
  hotx : Option Nat
  hoty : Option Nat
deriving DecidableEq, Repr

/-- The discriminant `enum ChunkType`. -/
inductive ChunkType where
  | ty_anih
  | ty_seq
  | ty_rate
  | ty_list
deriving DecidableEq, Repr

/-- What `Chunk.inner` points to; the constructor carries the discriminant. -/
inductive Inner where
  | anih (c : ChunkAnih)
  | seq (c : ChunkSeq)
  | rate (c : ChunkRate)
  | list (c : ChunkList)
deriving DecidableEq, Repr

/-- A decoded top-level chunk. -/
structure Chunk where
  size : Nat
  off : Nat
  inner : Inner
deriving DecidableEq, Repr

/-- The field `ty` of a chunk, read off the constructor of `inner`. -/
def Chunk.ty (c : Chunk) : ChunkType :=
  match c.inner with
  | .anih _ => .ty_anih
  | .seq _ => .ty_seq
  | .rate _ => .ty_rate
  | .list _ => .ty_list

/-- The decoded document. -/
structure AniFile where
  chunk_count : Nat
  chunks : List Chunk
deriving DecidableEq, Repr

/-! ## Identifiers -/

/-- ASCII "RIFF". -/
def tag_RIFF : List Nat := [82, 73, 70, 70]
/-- ASCII "ACON". -/
def tag_ACON : List Nat := [65, 67, 79, 78]
/-- ASCII "anih". -/
def tag_anih : List Nat := [97, 110, 105, 104]
/-- ASCII "seq " (with the trailing blank). -/
def tag_seq : List Nat := [115, 101, 113, 32]
/-- ASCII "rate". -/
def tag_rate : List Nat := [114, 97, 116, 101]
/-- ASCII "LIST". -/
def tag_LIST : List Nat := [76, 73, 83, 84]
/-- ASCII "fram". -/
def tag_fram : List Nat := [102, 114, 97, 109]
/-- ASCII "icon". -/
def tag_icon : List Nat := [105, 99, 111, 110]

/-! ## Stream primitives -/

/-- The libc `fread(buf, 1, n, f)`: the bytes delivered and the stream after. -/
def fread (f : FILE) (n : Nat) : List Nat × FILE :=
  let got := (f.data.drop f.pos).take n
  if got.length = n then (got, { f with pos := f.pos + n })
  else (got, { f with pos := f.pos + got.length, eofInd := true })

/-- The libc `fseek(f, count, SEEK_CUR)` with `count ≥ 0`. -/
def fseek_cur (f : FILE) (count : Nat) : FILE :=
  { f with pos := f.pos + count, eofInd := false }

/-- Little-endian assembly of four bytes, as a `uint32_t`. -/
def u32_of_bytes (b0 b1 b2 b3 : Nat) : Nat :=
  (b0 ||| (b1 <<< 8) ||| (b2 <<< 16) ||| (b3 <<< 24)) % 2 ^ 32

/-- The `read_exact` of `ani.c`: `some buf` when all `n` bytes were read. -/
def read_exact (ctx : ParseContext) (n : Nat) : Option (List Nat) × ParseContext :=
  let r := fread ctx.file n
  (if r.1.length = n then some r.1 else none, { ctx with file := r.2 })

/-- The `read_u32_le` of `ani.c`: `0xFFFFFFFF` on a short read. -/
def read_u32_le (ctx : ParseContext) : Nat × ParseContext :=
  let r := fread ctx.file 4
  match r.1 with
  | [b0, b1, b2, b3] => (u32_of_bytes b0 b1 b2 b3, { ctx with file := r.2 })
  | _ => (0xFFFFFFFF, { ctx with file := r.2 })

/-- The `consume_bytes` of `ani.c`. -/
def consume_bytes (ctx : ParseContext) (count : Nat) : ParseContext :=
  { ctx with file := fseek_cur ctx.file count }

/-- The recurring `if (size & 1) consume_bytes(ctx, 1);`. -/
def consume_pad (ctx : ParseContext) (size : Nat) : ParseContext :=
  if size &&& 1 ≠ 0 then consume_bytes ctx 1 else ctx

/-! ## Chunk decoders -/

/-- The nine assignments of `parse_anih`: the header read off the 36 bytes of
`anih_buf` as nine little-endian DWORDs. -/
def anih_of_buf (b : List Nat) : ChunkAnih :=
  let w := fun (i : Nat) =>
    u32_of_bytes (b.getD i 0) (b.getD (i + 1) 0) (b.getD (i + 2) 0) (b.getD (i + 3) 0)
  { cbSize := w 0, cFrames := w 4, cSteps := w 8, cx := w 12, cy := w 16,
    cBitCount := w 20, cPlanes := w 24, jifRate := w 28, flags := w 32 }

/-- The `parse_anih` of `ani.c`. -/
def parse_anih (ctx : ParseContext) : Option ChunkAnih × ParseContext :=
  let ctx0 :=
    if ctx.csize < 36 then consume_bytes ctx (ctx.csize + (ctx.csize &&& 1)) else ctx
  match read_exact ctx0 36 with
  | (none, ctx1) => (none, ctx1)
  | (some b, ctx1) =>
    let ctx2 := if ctx.csize > 36 then consume_bytes ctx1 (ctx.csize - 36) else ctx1
    (some (anih_of_buf b), consume_pad ctx2 ctx.csize)

/-- The loop `for (i = 0; i < count; i++) v = read_u32_le(ctx)` shared by
`parse_seq` and `parse_rate`: the values read, in order. -/
def read_u32_loop : Nat → ParseContext → List Nat × ParseContext
  | 0, ctx => ([], ctx)
  | n + 1, ctx =>
    let r := read_u32_le ctx
    let rest := read_u32_loop n r.2
    (r.1 :: rest.1, rest.2)

/-- The `parse_seq` of `ani.c`.  The values read are only logged: nothing is
stored into `indexes`. -/
def parse_seq (ctx : ParseContext) : Option ChunkSeq × ParseContext :=
  let count := ctx.csize / 4
  let r := read_u32_loop count ctx
  (some { count := count, indexes := List.replicate count none }, consume_pad r.2 ctx.csize)

/-- The `parse_rate` of `ani.c`. -/
def parse_rate (ctx : ParseContext) : Option ChunkRate × ParseContext :=
  let count := ctx.csize / 4
  let r := read_u32_loop count ctx
  (some { count := count, jiffies := r.1 }, consume_pad r.2 ctx.csize)

/-- The `parse_frame` of `ani.c`. -/
def parse_frame (ctx : ParseContext) : Option Frame × ParseContext :=
  match read_exact ctx 4 with
  | (none, ctx1) => (none, { ctx1 with eof := true })
  | (some subid, ctx1) =>
    let r := read_u32_le ctx1
    let subsize := r.1
    if subid = tag_icon then
      match read_exact r.2 subsize with
      | (none, ctx3) => (none, ctx3)
      | (some buf, ctx3) => (some { size := subsize, buffer := buf }, consume_pad ctx3 subsize)
    else
      (none, consume_pad (consume_bytes r.2 subsize) subsize)

/-- The 16-bit word `buf[i] | (buf[i+1] << 8)`; `none` when one of the two
bytes lies outside the buffer. -/
def buf_word (buf : List Nat) (i : Nat) : Option Nat :=
  match buf[i]?, buf[i + 1]? with
  | some lo, some hi => some (lo ||| (hi <<< 8))
  | _, _ => none

/-- The hotspot block of `parse_list`, run on the first frame. -/
def hotspot (list : ChunkList) (frame : Frame) : ChunkList :=
  match buf_word frame.buffer 2 with
  | none => { list with hotx := none, hoty := none }
  | some type =>
    if type % 2 ^ 16 = 2 then
      { list with hotx := buf_word frame.buffer 10, hoty := buf_word frame.buffer 12 }
    else
      { list with hotx := some 0, hoty := some 0 }

/-- The body of the frame loop of `parse_list` once `parse_frame` has returned a
frame: the hotspot block when `icon_count` is 0, then the append; the result is
the list and the new `icon_count`. -/
def push_frame (st : ChunkList × Nat) (frame : Frame) : ChunkList × Nat :=
  let list1 := if st.2 = 0 then hotspot st.1 frame else st.1
  ({ list1 with count := list1.count + 1, frames := list1.frames ++ [frame] }, st.2 + 1)

/-- The loop `while (ftell(ctx->file) < list_end)` of `parse_list`; the state is
the list under construction and `icon_count`. -/
def frames_loop (list_end : Nat) :
    Nat → ChunkList × Nat → ParseContext → Option (ChunkList × ParseContext)
  | 0, st, ctx => if ctx.file.pos < list_end then none else some (st.1, ctx)
  | fuel + 1, st, ctx =>
    if ctx.file.pos < list_end then
      match parse_frame ctx with
      | (none, ctx1) => frames_loop list_end fuel st ctx1
      | (some frame, ctx1) => frames_loop list_end fuel (push_frame st frame) ctx1
    else some (st.1, ctx)

/-- The `parse_list` of `ani.c`; the outer `none` is fuel running out. -/
def parse_list (fuel : Nat) (ctx : ParseContext) : Option (Option ChunkList × ParseContext) :=
  match read_exact ctx 4 with
  | (none, ctx1) => some (none, { ctx1 with eof := true })
  | (some listtype, ctx1) =>
    let list_payload := (ctx.csize + 2 ^ 32 - 4) % 2 ^ 32
    let list_end := ctx1.file.pos + list_payload
    if listtype = tag_fram then
      match frames_loop list_end fuel
          ({ count := 0, frames := [], hotx := none, hoty := none }, 0) ctx1 with
      | none => none
      | some (list, ctx2) => some (some list, consume_pad ctx2 ctx.csize)
    else
      some (none, consume_pad (consume_bytes ctx1 list_payload) ctx.csize)

/-- The `parse_chunk` of `ani.c`; the outer `none` is fuel running out. -/
def parse_chunk (fuel : Nat) (ctx : ParseContext) : Option (Option Chunk × ParseContext) :=
  let pos := ctx.file.pos
  match read_exact ctx 4 with
  | (none, ctx1) => some (none, { ctx1 with eof := true })
  | (some cid, ctx1) =>
    let r := read_u32_le ctx1
    let ctx2 : ParseContext := { r.2 with csize := r.1 }
    if ctx2.file.eofInd then some (none, { ctx2 with eof := true })
    else
      let mk := fun (i : Inner) => ({ size := ctx2.csize, off := pos % 2 ^ 32, inner := i } : Chunk)
      if cid = tag_anih then
        let p := parse_anih ctx2
        some (p.1.map (fun a => mk (.anih a)), p.2)
      else if cid = tag_seq then
        let p := parse_seq ctx2
        some (p.1.map (fun a => mk (.seq a)), p.2)
      else if cid = tag_rate then
        let p := parse_rate ctx2
        some (p.1.map (fun a => mk (.rate a)), p.2)
      else if cid = tag_LIST then
        match parse_list fuel ctx2 with
        | none => none
        | some p => some (p.1.map (fun a => mk (.list a)), p.2)
      else
        some (none, consume_pad (consume_bytes ctx2 ctx2.csize) ctx2.csize)

/-- The loop `while (1)` of `parse_ani`; `inner` is the fuel handed to the
frame loop of every `LIST` chunk. -/
def chunks_loop (inner : Nat) : Nat → AniFile → ParseContext → Option AniFile
  | 0, _, _ => none
  | fuel + 1, ani, ctx =>
    match parse_chunk inner ctx with
    | none => none
    | some (chunk, ctx1) =>
      if ctx1.eof then some ani
      else
        match chunk with
        | none => chunks_loop inner fuel ani ctx1
        | some c =>
          chunks_loop inner fuel
            { chunk_count := ani.chunk_count + 1, chunks := ani.chunks ++ [c] } ctx1

/-- The context after the three envelope reads of `parse_ani`; neither a short
read nor a tag mismatch changes the control flow. -/
def read_envelope (ctx : ParseContext) : ParseContext :=
  (read_exact (read_u32_le (read_exact ctx 4).2).2 4).2

/-- The `parse_ani` of `ani.c` on a freshly opened stream.  The source leaves
`ctx.csize` unset until the first chunk header is read; it starts at 0 here. -/
def parse_ani (fuel : Nat) (data : List Nat) : Option AniFile :=
  chunks_loop fuel fuel { chunk_count := 0, chunks := [] }
    (read_envelope { file := { data := data, pos := 0, eofInd := false }, csize := 0, eof := false })

/-! ## Walker -/

/-- The inner loop of `walk`, `for (j = 0; j < list->count; ++j)`: `k` iterations
are left, `j` is the index.  An index outside `frames` makes no call; such an
index does not occur when `count` is the length of `frames`. -/
def walk_frames {σ : Type} (visit_frame : Frame → σ → σ) (list : ChunkList) :
    Nat → Nat → σ → σ
  | 0, _, data => data
  | k + 1, j, data =>
    match list.frames[j]? with
    | none => walk_frames visit_frame list k (j + 1) data
    | some f => walk_frames visit_frame list k (j + 1) (visit_frame f data)

/-- One iteration of the outer loop of `walk`, on the chunk `c`. -/
def walk_chunk {σ : Type} (visit_chunk : Option (Chunk → σ → σ))
    (visit_frame : Option (Frame → σ → σ)) (c : Chunk) (data : σ) : σ :=
  let data1 :=
    match visit_chunk with
    | some vc => vc c data
    | none => data
  match c.inner with
  | .list list =>
    match visit_frame with
    | some vf => walk_frames vf list list.count 0 data1
    | none => data1
  | _ => data1

/-- The outer loop of `walk`, `for (i = 0; i < chunk_count; ++i)`: `k` iterations
are left, `i` is the index. -/
def walk_chunks {σ : Type} (visit_chunk : Option (Chunk → σ → σ))
    (visit_frame : Option (Frame → σ → σ)) (ani : AniFile) : Nat → Nat → σ → σ
  | 0, _, data => data
  | k + 1, i, data =>
    match ani.chunks[i]? with
    | none => walk_chunks visit_chunk visit_frame ani k (i + 1) data
    | some c =>
      walk_chunks visit_chunk visit_frame ani k (i + 1) (walk_chunk visit_chunk visit_frame c data)

/-- The `walk` of `ani.c`.  The visitors are the two optional callbacks of the
`WalkContext`; `data` is the user state they receive, and the result is that
state after the last call. -/
def walk {σ : Type} (ani : AniFile) (visit_chunk : Option (Chunk → σ → σ))
    (visit_frame : Option (Frame → σ → σ)) (data : σ) : σ :=
  walk_chunks visit_chunk visit_frame ani ani.chunk_count 0 data

/-! ## Vocabulary of the statements

The definitions below are not code of `ani.c`: they build the streams and
name the properties that the theorems speak about. -/

/-- Every element is a byte. -/
def Bytes (l : List Nat) : Prop := ∀ b ∈ l, b < 256

/-- Little-endian encoding of a `uint32_t`. -/
def le32 (v : Nat) : List Nat :=
  [v % 256, v / 256 % 256, v / 65536 % 256, v / 16777216 % 256]

/-- The RIFF pad: one byte `padv` after a payload of odd length. -/
def pad_bytes (n padv : Nat) : List Nat := if n % 2 = 1 then [padv] else []

/-- A complete chunk or subchunk as it stands in a stream: identifier,
little-endian length of the payload, payload, pad byte when the length is odd. -/
structure RawChunk where
  id : List Nat
  payload : List Nat
  padv : Nat
deriving DecidableEq, Repr

/-- The bytes of a complete chunk. -/
def RawChunk.bytes (c : RawChunk) : List Nat :=
  c.id ++ (le32 c.payload.length ++ (c.payload ++ pad_bytes c.payload.length c.padv))

/-- The concatenation of complete chunks. -/
def raw_concat : List RawChunk → List Nat
  | [] => []
  | c :: cs => c.bytes ++ raw_concat cs

/-- The frames that a sequence of complete subchunks holds: the payloads of the
`icon` subchunks, in stream order. -/
def icon_frames (subs : List RawChunk) : List Frame :=
  (subs.filter (fun s => s.id = tag_icon)).map
    (fun s => { size := s.payload.length, buffer := s.payload })

/-- A recorded call of a visitor. -/
inductive Call where
  | chunk (c : Chunk)
  | frame (f : Frame)
deriving DecidableEq, Repr

/-- The call sequence that the walker owes for one chunk. -/
def chunk_calls (has_chunk_visitor has_frame_visitor : Bool) (c : Chunk) : List Call :=
  (if has_chunk_visitor then [Call.chunk c] else []) ++
    (match c.inner with
     | .list list => if has_frame_visitor then list.frames.map Call.frame else []
     | _ => [])

/-- The call sequence that the walker owes for a document. -/
def expected_calls (has_chunk_visitor has_frame_visitor : Bool) (ani : AniFile) : List Call :=
  ani.chunks.flatMap (chunk_calls has_chunk_visitor has_frame_visitor)

/-- Performing one recorded call with the visitors at hand. -/
def run_call {σ : Type} (visit_chunk : Option (Chunk → σ → σ))
    (visit_frame : Option (Frame → σ → σ)) (data : σ) : Call → σ
  | .chunk c => match visit_chunk with
    | some vc => vc c data
    | none => data
  | .frame f => match visit_frame with
    | some vf => vf f data
    | none => data

/-- A document whose counters are the lengths of its arrays. -/
def AniFile.WellFormed (ani : AniFile) : Prop :=
  ani.chunk_count = ani.chunks.length ∧
    ∀ c ∈ ani.chunks, ∀ l, c.inner = .list l → l.count = l.frames.length

/-- The `ChunkList` that the frame loop owes for the frames `fs`: all of them,
in order, the hotspot taken from the first. -/
def frame_list (fs : List Frame) : ChunkList :=
  match fs with
  | [] => { count := 0, frames := [], hotx := none, hoty := none }
  | f :: _ =>
    { hotspot { count := 0, frames := [], hotx := none, hoty := none } f with
      count := fs.length, frames := fs }

/-- The 36 payload bytes of an `anih` chunk that holds the nine fields of `a`. -/
def anih_bytes (a : ChunkAnih) : List Nat :=
  le32 a.cbSize ++ (le32 a.cFrames ++ (le32 a.cSteps ++ (le32 a.cx ++ (le32 a.cy ++
    (le32 a.cBitCount ++ (le32 a.cPlanes ++ (le32 a.jifRate ++ le32 a.flags)))))))

/-- The nine fields are 32-bit values. -/
def ChunkAnih.IsU32 (a : ChunkAnih) : Prop :=
  a.cbSize < 2 ^ 32 ∧ a.cFrames < 2 ^ 32 ∧ a.cSteps < 2 ^ 32 ∧ a.cx < 2 ^ 32 ∧ a.cy < 2 ^ 32 ∧
    a.cBitCount < 2 ^ 32 ∧ a.cPlanes < 2 ^ 32 ∧ a.jifRate < 2 ^ 32 ∧ a.flags < 2 ^ 32

/-- The payload of a `rate` or `seq ` chunk that holds the values `vs`. -/
def le32s : List Nat → List Nat
  | [] => []
  | v :: vs => le32 v ++ le32s vs

/-- The `icon` subchunks that hold the buffers `bufs`, each padded with `padv`. -/
def icon_chunks (bufs : List (List Nat)) (padv : Nat) : List RawChunk :=
  bufs.map (fun b => { id := tag_icon, payload := b, padv := padv })

/-- The synthetic stream of the round trip: envelope, `anih` of declared size
36, `rate` of declared size `4 * js.length`, `LIST` of list-type `fram` with the
buffers as `icon` subchunks. -/
def synthetic_stream (riff_size : Nat) (a : ChunkAnih) (js : List Nat) (bufs : List (List Nat))
    (padv : Nat) : List Nat :=
  (tag_RIFF ++ (le32 riff_size ++ tag_ACON)) ++
    ((tag_anih ++ (le32 36 ++ anih_bytes a)) ++
      ((tag_rate ++ (le32 (4 * js.length) ++ le32s js)) ++
        (tag_LIST ++ (le32 (4 + (raw_concat (icon_chunks bufs padv)).length) ++
          (tag_fram ++ raw_concat (icon_chunks bufs padv))))))

/-- The context in which `parse_ani` starts on the stream `data`. -/
def initial_ctx (data : List Nat) : ParseContext :=
  { file := { data := data, pos := 0, eofInd := false }, csize := 0, eof := false }

/-- The chunk visitor that records its call. -/
def record_chunk (c : Chunk) (trace : List Call) : List Call := trace ++ [Call.chunk c]

/-- The frame visitor that records its call. -/
def record_frame (f : Frame) (trace : List Call) : List Call := trace ++ [Call.frame f]

/-- The identifier under which `parse_chunk` decodes a chunk of each kind. -/
def chunk_tag : Inner → List Nat
  | .anih _ => tag_anih
  | .seq _ => tag_seq
  | .rate _ => tag_rate
  | .list _ => tag_LIST

/-- The chunk `c` was read off the header that stands at position `pos` of
`data`: the four bytes at `pos` are the identifier of its kind and its recorded
size is the little-endian word of the four bytes behind them. -/
def HeaderAt (data : List Nat) (pos : Nat) (c : Chunk) : Prop :=
  (data.drop pos).take 4 = chunk_tag c.inner ∧
    ∃ b0 b1 b2 b3, (data.drop (pos + 4)).take 4 = [b0, b1, b2, b3] ∧
      c.size = u32_of_bytes b0 b1 b2 b3

/-- The stream of `ctx1` is that of `ctx`, read further or not at all. -/
def Advanced (ctx ctx1 : ParseContext) : Prop :=
  ctx1.file.data = ctx.file.data ∧ ctx.file.pos ≤ ctx1.file.pos

/-- The 32-bit words of a payload, four bytes each, in order; up to three
trailing bytes give no word. -/
def words_of : List Nat → List Nat
  | b0 :: b1 :: b2 :: b3 :: rest => u32_of_bytes b0 b1 b2 b3 :: words_of rest
  | _ => []

/-- A complete top-level chunk of a stream: a plain chunk (identifier, length,
payload, pad), or a `LIST` chunk of list-type `fram` that holds complete
subchunks. -/
inductive Item where
  | plain (c : RawChunk)
  | fram (subs : List RawChunk)

/-- The bytes of a complete top-level chunk. -/
def Item.bytes : Item → List Nat
  | .plain c => c.bytes
  | .fram subs =>
    tag_LIST ++ (le32 (4 + (raw_concat subs).length) ++ (tag_fram ++ raw_concat subs))

/-- The complete chunks that the decoder consumes whole: the declared size fits
32 bits; an `anih` chunk has at least 36 bytes; the size of a `seq ` or `rate`
chunk is a multiple of 4; a plain `LIST` chunk has a list-type and it is not
`fram`. -/
def Item.Whole : Item → Prop
  | .plain c =>
    c.id.length = 4 ∧ c.payload.length < 2 ^ 32 ∧
      (c.id = tag_anih → 36 ≤ c.payload.length) ∧
      (c.id = tag_seq ∨ c.id = tag_rate → c.payload.length % 4 = 0) ∧
      (c.id = tag_LIST → 4 ≤ c.payload.length ∧ c.payload.take 4 ≠ tag_fram)
  | .fram subs => (∀ s ∈ subs, s.id.length = 4) ∧ 4 + (raw_concat subs).length < 2 ^ 32

/-- The entry that a complete chunk standing at `pos` owes to the document, if
any. -/
def Item.decoded (pos : Nat) : Item → Option Chunk
  | .plain c =>
    if c.id = tag_anih then
      some ⟨c.payload.length, pos % 2 ^ 32, .anih (anih_of_buf (c.payload.take 36))⟩
    else if c.id = tag_seq then
      some ⟨c.payload.length, pos % 2 ^ 32,
        .seq ⟨c.payload.length / 4, List.replicate (c.payload.length / 4) none⟩⟩
    else if c.id = tag_rate then
      some ⟨c.payload.length, pos % 2 ^ 32,
        .rate ⟨c.payload.length / 4, words_of c.payload⟩⟩
    else none
  | .fram subs =>
    some ⟨4 + (raw_concat subs).length, pos % 2 ^ 32, .list (frame_list (icon_frames subs))⟩

/-- The bytes of a sequence of complete top-level chunks. -/
def items_bytes : List Item → List Nat
  | [] => []
  | it :: its => it.bytes ++ items_bytes its

/-- The chunk sequence that complete chunks standing from `pos` on owe. -/
def decode_items (pos : Nat) : List Item → List Chunk
  | [] => []
  | it :: its => (it.decoded pos).toList ++ decode_items (pos + it.bytes.length) its

/-- The chunk `c` with its offset moved by `k` bytes. -/
def Chunk.shifted (k : Nat) (c : Chunk) : Chunk := { c with off := (c.off + k) % 2 ^ 32 }

/-- The number of subchunks of a complete top-level chunk: the iterations that
the frame loop needs for it. -/
def Item.subchunks : Item → Nat
  | .plain _ => 0
  | .fram subs => subs.length

/-- The declared size of a complete top-level chunk. -/
def Item.csize : Item → Nat
  | .plain c => c.payload.length
  | .fram subs => 4 + (raw_concat subs).length

/-- The context `ctx` with the contents of its stream replaced by `d`. -/
def with_data (d : List Nat) (ctx : ParseContext) : ParseContext :=
  { ctx with file := { ctx.file with data := d } }

/-- The stream of `ctx` and the stream `d` hold the same bytes from the read
position of `ctx` on. -/
def AgreeFrom (d : List Nat) (ctx : ParseContext) : Prop :=
  ctx.file.data.drop ctx.file.pos = d.drop ctx.file.pos

/-- The dispatch of `parse_chunk` on the identifier `cid`, once identifier and
length were read: `pos` is the offset of the chunk and `ctx2` the context behind
the length field, with the length in `csize`.  It is the tail of `parse_chunk`,
named so that statements can speak about it. -/
def chunk_dispatch (fuel : Nat) (cid : List Nat) (pos : Nat) (ctx2 : ParseContext) :
    Option (Option Chunk × ParseContext) :=
  let mk := fun (i : Inner) => ({ size := ctx2.csize, off := pos % 2 ^ 32, inner := i } : Chunk)
  if cid = tag_anih then
    let p := parse_anih ctx2
    some (p.1.map (fun a => mk (.anih a)), p.2)
  else if cid = tag_seq then
    let p := parse_seq ctx2
    some (p.1.map (fun a => mk (.seq a)), p.2)
  else if cid = tag_rate then
    let p := parse_rate ctx2
    some (p.1.map (fun a => mk (.rate a)), p.2)
  else if cid = tag_LIST then
    match parse_list fuel ctx2 with
    | none => none
    | some p => some (p.1.map (fun a => mk (.list a)), p.2)
  else
    some (none, consume_pad (consume_bytes ctx2 ctx2.csize) ctx2.csize)

/-- The indices at which the hotspot block of `parse_list` reads the buffer of
the first frame: 2 and 3 for the type field, and 10 to 13 when the type field
is 2.  When the type field lies outside the buffer its value is indeterminate
and only the two reads that were surely made are listed. -/
def hotspot_reads (buf : List Nat) : List Nat :=
  match buf_word buf 2 with
  | some type => if type % 2 ^ 16 = 2 then [2, 3, 10, 11, 12, 13] else [2, 3]
  | none => [2, 3]

/-! ## Arithmetic of little-endian words -/

theorem u32_of_bytes_eq (b0 b1 b2 b3 : Nat) (h0 : b0 < 256) (h1 : b1 < 256) (h2 : b2 < 256)
    (h3 : b3 < 256) :
    u32_of_bytes b0 b1 b2 b3 = b0 + 256 * b1 + 65536 * b2 + 16777216 * b3 := by
  unfold u32_of_bytes
  have e1 : b0 ||| (b1 <<< 8) = 2 ^ 8 * b1 + b0 := by
    rw [Nat.mul_add_lt_is_or (by omega) b1, Nat.shiftLeft_eq, Nat.lor_comm, Nat.mul_comm]
  have e2 : (2 ^ 8 * b1 + b0) ||| (b2 <<< 16) = 2 ^ 16 * b2 + (2 ^ 8 * b1 + b0) := by
    rw [Nat.mul_add_lt_is_or (by omega) b2, Nat.shiftLeft_eq, Nat.lor_comm, Nat.mul_comm]
  have e3 : (2 ^ 16 * b2 + (2 ^ 8 * b1 + b0)) ||| (b3 <<< 24)
      = 2 ^ 24 * b3 + (2 ^ 16 * b2 + (2 ^ 8 * b1 + b0)) := by
    rw [Nat.mul_add_lt_is_or (by omega) b3, Nat.shiftLeft_eq, Nat.lor_comm, Nat.mul_comm]
  rw [e1, e2, e3]
  omega

theorem u32_of_le32 (v : Nat) (hv : v < 2 ^ 32) :
    u32_of_bytes (v % 256) (v / 256 % 256) (v / 65536 % 256) (v / 16777216 % 256) = v := by
  rw [u32_of_bytes_eq _ _ _ _ (by omega) (by omega) (by omega) (by omega)]
  omega

theorem le32_length (v : Nat) : (le32 v).length = 4 := rfl

theorem le32_bytes (v : Nat) : Bytes (le32 v) := by
  intro b hb
  simp only [le32, List.mem_cons, List.mem_singleton, List.not_mem_nil, or_false] at hb
  omega

/-! ## The walker -/

theorem walk_frames_eq {σ : Type} (vf : Frame → σ → σ) (list : ChunkList) :
    ∀ (k j : Nat) (d : σ),
      walk_frames vf list k j d = ((list.frames.drop j).take k).foldl (fun s f => vf f s) d := by
  intro k
  induction k with
  | zero => intro j d; simp [walk_frames]
  | succ k ih =>
    intro j d
    rw [walk_frames]
    cases hj : list.frames[j]? with
    | none =>
      have hlen : list.frames.length ≤ j := by
        simpa [List.getElem?_eq_none_iff] using hj
      simp [ih, List.drop_eq_nil_of_le hlen, List.drop_eq_nil_of_le (Nat.le_succ_of_le hlen)]
    | some f =>
      have hlt : j < list.frames.length := by
        rcases List.getElem?_eq_some_iff.mp hj with ⟨h, _⟩
        exact h
      have hf : list.frames[j] = f := by
        rcases List.getElem?_eq_some_iff.mp hj with ⟨_, h⟩
        exact h
      simp only [ih]
      rw [List.drop_eq_getElem_cons hlt, hf]
      simp [List.take_succ_cons]

theorem walk_frames_all {σ : Type} (vf : Frame → σ → σ) (list : ChunkList)
    (h : list.count = list.frames.length) (d : σ) :
    walk_frames vf list list.count 0 d
      = (list.frames.map Call.frame).foldl (run_call (none : Option (Chunk → σ → σ)) (some vf)) d := by
  rw [walk_frames_eq, h]
  simp [List.foldl_map, run_call]

theorem walk_chunk_eq {σ : Type} (vc : Option (Chunk → σ → σ)) (vf : Option (Frame → σ → σ))
    (c : Chunk) (hc : vf.isSome = true → ∀ l, c.inner = .list l → l.count = l.frames.length)
    (d : σ) :
    walk_chunk vc vf c d = (chunk_calls vc.isSome vf.isSome c).foldl (run_call vc vf) d := by
  unfold walk_chunk chunk_calls
  cases hi : c.inner with
  | list l =>
    cases vf with
    | none => cases vc <;> simp [run_call]
    | some g =>
      have hl := hc rfl l hi
      cases vc <;> simp [run_call, walk_frames_all _ _ hl, List.foldl_map]
  | anih a => cases vc <;> cases vf <;> simp [run_call]
  | seq a => cases vc <;> cases vf <;> simp [run_call]
  | rate a => cases vc <;> cases vf <;> simp [run_call]

theorem walk_chunks_eq {σ : Type} (vc : Option (Chunk → σ → σ)) (vf : Option (Frame → σ → σ))
    (ani : AniFile)
    (hw : vf.isSome = true →
      ∀ c ∈ ani.chunks, ∀ l, c.inner = .list l → l.count = l.frames.length) :
    ∀ (k i : Nat) (d : σ),
      walk_chunks vc vf ani k i d
        = (((ani.chunks.drop i).take k).flatMap (chunk_calls vc.isSome vf.isSome)).foldl
            (run_call vc vf) d := by
  intro k
  induction k with
  | zero => intro i d; simp [walk_chunks]
  | succ k ih =>
    intro i d
    rw [walk_chunks]
    cases hi : ani.chunks[i]? with
    | none =>
      have hlen : ani.chunks.length ≤ i := by
        simpa [List.getElem?_eq_none_iff] using hi
      simp [ih, List.drop_eq_nil_of_le hlen, List.drop_eq_nil_of_le (Nat.le_succ_of_le hlen)]
    | some c =>
      rcases List.getElem?_eq_some_iff.mp hi with ⟨hlt, hc⟩
      have hmem : c ∈ ani.chunks := hc ▸ List.getElem_mem hlt
      simp only [ih]
      rw [List.drop_eq_getElem_cons hlt, hc, List.take_succ_cons, List.flatMap_cons,
        List.foldl_append, walk_chunk_eq vc vf c (fun hv => hw hv c hmem)]

/-! ## Reads on a stream that holds what is asked for -/

theorem drop_after {data : List Nat} {pos : Nat} {x rest : List Nat}
    (h : data.drop pos = x ++ rest) : data.drop (pos + x.length) = rest := by
  rw [← List.drop_drop, h, List.drop_left]

theorem fread_ok {data : List Nat} {pos : Nat} {x rest : List Nat} (ei : Bool)
    (h : data.drop pos = x ++ rest) :
    fread ⟨data, pos, ei⟩ x.length = (x, ⟨data, pos + x.length, ei⟩) := by
  simp [fread, h]

theorem read_exact_ok {data : List Nat} {pos : Nat} {x rest : List Nat} (ei : Bool) (cs : Nat)
    (e : Bool) (h : data.drop pos = x ++ rest) :
    read_exact ⟨⟨data, pos, ei⟩, cs, e⟩ x.length = (some x, ⟨⟨data, pos + x.length, ei⟩, cs, e⟩) := by
  simp [read_exact, fread_ok ei h]

theorem read_u32_le_ok {data : List Nat} {pos : Nat} {rest : List Nat} (v : Nat) (ei : Bool)
    (cs : Nat) (e : Bool) (hv : v < 2 ^ 32) (h : data.drop pos = le32 v ++ rest) :
    read_u32_le ⟨⟨data, pos, ei⟩, cs, e⟩ = (v, ⟨⟨data, pos + 4, ei⟩, cs, e⟩) := by
  have := fread_ok ei h
  rw [le32_length] at this
  simp only [read_u32_le, this]
  simp [le32, u32_of_le32 v hv]

theorem consume_pad_eq (data : List Nat) (pos cs n padv : Nat) (e : Bool) :
    consume_pad ⟨⟨data, pos, false⟩, cs, e⟩ n
      = ⟨⟨data, pos + (pad_bytes n padv).length, false⟩, cs, e⟩ := by
  rcases Nat.mod_two_eq_zero_or_one n with h | h
  · simp [consume_pad, pad_bytes, h]
  · simp [consume_pad, pad_bytes, h, consume_bytes, fseek_cur]

theorem pad_bytes_length_mod (n padv : Nat) : (pad_bytes n padv).length = n % 2 := by
  rcases Nat.mod_two_eq_zero_or_one n with h | h <;> simp [pad_bytes, h]

theorem parse_frame_raw {data : List Nat} {pos : Nat} {rest : List Nat} (s : RawChunk)
    (cs : Nat) (e : Bool) (hid : s.id.length = 4) (hlen : s.payload.length < 2 ^ 32)
    (h : data.drop pos = s.bytes ++ rest) :
    parse_frame ⟨⟨data, pos, false⟩, cs, e⟩
      = (if s.id = tag_icon then some ⟨s.payload.length, s.payload⟩ else none,
         ⟨⟨data, pos + s.bytes.length, false⟩, cs, e⟩) := by
  have h1 : data.drop pos
      = s.id ++ (le32 s.payload.length ++ (s.payload ++
          (pad_bytes s.payload.length s.padv ++ rest))) := by
    rw [h]; simp [RawChunk.bytes]
  have r1 := read_exact_ok false cs e h1
  have h2 := drop_after h1
  have r2 := read_u32_le_ok s.payload.length false cs e hlen h2
  have h3 := drop_after h2
  rw [le32_length] at h3
  have r3 := read_exact_ok false cs e h3
  rw [hid] at r1 h2 r2 h3 r3
  have hb : s.bytes.length = 4 + 4 + s.payload.length
      + (pad_bytes s.payload.length s.padv).length := by
    simp [RawChunk.bytes, hid, le32_length]; omega
  unfold parse_frame
  rw [r1]
  simp only [r2]
  by_cases hi : s.id = tag_icon
  · simp only [hi, if_true, r3]
    rw [consume_pad_eq _ _ _ _ s.padv, hb]
    congr 3; omega
  · simp only [hi, if_false]
    simp only [consume_bytes, fseek_cur]
    rw [consume_pad_eq _ _ _ _ s.padv, hb]
    congr 3; omega

/-! ## The frame loop on complete subchunks -/

theorem raw_bytes_length (s : RawChunk) :
    s.bytes.length = s.id.length + 4 + s.payload.length
      + (pad_bytes s.payload.length s.padv).length := by
  simp [RawChunk.bytes, le32_length]; omega

theorem raw_concat_mem_le {subs : List RawChunk} {s : RawChunk} (h : s ∈ subs) :
    s.bytes.length ≤ (raw_concat subs).length := by
  induction subs with
  | nil => cases h
  | cons c cs ih =>
    simp only [raw_concat, List.length_append]
    rcases List.mem_cons.mp h with rfl | h'
    · omega
    · have := ih h'; omega

theorem icon_frames_cons (s : RawChunk) (subs : List RawChunk) :
    icon_frames (s :: subs)
      = if s.id = tag_icon then ⟨s.payload.length, s.payload⟩ :: icon_frames subs
        else icon_frames subs := by
  by_cases h : s.id = tag_icon <;> simp [icon_frames, List.filter_cons, h]

theorem frames_loop_done (list_end fuel : Nat) (st : ChunkList × Nat) (ctx : ParseContext)
    (h : list_end ≤ ctx.file.pos) : frames_loop list_end fuel st ctx = some (st.1, ctx) := by
  cases fuel <;> simp [frames_loop, Nat.not_lt.mpr h]

theorem frames_loop_raw (data rest : List Nat) (cs : Nat) (e : Bool) :
    ∀ (subs : List RawChunk) (fuel : Nat) (st : ChunkList × Nat) (pos : Nat),
      subs.length ≤ fuel →
      (∀ s ∈ subs, s.id.length = 4 ∧ s.payload.length < 2 ^ 32) →
      data.drop pos = raw_concat subs ++ rest →
      frames_loop (pos + (raw_concat subs).length) fuel st ⟨⟨data, pos, false⟩, cs, e⟩
        = some (((icon_frames subs).foldl push_frame st).1,
            ⟨⟨data, pos + (raw_concat subs).length, false⟩, cs, e⟩) := by
  intro subs
  induction subs with
  | nil =>
    intro fuel st pos _ _ _
    simp only [raw_concat, List.length_nil, Nat.add_zero]
    rw [frames_loop_done pos fuel st ⟨⟨data, pos, false⟩, cs, e⟩ (Nat.le_refl _)]
    simp [icon_frames]
  | cons s subs ih =>
    intro fuel st pos hfuel hwf hdrop
    obtain ⟨hid, hlen⟩ := hwf s (List.mem_cons_self _ _)
    cases fuel with
    | zero => simp at hfuel
    | succ fuel =>
      have hb := raw_bytes_length s
      have hdrop1 : data.drop pos = s.bytes ++ (raw_concat subs ++ rest) := by
        rw [hdrop]; simp [raw_concat]
      have hpf := parse_frame_raw s cs e hid hlen hdrop1
      have hnext := drop_after hdrop1
      have hrec := fun st' => ih fuel st' (pos + s.bytes.length)
        (by simpa using hfuel) (fun s' hs' => hwf s' (List.mem_cons_of_mem _ hs')) hnext
      have hlt : pos < pos + (raw_concat (s :: subs)).length := by
        simp only [raw_concat, List.length_append]; omega
      have hend : pos + (raw_concat (s :: subs)).length
          = pos + s.bytes.length + (raw_concat subs).length := by
        simp only [raw_concat, List.length_append]; omega
      rw [frames_loop]
      simp only [hlt, if_true, hpf]
      rw [icon_frames_cons]
      by_cases hi : s.id = tag_icon
      · simp only [hi, if_true, List.foldl_cons]
        rw [hend]; exact hrec _
      · simp only [hi, if_false]
        rw [hend]; exact hrec _

/-- The list that the frame loop builds from the frames `fs`, in order. -/
theorem push_frame_fold_frames (fs : List Frame) :
    ∀ st : ChunkList × Nat,
      (fs.foldl push_frame st).1.frames = st.1.frames ++ fs
      ∧ (fs.foldl push_frame st).1.count = st.1.count + fs.length
      ∧ (fs.foldl push_frame st).2 = st.2 + fs.length := by
  induction fs with
  | nil => intro st; simp
  | cons f fs ih =>
    intro st
    obtain ⟨h1, h2, h3⟩ := ih (push_frame st f)
    simp only [List.foldl_cons, h1, h2, h3]
    have hf : (push_frame st f).1.frames = st.1.frames ++ [f] := by
      unfold push_frame hotspot
      split <;> [split <;> [rfl; split <;> rfl]; rfl]
    have hc : (push_frame st f).1.count = st.1.count + 1 := by
      unfold push_frame hotspot
      split <;> [split <;> [rfl; split <;> rfl]; rfl]
    have hn : (push_frame st f).2 = st.2 + 1 := rfl
    rw [hf, hc, hn]
    simp only [List.append_assoc, List.singleton_append, List.length_cons, true_and]
    omega

theorem ChunkList.eq_of_fields {a b : ChunkList} (h1 : a.count = b.count)
    (h2 : a.frames = b.frames) (h3 : a.hotx = b.hotx) (h4 : a.hoty = b.hoty) : a = b := by
  cases a; cases b; simp_all

theorem push_frame_hot (st : ChunkList × Nat) (f : Frame) :
    (push_frame st f).1.hotx = (if st.2 = 0 then (hotspot st.1 f).hotx else st.1.hotx)
    ∧ (push_frame st f).1.hoty = (if st.2 = 0 then (hotspot st.1 f).hoty else st.1.hoty) := by
  unfold push_frame
  by_cases h : st.2 = 0 <;> simp [h]

theorem push_frame_fold_hot (fs : List Frame) :
    ∀ st : ChunkList × Nat, st.2 ≠ 0 →
      (fs.foldl push_frame st).1.hotx = st.1.hotx
      ∧ (fs.foldl push_frame st).1.hoty = st.1.hoty := by
  induction fs with
  | nil => intro st _; simp
  | cons f fs ih =>
    intro st hst
    have hn : (push_frame st f).2 ≠ 0 := by simp [push_frame]
    obtain ⟨h1, h2⟩ := ih (push_frame st f) hn
    obtain ⟨g1, g2⟩ := push_frame_hot st f
    simp only [List.foldl_cons, h1, h2, g1, g2, hst, if_false, and_self]

theorem hotspot_frames (l : ChunkList) (f : Frame) :
    (hotspot l f).frames = l.frames ∧ (hotspot l f).count = l.count := by
  unfold hotspot
  split <;> [exact ⟨rfl, rfl⟩; split <;> exact ⟨rfl, rfl⟩]

theorem push_frame_fold_init (fs : List Frame) :
    (fs.foldl push_frame ({ count := 0, frames := [], hotx := none, hoty := none }, 0)).1
      = frame_list fs := by
  cases fs with
  | nil => rfl
  | cons f fs =>
    obtain ⟨h1, h2, _⟩ := push_frame_fold_frames fs
      (push_frame ({ count := 0, frames := [], hotx := none, hoty := none }, 0) f)
    obtain ⟨h3, h4⟩ := push_frame_fold_hot fs
      (push_frame ({ count := 0, frames := [], hotx := none, hoty := none }, 0) f)
      (by simp [push_frame])
    obtain ⟨g1, g2⟩ := push_frame_hot ({ count := 0, frames := [], hotx := none, hoty := none }, 0) f
    obtain ⟨k1, k2⟩ := hotspot_frames { count := 0, frames := [], hotx := none, hoty := none } f
    apply ChunkList.eq_of_fields
    · simp only [List.foldl_cons, h2, frame_list, List.length_cons]
      simp only [push_frame, if_true, k2]; omega
    · simp only [List.foldl_cons, h1, frame_list]
      simp only [push_frame, if_true, k1]; simp
    · simp only [List.foldl_cons, h3, g1, if_true, frame_list]
    · simp only [List.foldl_cons, h4, g2, if_true, frame_list]

theorem parse_list_fram (data rest : List Nat) (pos n : Nat) (e : Bool) (subs : List RawChunk)
    (fuel : Nat) (hfuel : subs.length ≤ fuel) (hid : ∀ s ∈ subs, s.id.length = 4)
    (hn : n = 4 + (raw_concat subs).length) (hn32 : n < 2 ^ 32)
    (hdrop : data.drop pos = tag_fram ++ (raw_concat subs ++ rest)) :
    parse_list fuel ⟨⟨data, pos, false⟩, n, e⟩
      = some (some (frame_list (icon_frames subs)),
          consume_pad ⟨⟨data, pos + n, false⟩, n, e⟩ n) := by
  have r1 := read_exact_ok false n e hdrop
  have h2 := drop_after hdrop
  have hl : tag_fram.length = 4 := rfl
  rw [hl] at r1 h2
  have hwf : ∀ s ∈ subs, s.id.length = 4 ∧ s.payload.length < 2 ^ 32 := by
    intro s hs
    refine ⟨hid s hs, ?_⟩
    have := raw_concat_mem_le hs
    have := raw_bytes_length s
    omega
  have hloop := frames_loop_raw data rest n e subs fuel
    ({ count := 0, frames := [], hotx := none, hoty := none }, 0) (pos + 4) hfuel hwf h2
  have hpay : (n + 2 ^ 32 - 4) % 2 ^ 32 = (raw_concat subs).length := by omega
  unfold parse_list
  rw [r1]
  dsimp only
  rw [hpay, if_pos rfl, hloop, push_frame_fold_init]
  have hpos : pos + 4 + (raw_concat subs).length = pos + n := by omega
  rw [hpos]

/-! ## One top-level chunk -/

theorem consume_pad_mod (data : List Nat) (pos cs n : Nat) (e : Bool) :
    consume_pad ⟨⟨data, pos, false⟩, cs, e⟩ n = ⟨⟨data, pos + n % 2, false⟩, cs, e⟩ := by
  rcases Nat.mod_two_eq_zero_or_one n with h | h
  · simp [consume_pad, h]
  · simp [consume_pad, h, consume_bytes, fseek_cur]

theorem frame_list_frames (fs : List Frame) :
    (frame_list fs).frames = fs ∧ (frame_list fs).count = fs.length := by
  cases fs with
  | nil => exact ⟨rfl, rfl⟩
  | cons f fs => exact ⟨rfl, rfl⟩

/-- What `parse_chunk` does once identifier and length were read: the dispatch
on the identifier, with the length stored in the context. -/
theorem parse_chunk_header (data rest cid : List Nat) (pos cs n fuel : Nat) (e : Bool)
    (hcid : cid.length = 4) (hn : n < 2 ^ 32) (hdrop : data.drop pos = cid ++ (le32 n ++ rest)) :
    parse_chunk fuel ⟨⟨data, pos, false⟩, cs, e⟩ =
      (let ctx2 : ParseContext := ⟨⟨data, pos + 8, false⟩, n, e⟩
       let mk := fun (i : Inner) => ({ size := n, off := pos % 2 ^ 32, inner := i } : Chunk)
       if cid = tag_anih then
         some ((parse_anih ctx2).1.map (fun a => mk (.anih a)), (parse_anih ctx2).2)
       else if cid = tag_seq then
         some ((parse_seq ctx2).1.map (fun a => mk (.seq a)), (parse_seq ctx2).2)
       else if cid = tag_rate then
         some ((parse_rate ctx2).1.map (fun a => mk (.rate a)), (parse_rate ctx2).2)
       else if cid = tag_LIST then
         match parse_list fuel ctx2 with
         | none => none
         | some p => some (p.1.map (fun a => mk (.list a)), p.2)
       else
         some (none, consume_pad (consume_bytes ctx2 n) n)) := by
  have r1 := read_exact_ok false cs e hdrop
  have h2 := drop_after hdrop
  have r2 := read_u32_le_ok n false cs e hn h2
  rw [hcid] at r1 h2 r2
  have h8 : pos + 4 + 4 = pos + 8 := by omega
  unfold parse_chunk
  rw [r1]
  simp only [r2, h8, Bool.false_eq_true, if_false]

theorem parse_chunk_fram (data rest : List Nat) (pos cs n fuel : Nat) (e : Bool)
    (subs : List RawChunk) (hfuel : subs.length ≤ fuel) (hid : ∀ s ∈ subs, s.id.length = 4)
    (hn : n = 4 + (raw_concat subs).length) (hn32 : n < 2 ^ 32)
    (hdrop : data.drop pos = tag_LIST ++ (le32 n ++ (tag_fram ++ (raw_concat subs ++ rest)))) :
    parse_chunk fuel ⟨⟨data, pos, false⟩, cs, e⟩
      = some (some ⟨n, pos % 2 ^ 32, .list (frame_list (icon_frames subs))⟩,
          ⟨⟨data, pos + 8 + n + n % 2, false⟩, n, e⟩) := by
  have h3 : data.drop (pos + 8) = tag_fram ++ (raw_concat subs ++ rest) := by
    have := drop_after (drop_after hdrop)
    simpa [tag_LIST, le32_length, Nat.add_assoc] using this
  rw [parse_chunk_header data _ tag_LIST pos cs n fuel e rfl hn32 hdrop]
  have hl := parse_list_fram data rest (pos + 8) n e subs fuel hfuel hid hn hn32 h3
  simp only [hl, consume_pad_mod]
  simp [tag_LIST, tag_anih, tag_seq, tag_rate]

/-! ## The hotspot -/

theorem buf_word_eq (b : List Nat) (i : Nat) (hi : i + 1 < b.length) (hb : Bytes b) :
    buf_word b i = some (b.getD i 0 + 256 * b.getD (i + 1) 0) := by
  have h0 : i < b.length := by omega
  have hlo : b[i] < 256 := hb _ (List.getElem_mem h0)
  unfold buf_word
  simp only [List.getElem?_eq_getElem h0, List.getElem?_eq_getElem hi, List.getD_eq_getElem?_getD,
    Option.getD_some]
  rw [Nat.shiftLeft_eq, Nat.lor_comm, Nat.mul_comm, ← Nat.mul_add_lt_is_or (by omega)]
  congr 1
  omega

theorem hotspot_eq (l : ChunkList) (f : Frame) (hlen : 14 ≤ f.buffer.length)
    (hb : Bytes f.buffer) :
    ((hotspot l f).hotx, (hotspot l f).hoty)
      = if f.buffer.getD 2 0 + 256 * f.buffer.getD 3 0 = 2 then
          (some (f.buffer.getD 10 0 + 256 * f.buffer.getD 11 0),
           some (f.buffer.getD 12 0 + 256 * f.buffer.getD 13 0))
        else (some 0, some 0) := by
  have h2 : f.buffer.getD 2 0 < 256 := by
    rw [List.getD_eq_getElem _ _ (by omega : 2 < f.buffer.length)]
    exact hb _ (List.getElem_mem _)
  have h3 : f.buffer.getD 3 0 < 256 := by
    rw [List.getD_eq_getElem _ _ (by omega : 3 < f.buffer.length)]
    exact hb _ (List.getElem_mem _)
  unfold hotspot
  rw [buf_word_eq _ 2 (by omega) hb, buf_word_eq _ 10 (by omega) hb,
    buf_word_eq _ 12 (by omega) hb]
  have hm : (f.buffer.getD 2 0 + 256 * f.buffer.getD (2 + 1) 0) % 2 ^ 16
      = f.buffer.getD 2 0 + 256 * f.buffer.getD 3 0 := by
    apply Nat.mod_eq_of_lt
    show _ + 256 * f.buffer.getD 3 0 < _
    omega
  simp only [hm]
  by_cases h : f.buffer.getD 2 0 + 256 * f.buffer.getD 3 0 = 2
  · simp only [if_pos h]
  · simp only [if_neg h]

theorem icon_frames_first (pre post : List RawChunk) (b : List Nat) (padv : Nat)
    (hpre : ∀ s ∈ pre, s.id ≠ tag_icon) :
    icon_frames (pre ++ ⟨tag_icon, b, padv⟩ :: post) = ⟨b.length, b⟩ :: icon_frames post := by
  induction pre with
  | nil => simp [icon_frames_cons]
  | cons s pre ih =>
    have hs : s.id ≠ tag_icon := hpre s (List.mem_cons_self _ _)
    rw [List.cons_append, icon_frames_cons, if_neg hs]
    exact ih (fun s' hs' => hpre s' (List.mem_cons_of_mem _ hs'))

theorem frame_list_hot (f : Frame) (fs : List Frame) :
    (frame_list (f :: fs)).hotx = (hotspot ⟨0, [], none, none⟩ f).hotx
    ∧ (frame_list (f :: fs)).hoty = (hotspot ⟨0, [], none, none⟩ f).hoty :=
  ⟨rfl, rfl⟩

/-! ## The `anih` and `rate` decoders on complete payloads -/

theorem anih_bytes_length (a : ChunkAnih) : (anih_bytes a).length = 36 := rfl

theorem parse_anih_ok (data rest : List Nat) (pos : Nat) (e : Bool) (a : ChunkAnih)
    (ha : a.IsU32) (hdrop : data.drop pos = anih_bytes a ++ rest) :
    parse_anih ⟨⟨data, pos, false⟩, 36, e⟩ = (some a, ⟨⟨data, pos + 36, false⟩, 36, e⟩) := by
  have r1 := read_exact_ok false 36 e hdrop
  rw [anih_bytes_length] at r1
  obtain ⟨h1, h2, h3, h4, h5, h6, h7, h8, h9⟩ := ha
  unfold parse_anih
  simp only [Nat.lt_irrefl, if_false, r1, consume_pad_mod]
  simp only [anih_of_buf, anih_bytes, le32, List.cons_append, List.nil_append, List.getD_cons_zero,
    List.getD_cons_succ, u32_of_le32 _ h1, u32_of_le32 _ h2, u32_of_le32 _ h3, u32_of_le32 _ h4,
    u32_of_le32 _ h5, u32_of_le32 _ h6, u32_of_le32 _ h7, u32_of_le32 _ h8, u32_of_le32 _ h9]

theorem le32s_length (vs : List Nat) : (le32s vs).length = 4 * vs.length := by
  induction vs with
  | nil => rfl
  | cons v vs ih => simp only [le32s, List.length_append, le32_length, ih, List.length_cons]; omega

theorem read_u32_loop_ok (data rest : List Nat) (cs : Nat) (e : Bool) :
    ∀ (vs : List Nat) (pos : Nat), (∀ v ∈ vs, v < 2 ^ 32) →
      data.drop pos = le32s vs ++ rest →
      read_u32_loop vs.length ⟨⟨data, pos, false⟩, cs, e⟩
        = (vs, ⟨⟨data, pos + 4 * vs.length, false⟩, cs, e⟩) := by
  intro vs
  induction vs with
  | nil => intro pos _ _; rfl
  | cons v vs ih =>
    intro pos hv hdrop
    have hd1 : data.drop pos = le32 v ++ (le32s vs ++ rest) := by
      rw [hdrop]; simp [le32s]
    have r1 := read_u32_le_ok v false cs e (hv v (List.mem_cons_self _ _)) hd1
    have h2 := drop_after hd1
    rw [le32_length] at h2
    have hrec := ih (pos + 4) (fun w hw => hv w (List.mem_cons_of_mem _ hw)) h2
    have hp : pos + 4 + 4 * vs.length = pos + 4 * (vs.length + 1) := by omega
    simp only [List.length_cons, read_u32_loop, r1, hrec, hp]

theorem parse_rate_ok (data rest : List Nat) (pos : Nat) (e : Bool) (vs : List Nat)
    (hv : ∀ v ∈ vs, v < 2 ^ 32) (hdrop : data.drop pos = le32s vs ++ rest) :
    parse_rate ⟨⟨data, pos, false⟩, 4 * vs.length, e⟩
      = (some ⟨vs.length, vs⟩, ⟨⟨data, pos + 4 * vs.length, false⟩, 4 * vs.length, e⟩) := by
  have hc : 4 * vs.length / 4 = vs.length := by omega
  have hloop := read_u32_loop_ok data rest (4 * vs.length) e vs pos hv hdrop
  unfold parse_rate
  have hp : pos + 4 * vs.length + 4 * vs.length % 2 = pos + 4 * vs.length := by omega
  simp only [hc, hloop, consume_pad_mod, hp]

/-! ## The document loop -/

theorem fread_avail (data : List Nat) (pos n : Nat) (ei : Bool) (h : pos + n ≤ data.length) :
    fread ⟨data, pos, ei⟩ n = ((data.drop pos).take n, ⟨data, pos + n, ei⟩) := by
  have hl : ((data.drop pos).take n).length = n := by
    rw [List.length_take, List.length_drop]; omega
  simp [fread, hl]

theorem read_exact_avail (data : List Nat) (pos n cs : Nat) (ei e : Bool)
    (h : pos + n ≤ data.length) :
    read_exact ⟨⟨data, pos, ei⟩, cs, e⟩ n
      = (some ((data.drop pos).take n), ⟨⟨data, pos + n, ei⟩, cs, e⟩) := by
  have hl : ((data.drop pos).take n).length = n := by
    rw [List.length_take, List.length_drop]; omega
  simp [read_exact, fread_avail data pos n ei h, hl]

theorem read_u32_le_snd (ctx : ParseContext) :
    (read_u32_le ctx).2 = { ctx with file := (fread ctx.file 4).2 } := by
  unfold read_u32_le
  dsimp only
  split <;> rfl

theorem read_envelope_ok (data : List Nat) (h : 12 ≤ data.length) :
    read_envelope (initial_ctx data) = ⟨⟨data, 12, false⟩, 0, false⟩ := by
  unfold read_envelope initial_ctx
  rw [read_exact_avail data 0 4 0 false false (by omega)]
  simp only [read_u32_le_snd, fread_avail data (0 + 4) 4 false (by omega)]
  rw [read_exact_avail data (0 + 4 + 4) 4 0 false false (by omega)]

theorem read_exact_short (data : List Nat) (pos n cs : Nat) (ei e : Bool)
    (h : data.length < pos + n) (h0 : 0 < n) : (read_exact ⟨⟨data, pos, ei⟩, cs, e⟩ n).1 = none := by
  have hl : ((data.drop pos).take n).length ≠ n := by
    rw [List.length_take, List.length_drop]; omega
  simp only [read_exact, fread]
  split <;> simp_all

theorem parse_chunk_short (data : List Nat) (pos cs fuel : Nat) (ei e : Bool)
    (h : data.length < pos + 4) :
    ∃ ctx1, parse_chunk fuel ⟨⟨data, pos, ei⟩, cs, e⟩ = some (none, ctx1) ∧ ctx1.eof = true := by
  have hr := read_exact_short data pos 4 cs ei e h (by omega)
  unfold parse_chunk
  generalize read_exact ⟨⟨data, pos, ei⟩, cs, e⟩ 4 = r at hr
  obtain ⟨r1, r2⟩ := r
  simp only at hr
  subst hr
  exact ⟨_, rfl, rfl⟩

theorem chunks_loop_short (data : List Nat) (pos cs inner fuel : Nat) (ei e : Bool) (ani : AniFile)
    (h : data.length < pos + 4) :
    chunks_loop inner (fuel + 1) ani ⟨⟨data, pos, ei⟩, cs, e⟩ = some ani := by
  obtain ⟨ctx1, h1, h2⟩ := parse_chunk_short data pos cs inner ei e h
  simp [chunks_loop, h1, h2]

theorem chunks_loop_some (inner fuel : Nat) (ani : AniFile) (ctx ctx1 : ParseContext) (c : Chunk)
    (hp : parse_chunk inner ctx = some (some c, ctx1)) (he : ctx1.eof = false) :
    chunks_loop inner (fuel + 1) ani ctx
      = chunks_loop inner fuel ⟨ani.chunk_count + 1, ani.chunks ++ [c]⟩ ctx1 := by
  simp [chunks_loop, hp, he]

theorem chunks_loop_none (inner fuel : Nat) (ani : AniFile) (ctx ctx1 : ParseContext)
    (hp : parse_chunk inner ctx = some (none, ctx1)) (he : ctx1.eof = false) :
    chunks_loop inner (fuel + 1) ani ctx = chunks_loop inner fuel ani ctx1 := by
  simp [chunks_loop, hp, he]

theorem parse_chunk_anih_ok (data rest : List Nat) (pos cs fuel : Nat) (e : Bool) (a : ChunkAnih)
    (ha : a.IsU32) (hdrop : data.drop pos = tag_anih ++ (le32 36 ++ (anih_bytes a ++ rest))) :
    parse_chunk fuel ⟨⟨data, pos, false⟩, cs, e⟩
      = some (some ⟨36, pos % 2 ^ 32, .anih a⟩, ⟨⟨data, pos + 44, false⟩, 36, e⟩) := by
  have h3 : data.drop (pos + 8) = anih_bytes a ++ rest := by
    have := drop_after (drop_after hdrop)
    simpa [tag_anih, le32_length, Nat.add_assoc] using this
  rw [parse_chunk_header data _ tag_anih pos cs 36 fuel e rfl (by omega) hdrop]
  simp only [parse_anih_ok data rest (pos + 8) e a ha h3]
  simp [Nat.add_assoc]

theorem parse_chunk_rate_ok (data rest : List Nat) (pos cs fuel : Nat) (e : Bool) (vs : List Nat)
    (hv : ∀ v ∈ vs, v < 2 ^ 32) (hn : 4 * vs.length < 2 ^ 32)
    (hdrop : data.drop pos = tag_rate ++ (le32 (4 * vs.length) ++ (le32s vs ++ rest))) :
    parse_chunk fuel ⟨⟨data, pos, false⟩, cs, e⟩
      = some (some ⟨4 * vs.length, pos % 2 ^ 32, .rate ⟨vs.length, vs⟩⟩,
          ⟨⟨data, pos + 8 + 4 * vs.length, false⟩, 4 * vs.length, e⟩) := by
  have h3 : data.drop (pos + 8) = le32s vs ++ rest := by
    have := drop_after (drop_after hdrop)
    simpa [tag_rate, le32_length, Nat.add_assoc] using this
  rw [parse_chunk_header data _ tag_rate pos cs (4 * vs.length) fuel e rfl hn hdrop]
  simp only [parse_rate_ok data rest (pos + 8) e vs hv h3]
  simp [tag_rate, tag_anih, tag_seq]

/-! ## The round trip -/

theorem icon_frames_icon_chunks (bufs : List (List Nat)) (padv : Nat) :
    icon_frames (icon_chunks bufs padv) = bufs.map (fun b => ⟨b.length, b⟩) := by
  induction bufs with
  | nil => rfl
  | cons b bufs ih =>
    have : icon_chunks (b :: bufs) padv = ⟨tag_icon, b, padv⟩ :: icon_chunks bufs padv := rfl
    rw [this, icon_frames_cons, if_pos rfl, ih]
    rfl

theorem synthetic_decodes (riff_size padv : Nat) (a : ChunkAnih) (js : List Nat)
    (bufs : List (List Nat)) (fuel : Nat) (ha : a.IsU32) (hj : ∀ v ∈ js, v < 2 ^ 32)
    (hrate : 4 * js.length < 2 ^ 32)
    (hlist : 4 + (raw_concat (icon_chunks bufs padv)).length < 2 ^ 32)
    (hfuel : bufs.length + 4 ≤ fuel) :
    parse_ani fuel (synthetic_stream riff_size a js bufs padv)
      = some ⟨3, [⟨36, 12, .anih a⟩,
          ⟨4 * js.length, 56, .rate ⟨js.length, js⟩⟩,
          ⟨4 + (raw_concat (icon_chunks bufs padv)).length, (64 + 4 * js.length) % 2 ^ 32,
            .list (frame_list (bufs.map (fun b => ⟨b.length, b⟩)))⟩]⟩ := by
  obtain ⟨k, rfl⟩ : ∃ k, fuel = k + 4 := ⟨fuel - 4, by omega⟩
  generalize hs : synthetic_stream riff_size a js bufs padv = s
  generalize hL : raw_concat (icon_chunks bufs padv) = L at hlist
  have hlen : s.length = 12 + 44 + (8 + 4 * js.length) + (8 + (4 + L.length)) := by
    rw [← hs, ← hL]
    simp only [synthetic_stream, List.length_append, le32_length, anih_bytes_length, le32s_length]
    simp only [tag_RIFF, tag_ACON, tag_anih, tag_rate, tag_LIST, tag_fram, List.length_cons,
      List.length_nil]
    omega
  have hd0 : s.drop 12 = tag_anih ++ (le32 36 ++ (anih_bytes a ++
      ((tag_rate ++ (le32 (4 * js.length) ++ le32s js)) ++
        (tag_LIST ++ (le32 (4 + L.length) ++ (tag_fram ++ L)))))) := by
    rw [← hs, ← hL, synthetic_stream]
    rw [List.drop_left' (by rfl)]
    simp only [List.append_assoc]
  have hd1 : s.drop (12 + 44) = tag_rate ++ (le32 (4 * js.length) ++ (le32s js ++
      (tag_LIST ++ (le32 (4 + L.length) ++ (tag_fram ++ L))))) := by
    have := drop_after (drop_after (drop_after hd0))
    simpa [tag_anih, le32_length, anih_bytes_length, Nat.add_assoc] using this
  have hd2 : s.drop (12 + 44 + 8 + 4 * js.length)
      = tag_LIST ++ (le32 (4 + L.length) ++ (tag_fram ++ (L ++ []))) := by
    have := drop_after (drop_after (drop_after hd1))
    simpa [tag_rate, le32_length, le32s_length, Nat.add_assoc] using this
  have hsubs : (icon_chunks bufs padv).length ≤ k + 4 := by
    simp only [icon_chunks, List.length_map]; omega
  have hids : ∀ c ∈ icon_chunks bufs padv, c.id.length = 4 := by
    intro c hc
    simp only [icon_chunks, List.mem_map] at hc
    obtain ⟨b, _, rfl⟩ := hc
    rfl
  have p1 := parse_chunk_anih_ok s _ 12 0 (k + 4) false a ha hd0
  have p2 := parse_chunk_rate_ok s _ (12 + 44) 36 (k + 4) false js hj hrate hd1
  have p3 := parse_chunk_fram s [] (12 + 44 + 8 + 4 * js.length) (4 * js.length) (4 + L.length)
    (k + 4) false (icon_chunks bufs padv) hsubs hids (by rw [hL]) hlist (by rw [hL]; exact hd2)
  have hs12 : (12 : Nat) ≤ s.length := by omega
  show chunks_loop (k + 4) (k + 4) ⟨0, []⟩ (read_envelope (initial_ctx s)) = _
  rw [read_envelope_ok s hs12, chunks_loop_some _ _ _ _ _ _ p1 rfl,
    chunks_loop_some _ _ _ _ _ _ p2 rfl, chunks_loop_some _ _ _ _ _ _ p3 rfl,
    chunks_loop_short _ _ _ _ _ _ _ _ (by omega)]
  rw [icon_frames_icon_chunks]
  have e1 : (12 + 44) % 2 ^ 32 = 56 := by norm_num
  have e2 : (12 + 44 + 8 + 4 * js.length) % 2 ^ 32 = (64 + 4 * js.length) % 2 ^ 32 := by
    congr 1
  simp only [e1, e2, Nat.zero_add, List.nil_append, List.cons_append, List.singleton_append]
  rfl

theorem foldl_record (vc : Option (Chunk → List Call → List Call))
    (vf : Option (Frame → List Call → List Call))
    (hvc : ∀ g, vc = some g → g = record_chunk) (hvf : ∀ g, vf = some g → g = record_frame)
    (hc : Bool) (hf : Bool) (hhc : hc = vc.isSome) (hhf : hf = vf.isSome) :
    ∀ (cs : List Chunk) (t : List Call),
      (cs.flatMap (chunk_calls hc hf)).foldl (run_call vc vf) t
        = t ++ cs.flatMap (chunk_calls hc hf) := by
  have key : ∀ (calls : List Call) (t : List Call),
      (∀ c, Call.chunk c ∈ calls → hc = true) → (∀ f, Call.frame f ∈ calls → hf = true) →
      calls.foldl (run_call vc vf) t = t ++ calls := by
    intro calls
    induction calls with
    | nil => intro t _ _; simp
    | cons x xs ih =>
      intro t h1 h2
      rw [List.foldl_cons, ih _ (fun c hm => h1 c (List.mem_cons_of_mem _ hm))
        (fun f hm => h2 f (List.mem_cons_of_mem _ hm))]
      cases x with
      | chunk c =>
        have := h1 c (List.mem_cons_self _ _)
        cases hv : vc with
        | none => rw [hhc, hv] at this; cases this
        | some g => rw [hvc g hv]; simp [run_call, record_chunk]
      | frame f =>
        have := h2 f (List.mem_cons_self _ _)
        cases hv : vf with
        | none => rw [hhf, hv] at this; cases this
        | some g => rw [hvf g hv]; simp [run_call, record_frame]
  intro cs t
  apply key
  · intro c hm
    simp only [List.mem_flatMap, chunk_calls, List.mem_append] at hm
    obtain ⟨c', _, h | h⟩ := hm
    · cases hc <;> simp_all
    · cases hi : c'.inner <;> rw [hi] at h <;> simp at h
  · intro f hm
    simp only [List.mem_flatMap, chunk_calls, List.mem_append] at hm
    obtain ⟨c', _, h | h⟩ := hm
    · cases hc <;> simp at h
    · cases hi : c'.inner <;> rw [hi] at h <;> simp at h
      cases hf <;> simp_all

theorem icon_chunks_length (bufs : List (List Nat)) (padv : Nat) :
    (raw_concat (icon_chunks bufs padv)).length
      = (bufs.map (fun b => 8 + b.length + b.length % 2)).sum := by
  induction bufs with
  | nil => rfl
  | cons b bufs ih =>
    have hc : icon_chunks (b :: bufs) padv = ⟨tag_icon, b, padv⟩ :: icon_chunks bufs padv := rfl
    have hb := raw_bytes_length (⟨tag_icon, b, padv⟩ : RawChunk)
    rw [pad_bytes_length_mod] at hb
    rw [hc, raw_concat, List.length_append, ih, hb, List.map_cons, List.sum_cons]
    rfl

/-! ## Claims -/

/-- C1. Round trip: the synthetic stream made of the envelope, an `anih` chunk of
declared size 36 with nine 32-bit fields, a `rate` chunk with `N` 32-bit jiffies
and a `LIST`/`fram` chunk with `N` buffers as padded `icon` subchunks decodes,
with enough fuel, to exactly three chunks in that order: the header with the
nine fields, the rate table with count `N` and the jiffies in order, and the
frame list with count `N` whose frames are the buffers with their sizes. -/
theorem round_trip (N riff_size padv : Nat) (a : ChunkAnih) (js : List Nat)
    (bufs : List (List Nat)) (fuel : Nat) (hjs : js.length = N) (hbufs : bufs.length = N)
    (ha : a.IsU32) (hj : ∀ v ∈ js, v < 2 ^ 32) (hrate : 4 * N < 2 ^ 32)
    (hlist : 4 + (raw_concat (icon_chunks bufs padv)).length < 2 ^ 32)
    (hfuel : N + 4 ≤ fuel) :
    (4 + (raw_concat (icon_chunks bufs padv)).length
        = 4 + (bufs.map (fun b => 8 + b.length + b.length % 2)).sum)
    ∧ ∃ hx hy, parse_ani fuel (synthetic_stream riff_size a js bufs padv)
      = some ⟨3, [⟨36, 12, .anih a⟩,
          ⟨4 * N, 56, .rate ⟨N, js⟩⟩,
          ⟨4 + (raw_concat (icon_chunks bufs padv)).length, (64 + 4 * N) % 2 ^ 32,
            .list ⟨N, bufs.map (fun b => ⟨b.length, b⟩), hx, hy⟩⟩]⟩ := by
  refine ⟨by rw [icon_chunks_length], ?_⟩
  subst hjs
  have h := synthetic_decodes riff_size padv a js bufs fuel ha hj hrate hlist
    (by rw [hbufs]; exact hfuel)
  obtain ⟨h1, h2⟩ := frame_list_frames (bufs.map (fun b => (⟨b.length, b⟩ : Frame)))
  refine ⟨(frame_list (bufs.map (fun b => ⟨b.length, b⟩))).hotx,
    (frame_list (bufs.map (fun b => ⟨b.length, b⟩))).hoty, ?_⟩
  have hl : frame_list (bufs.map (fun b => (⟨b.length, b⟩ : Frame)))
      = ⟨js.length, bufs.map (fun b => ⟨b.length, b⟩),
          (frame_list (bufs.map (fun b => ⟨b.length, b⟩))).hotx,
          (frame_list (bufs.map (fun b => ⟨b.length, b⟩))).hoty⟩ := by
    apply ChunkList.eq_of_fields
    · rw [h2, List.length_map, hbufs]
    · rw [h1]
    · rfl
    · rfl
  rw [h, ← hl]


/-- Witness of C1: one jiffy, one three-byte buffer. -/
theorem round_trip_witness :
    (ChunkAnih.IsU32 ⟨36, 1, 1, 32, 32, 8, 1, 10, 1⟩ ∧ (∀ v ∈ [7], v < 2 ^ 32) ∧
      4 + (raw_concat (icon_chunks [[1, 2, 3]] 0)).length < 2 ^ 32) ∧
    (4 + (raw_concat (icon_chunks [[1, 2, 3]] 0)).length
        = 4 + ([[1, 2, 3]].map (fun b => 8 + b.length + b.length % 2)).sum)
    ∧ ∃ hx hy, parse_ani 5 (synthetic_stream 84 ⟨36, 1, 1, 32, 32, 8, 1, 10, 1⟩ [7] [[1, 2, 3]] 0)
      = some ⟨3, [⟨36, 12, .anih ⟨36, 1, 1, 32, 32, 8, 1, 10, 1⟩⟩,
          ⟨4 * 1, 56, .rate ⟨1, [7]⟩⟩,
          ⟨4 + (raw_concat (icon_chunks [[1, 2, 3]] 0)).length, (64 + 4 * 1) % 2 ^ 32,
            .list ⟨1, [[1, 2, 3]].map (fun b => ⟨b.length, b⟩), hx, hy⟩⟩]⟩ :=
  ⟨⟨by simp [ChunkAnih.IsU32], by simp, by decide⟩,
    round_trip 1 84 0 ⟨36, 1, 1, 32, 32, 8, 1, 10, 1⟩ [7] [[1, 2, 3]] 5 rfl rfl
      (by simp [ChunkAnih.IsU32]) (by simp) (by norm_num) (by decide) (by norm_num)⟩

/-- C2. A `LIST` chunk of list-type `fram` whose payload is a concatenation of
complete subchunks that fills the declared size decodes, with enough fuel, to a
frame list whose frames are exactly the payloads of the `icon` subchunks, in
stream order and with their declared sizes; the other subchunks give no frame,
and the read position ends behind the whole chunk. -/
theorem fram_frames_are_icon_payloads (data rest : List Nat) (pos cs n fuel : Nat)
    (subs : List RawChunk) (hfuel : subs.length ≤ fuel) (hid : ∀ s ∈ subs, s.id.length = 4)
    (hn : n = 4 + (raw_concat subs).length) (hn32 : n < 2 ^ 32)
    (hdrop : data.drop pos = tag_LIST ++ (le32 n ++ (tag_fram ++ (raw_concat subs ++ rest)))) :
    ∃ l, parse_chunk fuel ⟨⟨data, pos, false⟩, cs, false⟩
        = some (some ⟨n, pos % 2 ^ 32, .list l⟩, ⟨⟨data, pos + 8 + n + n % 2, false⟩, n, false⟩)
      ∧ l.frames = (subs.filter (fun s => s.id = tag_icon)).map
          (fun s => ⟨s.payload.length, s.payload⟩)
      ∧ l.count = l.frames.length :=
  ⟨frame_list (icon_frames subs),
    parse_chunk_fram data rest pos cs n fuel false subs hfuel hid hn hn32 hdrop,
    (frame_list_frames _).1,
    by rw [(frame_list_frames _).2, (frame_list_frames _).1]⟩

/-- Witness of C2: a list with a `JUNK` subchunk of one byte and an `icon`
subchunk of four bytes. -/
theorem fram_frames_are_icon_payloads_witness :
    (26 = 4 + (raw_concat [⟨[74, 85, 78, 75], [9], 0⟩, ⟨tag_icon, [1, 2, 3, 4], 0⟩]).length) ∧
    ∃ l, parse_chunk 2
        ⟨⟨tag_LIST ++ (le32 26 ++ (tag_fram ++
            (raw_concat [⟨[74, 85, 78, 75], [9], 0⟩, ⟨tag_icon, [1, 2, 3, 4], 0⟩] ++ []))),
          0, false⟩, 0, false⟩
        = some (some ⟨26, 0 % 2 ^ 32, .list l⟩,
            ⟨⟨tag_LIST ++ (le32 26 ++ (tag_fram ++
              (raw_concat [⟨[74, 85, 78, 75], [9], 0⟩, ⟨tag_icon, [1, 2, 3, 4], 0⟩] ++ []))),
              0 + 8 + 26 + 26 % 2, false⟩, 26, false⟩)
      ∧ l.frames = (([⟨[74, 85, 78, 75], [9], 0⟩, ⟨tag_icon, [1, 2, 3, 4], 0⟩] : List RawChunk).filter
          (fun s => s.id = tag_icon)).map (fun s => ⟨s.payload.length, s.payload⟩)
      ∧ l.count = l.frames.length :=
  ⟨by decide,
    fram_frames_are_icon_payloads _ [] 0 0 26 2
      [⟨[74, 85, 78, 75], [9], 0⟩, ⟨tag_icon, [1, 2, 3, 4], 0⟩] (by decide) (by decide)
      (by decide) (by norm_num) (by rfl)⟩

/-- On a `LIST` chunk of list-type `fram` that holds complete subchunks the
decoder returns with enough fuel, and when the first `icon` subchunk holds a
buffer `b` of at least 14 bytes the hotspot of the decoded list is
`(b[10] + 256*b[11], b[12] + 256*b[13])` when `b[2] + 256*b[3] = 2` and `(0, 0)`
otherwise, whatever the non-icon subchunks `pre` before it and whatever the
subchunks `post` after it. -/
theorem hotspot_of_complete_subchunks (data rest : List Nat) (pos cs n fuel : Nat)
    (pre post : List RawChunk) (b : List Nat) (padv : Nat)
    (hpre : ∀ s ∈ pre, s.id ≠ tag_icon) (hb : Bytes b) (hlen : 14 ≤ b.length)
    (hfuel : (pre ++ ⟨tag_icon, b, padv⟩ :: post).length ≤ fuel)
    (hid : ∀ s ∈ pre ++ ⟨tag_icon, b, padv⟩ :: post, s.id.length = 4)
    (hn : n = 4 + (raw_concat (pre ++ ⟨tag_icon, b, padv⟩ :: post)).length) (hn32 : n < 2 ^ 32)
    (hdrop : data.drop pos = tag_LIST ++ (le32 n ++ (tag_fram ++
      (raw_concat (pre ++ ⟨tag_icon, b, padv⟩ :: post) ++ rest)))) :
    ∃ l ctx1, parse_chunk fuel ⟨⟨data, pos, false⟩, cs, false⟩
        = some (some ⟨n, pos % 2 ^ 32, .list l⟩, ctx1)
      ∧ l.frames.head? = some ⟨b.length, b⟩
      ∧ (l.hotx, l.hoty)
        = if b.getD 2 0 + 256 * b.getD 3 0 = 2 then
            (some (b.getD 10 0 + 256 * b.getD 11 0), some (b.getD 12 0 + 256 * b.getD 13 0))
          else (some 0, some 0) := by
  refine ⟨_, _, parse_chunk_fram data rest pos cs n fuel false _ hfuel hid hn hn32 hdrop, ?_, ?_⟩
  · rw [icon_frames_first pre post b padv hpre, (frame_list_frames _).1]
    rfl
  · rw [icon_frames_first pre post b padv hpre, (frame_list_hot _ _).1, (frame_list_hot _ _).2]
    exact hotspot_eq _ ⟨b.length, b⟩ hlen hb

/-- A cursor resource with hotspot `(5, 7)` behind a `JUNK` subchunk and before
a second frame, in a list of complete subchunks. -/
theorem hotspot_of_complete_subchunks_witness :
    (Bytes [0, 0, 2, 0, 1, 0, 32, 32, 0, 0, 5, 0, 7, 0] ∧
      14 ≤ [0, 0, 2, 0, 1, 0, 32, 32, 0, 0, 5, 0, 7, 0].length) ∧
    ∃ l ctx1, parse_chunk 3
        ⟨⟨tag_LIST ++ (le32 58 ++ (tag_fram ++ (raw_concat ([⟨[74, 85, 78, 75], [9], 0⟩] ++
            ⟨tag_icon, [0, 0, 2, 0, 1, 0, 32, 32, 0, 0, 5, 0, 7, 0], 0⟩ ::
              [⟨tag_icon, [0, 0, 2, 0, 1, 0, 32, 32, 0, 0, 9, 0, 9, 0], 0⟩]) ++ []))),
          0, false⟩, 0, false⟩
        = some (some ⟨58, 0 % 2 ^ 32, .list l⟩, ctx1)
      ∧ l.frames.head? = some ⟨[0, 0, 2, 0, 1, 0, 32, 32, 0, 0, 5, 0, 7, 0].length,
          [0, 0, 2, 0, 1, 0, 32, 32, 0, 0, 5, 0, 7, 0]⟩
      ∧ (l.hotx, l.hoty)
        = if [0, 0, 2, 0, 1, 0, 32, 32, 0, 0, 5, 0, 7, 0].getD 2 0
              + 256 * [0, 0, 2, 0, 1, 0, 32, 32, 0, 0, 5, 0, 7, 0].getD 3 0 = 2 then
            (some ([0, 0, 2, 0, 1, 0, 32, 32, 0, 0, 5, 0, 7, 0].getD 10 0
                + 256 * [0, 0, 2, 0, 1, 0, 32, 32, 0, 0, 5, 0, 7, 0].getD 11 0),
             some ([0, 0, 2, 0, 1, 0, 32, 32, 0, 0, 5, 0, 7, 0].getD 12 0
                + 256 * [0, 0, 2, 0, 1, 0, 32, 32, 0, 0, 5, 0, 7, 0].getD 13 0))
          else (some 0, some 0) :=
  ⟨⟨by intro x hx; simp at hx; omega, by decide⟩,
    hotspot_of_complete_subchunks _ [] 0 0 58 3 [⟨[74, 85, 78, 75], [9], 0⟩]
      [⟨tag_icon, [0, 0, 2, 0, 1, 0, 32, 32, 0, 0, 9, 0, 9, 0], 0⟩]
      [0, 0, 2, 0, 1, 0, 32, 32, 0, 0, 5, 0, 7, 0] 0 (by decide)
      (by intro x hx; simp at hx; omega) (by decide) (by decide) (by decide) (by decide)
      (by norm_num) (by rfl)⟩

/-- C4. On a document whose counters are the lengths of its arrays, and with
any pair of optional visitors, the effect of `walk` on the user state is that of
performing, in order, exactly the calls of `expected_calls`: per chunk in index
order the chunk visitor when one is given, then, for a frame list and when a
frame visitor is given, the frame visitor on every frame in index order.  In
particular recording visitors record exactly that call sequence, an absent
visitor is never called, and frames are visited without a chunk visitor. -/
theorem walk_call_sequence (ani : AniFile) (hw : ani.WellFormed) :
    (∀ (σ : Type) (vc : Option (Chunk → σ → σ)) (vf : Option (Frame → σ → σ)) (d : σ),
      walk ani vc vf d
        = (expected_calls vc.isSome vf.isSome ani).foldl (run_call vc vf) d)
    ∧ walk ani (some record_chunk) (some record_frame) [] = expected_calls true true ani
    ∧ walk ani none (some record_frame) [] = expected_calls false true ani
    ∧ walk ani (some record_chunk) none [] = expected_calls true false ani
    ∧ walk ani (none : Option (Chunk → List Call → List Call)) none [] = [] := by
  have gen : ∀ (σ : Type) (vc : Option (Chunk → σ → σ)) (vf : Option (Frame → σ → σ)) (d : σ),
      walk ani vc vf d
        = (expected_calls vc.isSome vf.isSome ani).foldl (run_call vc vf) d := by
    intro σ vc vf d
    unfold walk expected_calls
    rw [walk_chunks_eq vc vf ani (fun _ => hw.2), hw.1]
    simp
  refine ⟨gen, ?_, ?_, ?_, ?_⟩
  · rw [gen]
    simpa [expected_calls] using foldl_record (some record_chunk) (some record_frame)
      (by simp) (by simp) true true rfl rfl ani.chunks []
  · rw [gen]
    simpa [expected_calls] using foldl_record none (some record_frame)
      (by simp) (by simp) false true rfl rfl ani.chunks []
  · rw [gen]
    simpa [expected_calls] using foldl_record (some record_chunk) none
      (by simp) (by simp) true false rfl rfl ani.chunks []
  · rw [gen]
    have := foldl_record none none (by simp) (by simp) false false rfl rfl ani.chunks []
    simp only [expected_calls, Option.isSome_none]
    rw [this]
    simp only [List.nil_append, List.flatMap_eq_nil_iff]
    intro c _
    cases hi : c.inner <;> simp [chunk_calls, hi]

/-- Witness of C4: a document with a rate table and a frame list of two frames. -/
theorem walk_call_sequence_witness :
    AniFile.WellFormed ⟨2, [⟨4, 12, .rate ⟨1, [7]⟩⟩,
        ⟨30, 24, .list ⟨2, [⟨1, [9]⟩, ⟨2, [8, 8]⟩], none, none⟩⟩]⟩ ∧
    walk ⟨2, [⟨4, 12, .rate ⟨1, [7]⟩⟩,
        ⟨30, 24, .list ⟨2, [⟨1, [9]⟩, ⟨2, [8, 8]⟩], none, none⟩⟩]⟩
      (some record_chunk) (some record_frame) []
      = [Call.chunk ⟨4, 12, .rate ⟨1, [7]⟩⟩,
         Call.chunk ⟨30, 24, .list ⟨2, [⟨1, [9]⟩, ⟨2, [8, 8]⟩], none, none⟩⟩,
         Call.frame ⟨1, [9]⟩, Call.frame ⟨2, [8, 8]⟩] :=
  have hw : AniFile.WellFormed ⟨2, [⟨4, 12, .rate ⟨1, [7]⟩⟩,
      ⟨30, 24, .list ⟨2, [⟨1, [9]⟩, ⟨2, [8, 8]⟩], none, none⟩⟩]⟩ := by
    refine ⟨rfl, ?_⟩
    intro c hc l hl
    simp only [List.mem_cons, List.mem_singleton, List.not_mem_nil, or_false] at hc
    rcases hc with rfl | rfl
    · cases hl
    · cases hl; rfl
  ⟨hw, (walk_call_sequence _ hw).2.1⟩

/-! ## The read position only moves forward -/

theorem Advanced.refl (ctx : ParseContext) : Advanced ctx ctx := ⟨rfl, Nat.le_refl _⟩

theorem Advanced.trans {a b c : ParseContext} (h1 : Advanced a b) (h2 : Advanced b c) :
    Advanced a c := ⟨h2.1.trans h1.1, Nat.le_trans h1.2 h2.2⟩

theorem fread_advanced (f : FILE) (n : Nat) :
    (fread f n).2.data = f.data ∧ f.pos ≤ (fread f n).2.pos := by
  unfold fread
  dsimp only
  split <;> exact ⟨rfl, Nat.le_add_right _ _⟩

theorem read_exact_advanced (ctx : ParseContext) (n : Nat) : Advanced ctx (read_exact ctx n).2 :=
  fread_advanced ctx.file n

theorem read_u32_le_advanced (ctx : ParseContext) : Advanced ctx (read_u32_le ctx).2 := by
  rw [read_u32_le_snd]
  exact fread_advanced ctx.file 4

theorem consume_bytes_advanced (ctx : ParseContext) (n : Nat) :
    Advanced ctx (consume_bytes ctx n) := ⟨rfl, Nat.le_add_right _ _⟩

theorem consume_pad_advanced (ctx : ParseContext) (n : Nat) : Advanced ctx (consume_pad ctx n) := by
  unfold consume_pad
  split
  · exact consume_bytes_advanced ctx 1
  · exact Advanced.refl ctx

theorem parse_anih_advanced (ctx : ParseContext) : Advanced ctx (parse_anih ctx).2 := by
  have h0 : Advanced ctx
      (if ctx.csize < 36 then consume_bytes ctx (ctx.csize + (ctx.csize &&& 1)) else ctx) := by
    split
    · exact consume_bytes_advanced _ _
    · exact Advanced.refl _
  unfold parse_anih
  dsimp only
  generalize (if ctx.csize < 36 then consume_bytes ctx (ctx.csize + (ctx.csize &&& 1)) else ctx)
    = ctx0 at h0
  have h1 := read_exact_advanced ctx0 36
  generalize read_exact ctx0 36 = r at h1
  obtain ⟨r1, r2⟩ := r
  cases r1 with
  | none => exact h0.trans h1
  | some b =>
    dsimp only
    refine (h0.trans h1).trans (Advanced.trans ?_ (consume_pad_advanced _ _))
    split
    · exact consume_bytes_advanced _ _
    · exact Advanced.refl _

theorem read_u32_loop_advanced (n : Nat) :
    ∀ ctx : ParseContext, Advanced ctx (read_u32_loop n ctx).2 := by
  induction n with
  | zero => intro ctx; exact Advanced.refl ctx
  | succ n ih =>
    intro ctx
    exact (read_u32_le_advanced ctx).trans (ih _)

theorem parse_seq_advanced (ctx : ParseContext) : Advanced ctx (parse_seq ctx).2 :=
  (read_u32_loop_advanced _ ctx).trans (consume_pad_advanced _ _)

theorem parse_rate_advanced (ctx : ParseContext) : Advanced ctx (parse_rate ctx).2 :=
  (read_u32_loop_advanced _ ctx).trans (consume_pad_advanced _ _)

theorem parse_frame_advanced (ctx : ParseContext) : Advanced ctx (parse_frame ctx).2 := by
  unfold parse_frame
  have h1 := read_exact_advanced ctx 4
  generalize read_exact ctx 4 = r at h1
  obtain ⟨r1, r2⟩ := r
  cases r1 with
  | none => exact h1
  | some subid =>
    dsimp only
    have h2 := read_u32_le_advanced r2
    split
    · have h3 := read_exact_advanced (read_u32_le r2).2 (read_u32_le r2).1
      generalize read_exact (read_u32_le r2).2 (read_u32_le r2).1 = q at h3
      obtain ⟨q1, q2⟩ := q
      cases q1 with
      | none => exact (h1.trans h2).trans h3
      | some buf => exact ((h1.trans h2).trans h3).trans (consume_pad_advanced _ _)
    · exact (h1.trans h2).trans
        ((consume_bytes_advanced _ _).trans (consume_pad_advanced _ _))

theorem frames_loop_advanced (list_end : Nat) :
    ∀ (fuel : Nat) (st : ChunkList × Nat) (ctx : ParseContext) (l : ChunkList)
      (ctx1 : ParseContext),
      frames_loop list_end fuel st ctx = some (l, ctx1) → Advanced ctx ctx1 := by
  intro fuel
  induction fuel with
  | zero =>
    intro st ctx l ctx1 h
    unfold frames_loop at h
    split at h
    · cases h
    · cases h; exact Advanced.refl _
  | succ fuel ih =>
    intro st ctx l ctx1 h
    unfold frames_loop at h
    split at h
    · have hp := parse_frame_advanced ctx
      generalize parse_frame ctx = r at hp h
      obtain ⟨r1, r2⟩ := r
      cases r1 with
      | none => exact hp.trans (ih _ _ _ _ h)
      | some f => exact hp.trans (ih _ _ _ _ h)
    · cases h; exact Advanced.refl _

theorem parse_list_advanced (fuel : Nat) (ctx : ParseContext) (r : Option ChunkList)
    (ctx1 : ParseContext) (h : parse_list fuel ctx = some (r, ctx1)) : Advanced ctx ctx1 := by
  unfold parse_list at h
  have h1 := read_exact_advanced ctx 4
  generalize read_exact ctx 4 = q at h1 h
  obtain ⟨q1, q2⟩ := q
  cases q1 with
  | none => cases h; exact h1
  | some listtype =>
    dsimp only at h
    split at h
    · split at h
      · cases h
      · rename_i l ctx2 hl
        cases h
        exact (h1.trans (frames_loop_advanced _ _ _ _ _ _ hl)).trans (consume_pad_advanced _ _)
    · cases h
      exact h1.trans ((consume_bytes_advanced _ _).trans (consume_pad_advanced _ _))

/-! ## Chunks are recorded where they stand -/

theorem length_four (l : List Nat) (h : l.length = 4) : ∃ a b c d, l = [a, b, c, d] := by
  rcases l with _ | ⟨a, _ | ⟨b, _ | ⟨c, _ | ⟨d, _ | ⟨e, l⟩⟩⟩⟩⟩ <;> simp at h
  exact ⟨a, b, c, d, rfl⟩

theorem read_exact_some (ctx : ParseContext) (n : Nat) (x : List Nat) (ctx1 : ParseContext)
    (h : read_exact ctx n = (some x, ctx1)) :
    (ctx.file.data.drop ctx.file.pos).take n = x ∧ x.length = n
      ∧ ctx1 = { ctx with file := { ctx.file with pos := ctx.file.pos + n } } := by
  unfold read_exact fread at h
  dsimp only at h
  by_cases hl : ((ctx.file.data.drop ctx.file.pos).take n).length = n
  · simp only [hl, if_true, Prod.mk.injEq, Option.some.injEq] at h
    obtain ⟨h1, h2⟩ := h
    subst h1
    exact ⟨rfl, hl, h2.symm⟩
  · rw [if_neg hl] at h
    simp only [hl, if_false, Prod.mk.injEq] at h
    cases h.1

theorem read_u32_le_clean (ctx : ParseContext) (h : (read_u32_le ctx).2.file.eofInd = false) :
    ∃ b0 b1 b2 b3, (ctx.file.data.drop ctx.file.pos).take 4 = [b0, b1, b2, b3]
      ∧ (read_u32_le ctx).1 = u32_of_bytes b0 b1 b2 b3
      ∧ (read_u32_le ctx).2.file.pos = ctx.file.pos + 4 := by
  rw [read_u32_le_snd] at h ⊢
  by_cases hl : ((ctx.file.data.drop ctx.file.pos).take 4).length = 4
  · obtain ⟨a, b, c, d, habcd⟩ := length_four _ hl
    refine ⟨a, b, c, d, habcd, ?_, ?_⟩
    · simp [read_u32_le, fread, habcd]
    · unfold fread
      dsimp only
      rw [if_pos hl]
  · unfold fread at h
    dsimp only at h
    rw [if_neg hl] at h
    cases h

theorem map_chunk_some {α : Type} (size off : Nat) (K : α → Inner) (p : Option α) (c : Chunk)
    (hc : p.map (fun a => ({ size := size, off := off, inner := K a } : Chunk)) = some c) :
    ∃ a, c = ⟨size, off, K a⟩ := by
  cases p with
  | none => cases hc
  | some a => exact ⟨a, by cases hc; rfl⟩

/-- What a call of `parse_chunk` that returns guarantees. -/
theorem parse_chunk_spec (fuel : Nat) (ctx : ParseContext) (r : Option Chunk)
    (ctx1 : ParseContext) (h : parse_chunk fuel ctx = some (r, ctx1)) :
    Advanced ctx ctx1 ∧
      ∀ c, r = some c → ctx1.eof = false →
        c.off = ctx.file.pos % 2 ^ 32 ∧ HeaderAt ctx.file.data ctx.file.pos c
          ∧ ctx.file.pos + 8 ≤ ctx1.file.pos := by
  unfold parse_chunk at h
  have h1 := read_exact_advanced ctx 4
  have hs := read_exact_some ctx 4
  generalize read_exact ctx 4 = q at h1 h hs
  obtain ⟨q1, q2⟩ := q
  cases q1 with
  | none =>
    cases h
    exact ⟨h1, fun c hc => by cases hc⟩
  | some cid =>
    obtain ⟨hcid, hlen, hq2⟩ := hs cid q2 rfl
    have h2 := read_u32_le_advanced q2
    dsimp only at h
    by_cases he : (read_u32_le q2).2.file.eofInd = true
    · rw [if_pos he] at h
      cases h
      exact ⟨h1.trans h2, fun c hc => by cases hc⟩
    · rw [if_neg he] at h
      obtain ⟨b0, b1, b2, b3, hb, hv, hp⟩ := read_u32_le_clean q2 (by simpa using he)
      have hq2pos : q2.file.pos = ctx.file.pos + 4 := by rw [hq2]
      have hq2data : q2.file.data = ctx.file.data := by rw [hq2]
      rw [hq2data, hq2pos] at hb
      rw [hq2pos] at hp
      have hhdr : ∀ (c : Chunk), c.size = (read_u32_le q2).1 → chunk_tag c.inner = cid →
          HeaderAt ctx.file.data ctx.file.pos c := by
        intro c h1' h2'
        exact ⟨by rw [h2', hcid], b0, b1, b2, b3, hb, by rw [h1', hv]⟩
      have h28 : Advanced
          ({ (read_u32_le q2).2 with csize := (read_u32_le q2).1 } : ParseContext) ctx1 →
          ctx.file.pos + 8 ≤ ctx1.file.pos := by
        intro hadv
        have := hadv.2
        simp only [hp] at this
        omega
      have h02 : Advanced ctx
          ({ (read_u32_le q2).2 with csize := (read_u32_le q2).1 } : ParseContext) :=
        h1.trans h2
      split at h
      · rename_i hid
        cases h
        have hadv := parse_anih_advanced
          ({ (read_u32_le q2).2 with csize := (read_u32_le q2).1 } : ParseContext)
        refine ⟨h02.trans hadv, fun c hc _ => ?_⟩
        obtain ⟨a, rfl⟩ := map_chunk_some _ _ _ _ _ hc
        exact ⟨rfl, hhdr _ rfl hid.symm, h28 hadv⟩
      · split at h
        · rename_i hid
          cases h
          have hadv := parse_seq_advanced
            ({ (read_u32_le q2).2 with csize := (read_u32_le q2).1 } : ParseContext)
          refine ⟨h02.trans hadv, fun c hc _ => ?_⟩
          obtain ⟨a, rfl⟩ := map_chunk_some _ _ _ _ _ hc
          exact ⟨rfl, hhdr _ rfl hid.symm, h28 hadv⟩
        · split at h
          · rename_i hid
            cases h
            have hadv := parse_rate_advanced
              ({ (read_u32_le q2).2 with csize := (read_u32_le q2).1 } : ParseContext)
            refine ⟨h02.trans hadv, fun c hc _ => ?_⟩
            obtain ⟨a, rfl⟩ := map_chunk_some _ _ _ _ _ hc
            exact ⟨rfl, hhdr _ rfl hid.symm, h28 hadv⟩
          · split at h
            · rename_i hid
              split at h
              · cases h
              · rename_i p hpl
                cases h
                have hadv := parse_list_advanced _ _ p.1 p.2 hpl
                refine ⟨h02.trans hadv, fun c hc _ => ?_⟩
                obtain ⟨a, rfl⟩ := map_chunk_some _ _ _ _ _ hc
                exact ⟨rfl, hhdr _ rfl hid.symm, h28 hadv⟩
            · cases h
              exact ⟨h02.trans ((consume_bytes_advanced _ _).trans (consume_pad_advanced _ _)),
                fun c hc => by cases hc⟩

theorem headerAt_bound (data : List Nat) (pos : Nat) (c : Chunk) (h : HeaderAt data pos c) :
    pos + 8 ≤ data.length := by
  obtain ⟨_, b0, b1, b2, b3, hb, _⟩ := h
  have := congrArg List.length hb
  simp only [List.length_take, List.length_drop, List.length_cons, List.length_nil] at this
  omega

theorem chunks_loop_file_order (data : List Nat) (hlen : data.length < 2 ^ 32) (inner : Nat) :
    ∀ (fuel : Nat) (ani : AniFile) (ctx : ParseContext) (doc : AniFile),
      ctx.file.data = data →
      ani.chunk_count = ani.chunks.length →
      (∀ c ∈ ani.chunks, HeaderAt data c.off c ∧ c.off + 8 ≤ ctx.file.pos) →
      ani.chunks.Pairwise (fun a b => a.off < b.off) →
      chunks_loop inner fuel ani ctx = some doc →
      doc.chunk_count = doc.chunks.length
        ∧ (∀ c ∈ doc.chunks, HeaderAt data c.off c)
        ∧ doc.chunks.Pairwise (fun a b => a.off < b.off) := by
  intro fuel
  induction fuel with
  | zero => intro ani ctx doc _ _ _ _ h; cases h
  | succ fuel ih =>
    intro ani ctx doc hdata hcount hall hsorted h
    unfold chunks_loop at h
    split at h
    · cases h
    · rename_i chunk ctx1 hp
      obtain ⟨hadv, hspec⟩ := parse_chunk_spec inner ctx chunk ctx1 hp
      have hdata1 : ctx1.file.data = data := by rw [hadv.1, hdata]
      split at h
      · cases h
        exact ⟨hcount, fun c hc => (hall c hc).1, hsorted⟩
      · rename_i heof
        have heof' : ctx1.eof = false := by simpa using heof
        split at h
        · refine ih ani ctx1 doc hdata1 hcount ?_ hsorted h
          intro c hc
          exact ⟨(hall c hc).1, Nat.le_trans (hall c hc).2 hadv.2⟩
        · rename_i c
          obtain ⟨hoff, hhdr, hpos⟩ := hspec c rfl heof'
          rw [hdata] at hhdr
          have hb := headerAt_bound data ctx.file.pos c hhdr
          have hoff' : c.off = ctx.file.pos := by
            rw [hoff]; exact Nat.mod_eq_of_lt (by omega)
          refine ih _ ctx1 doc hdata1 (by simp [hcount]) ?_ ?_ h
          · intro c' hc'
            rcases List.mem_append.mp hc' with hm | hm
            · exact ⟨(hall c' hm).1, by have := (hall c' hm).2; omega⟩
            · rw [List.mem_singleton] at hm
              subst hm
              exact ⟨by rw [hoff']; exact hhdr, by omega⟩
          · rw [List.pairwise_append]
            refine ⟨hsorted, List.pairwise_singleton _ _, ?_⟩
            intro a ha b hb'
            rw [List.mem_singleton] at hb'
            subst hb'
            have := (hall a ha).2
            omega

theorem walk_records_chunks (ani : AniFile) (h : ani.chunk_count = ani.chunks.length) :
    walk ani (some record_chunk) none [] = ani.chunks.map Call.chunk := by
  unfold walk
  rw [walk_chunks_eq (some record_chunk) none ani (fun hv => by cases hv), h]
  have hr := foldl_record (some record_chunk) none (by simp) (by simp) true false rfl rfl
    ani.chunks []
  simp only [List.drop_zero, List.take_length, Option.isSome_some, Option.isSome_none, hr,
    List.nil_append]
  clear hr h
  induction ani.chunks with
  | nil => rfl
  | cons c cs ih =>
    rw [List.flatMap_cons, ih]
    cases hi : c.inner <;> simp [chunk_calls, hi]

/-- C5. On every stream shorter than 2^32 bytes on which `parse_ani` returns,
each chunk of the document was read off the header that stands at its recorded
offset (the identifier of its kind there, its recorded size the declared length
behind it), the recorded offsets strictly increase along the chunk sequence,
and `walk` calls the chunk visitor on the chunks in that order. -/
theorem chunks_in_file_order (fuel : Nat) (data : List Nat) (doc : AniFile)
    (hlen : data.length < 2 ^ 32) (h : parse_ani fuel data = some doc) :
    (∀ c ∈ doc.chunks, HeaderAt data c.off c)
      ∧ doc.chunks.Pairwise (fun a b => a.off < b.off)
      ∧ doc.chunk_count = doc.chunks.length
      ∧ walk doc (some record_chunk) none [] = doc.chunks.map Call.chunk := by
  have hadv : Advanced (initial_ctx data) (read_envelope (initial_ctx data)) :=
    (read_exact_advanced _ 4).trans ((read_u32_le_advanced _).trans (read_exact_advanced _ 4))
  obtain ⟨h1, h2, h3⟩ := chunks_loop_file_order data hlen fuel fuel ⟨0, []⟩
    (read_envelope (initial_ctx data)) doc hadv.1 rfl (fun c hc => by cases hc)
    List.Pairwise.nil h
  exact ⟨h2, h3, h1, walk_records_chunks doc h1⟩

/-- Witness of C5: a stream with an unknown chunk between a `rate` chunk and a
`seq ` chunk. -/
theorem chunks_in_file_order_witness :
    parse_ani 4 (tag_RIFF ++ le32 38 ++ tag_ACON ++ tag_rate ++ le32 4 ++ le32 7
        ++ [102, 79, 79, 79] ++ le32 2 ++ [1, 2] ++ tag_seq ++ le32 4 ++ le32 0)
      = some ⟨2, [⟨4, 12, .rate ⟨1, [7]⟩⟩, ⟨4, 34, .seq ⟨1, [none]⟩⟩]⟩
    ∧ (∀ c ∈ [(⟨4, 12, .rate ⟨1, [7]⟩⟩ : Chunk), ⟨4, 34, .seq ⟨1, [none]⟩⟩],
        HeaderAt (tag_RIFF ++ le32 38 ++ tag_ACON ++ tag_rate ++ le32 4 ++ le32 7
          ++ [102, 79, 79, 79] ++ le32 2 ++ [1, 2] ++ tag_seq ++ le32 4 ++ le32 0) c.off c)
    ∧ [(⟨4, 12, .rate ⟨1, [7]⟩⟩ : Chunk), ⟨4, 34, .seq ⟨1, [none]⟩⟩].Pairwise
        (fun a b => a.off < b.off) :=
  have h : parse_ani 4 (tag_RIFF ++ le32 38 ++ tag_ACON ++ tag_rate ++ le32 4 ++ le32 7
        ++ [102, 79, 79, 79] ++ le32 2 ++ [1, 2] ++ tag_seq ++ le32 4 ++ le32 0)
      = some ⟨2, [⟨4, 12, .rate ⟨1, [7]⟩⟩, ⟨4, 34, .seq ⟨1, [none]⟩⟩]⟩ := by decide
  have hc := chunks_in_file_order 4 _ _ (by decide) h
  ⟨h, hc.1, hc.2.1⟩

/-! ## Chunks that give no entry -/

theorem read_exact_csize (f : FILE) (cs : Nat) (e : Bool) (n : Nat) :
    read_exact ⟨f, cs, e⟩ n = ((read_exact ⟨f, 0, e⟩ n).1, ⟨(read_exact ⟨f, 0, e⟩ n).2.file, cs, e⟩) :=
  rfl

/-- The stale `csize` with which `parse_chunk` is entered is never read: two
calls that differ only in it agree, or both stop at the end of the stream. -/
theorem parse_chunk_csize (fuel : Nat) (f : FILE) (cs cs' : Nat) (e : Bool) :
    parse_chunk fuel ⟨f, cs, e⟩ = parse_chunk fuel ⟨f, cs', e⟩
      ∨ ∃ c1 c2, parse_chunk fuel ⟨f, cs, e⟩ = some (none, c1)
          ∧ parse_chunk fuel ⟨f, cs', e⟩ = some (none, c2) ∧ c1.eof = true ∧ c2.eof = true := by
  unfold parse_chunk
  rw [read_exact_csize f cs, read_exact_csize f cs']
  generalize read_exact ⟨f, 0, e⟩ 4 = q
  obtain ⟨q1, q2⟩ := q
  cases q1 with
  | none => exact Or.inr ⟨_, _, rfl, rfl, rfl, rfl⟩
  | some cid =>
    left
    have hu : ∀ c, read_u32_le ⟨q2.file, c, e⟩
        = ((read_u32_le ⟨q2.file, 0, e⟩).1, ⟨(read_u32_le ⟨q2.file, 0, e⟩).2.file, c, e⟩) := by
      intro c
      unfold read_u32_le
      dsimp only
      split <;> rfl
    dsimp only
    rw [hu cs, hu cs']

theorem chunks_loop_csize (inner fuel : Nat) (ani : AniFile) (f : FILE) (cs cs' : Nat)
    (e : Bool) :
    chunks_loop inner fuel ani ⟨f, cs, e⟩ = chunks_loop inner fuel ani ⟨f, cs', e⟩ := by
  cases fuel with
  | zero => rfl
  | succ fuel =>
    rcases parse_chunk_csize inner f cs cs' e with h | ⟨c1, c2, h1, h2, e1, e2⟩
    · unfold chunks_loop
      rw [h]
    · unfold chunks_loop
      rw [h1, h2]
      simp [e1, e2]

theorem parse_chunk_other_list (data rest ltype : List Nat) (pos cs n fuel : Nat) (e : Bool)
    (hlt : ltype.length = 4) (hnf : ltype ≠ tag_fram) (hn4 : 4 ≤ n) (hn32 : n < 2 ^ 32)
    (hdrop : data.drop pos = tag_LIST ++ (le32 n ++ (ltype ++ rest))) :
    parse_chunk fuel ⟨⟨data, pos, false⟩, cs, e⟩
      = some (none, ⟨⟨data, pos + 8 + n + n % 2, false⟩, n, e⟩) := by
  have h3 : data.drop (pos + 8) = ltype ++ rest := by
    have := drop_after (drop_after hdrop)
    simpa [tag_LIST, le32_length, Nat.add_assoc] using this
  have r1 := read_exact_ok false n e h3
  rw [hlt] at r1
  have hpay : (n + 2 ^ 32 - 4) % 2 ^ 32 = n - 4 := by omega
  have hpos : pos + 8 + 4 + (n - 4) = pos + 8 + n := by omega
  rw [parse_chunk_header data _ tag_LIST pos cs n fuel e rfl hn32 hdrop]
  simp only [parse_list, r1, hpay, if_neg hnf, consume_bytes, fseek_cur, consume_pad_mod, hpos]
  simp [tag_LIST, tag_anih, tag_seq, tag_rate]

/-- C8. A `LIST` chunk of declared size `n ≥ 4` whose list-type is not `fram`
gives no chunk; the read position ends `n + n mod 2` bytes behind the length
field, the end-of-stream flag stays down, and the document loop goes on from
there as it would when entered at that position. -/
theorem other_list_is_skipped (data rest ltype : List Nat) (pos cs n fuel : Nat)
    (hlt : ltype.length = 4) (hnf : ltype ≠ tag_fram) (hn4 : 4 ≤ n) (hn32 : n < 2 ^ 32)
    (hdrop : data.drop pos = tag_LIST ++ (le32 n ++ (ltype ++ rest))) :
    (∃ ctx1, parse_chunk fuel ⟨⟨data, pos, false⟩, cs, false⟩ = some (none, ctx1)
        ∧ ctx1.file = ⟨data, pos + 8 + n + n % 2, false⟩ ∧ ctx1.eof = false)
      ∧ ∀ (k : Nat) (ani : AniFile),
          chunks_loop fuel (k + 1) ani ⟨⟨data, pos, false⟩, cs, false⟩
            = chunks_loop fuel k ani ⟨⟨data, pos + 8 + n + n % 2, false⟩, cs, false⟩ := by
  have hp := parse_chunk_other_list data rest ltype pos cs n fuel false hlt hnf hn4 hn32 hdrop
  refine ⟨⟨_, hp, rfl, rfl⟩, fun k ani => ?_⟩
  rw [chunks_loop_none fuel k ani _ _ hp rfl]
  exact chunks_loop_csize fuel k ani _ n cs false

/-- Witness of C8: a `LIST` chunk of list-type `INFO` and declared size 7 before
a `rate` chunk. -/
theorem other_list_is_skipped_witness :
    ([73, 78, 70, 79] ≠ tag_fram ∧ 4 ≤ 7) ∧
    ((∃ ctx1, parse_chunk 1
          ⟨⟨tag_LIST ++ (le32 7 ++ ([73, 78, 70, 79] ++
              ([1, 2, 3, 0] ++ tag_rate ++ le32 4 ++ le32 9))), 0, false⟩, 0, false⟩
          = some (none, ctx1)
        ∧ ctx1.file = ⟨tag_LIST ++ (le32 7 ++ ([73, 78, 70, 79] ++
              ([1, 2, 3, 0] ++ tag_rate ++ le32 4 ++ le32 9))), 0 + 8 + 7 + 7 % 2, false⟩
        ∧ ctx1.eof = false)
      ∧ ∀ (k : Nat) (ani : AniFile),
          chunks_loop 1 (k + 1) ani
              ⟨⟨tag_LIST ++ (le32 7 ++ ([73, 78, 70, 79] ++
                ([1, 2, 3, 0] ++ tag_rate ++ le32 4 ++ le32 9))), 0, false⟩, 0, false⟩
            = chunks_loop 1 k ani
              ⟨⟨tag_LIST ++ (le32 7 ++ ([73, 78, 70, 79] ++
                ([1, 2, 3, 0] ++ tag_rate ++ le32 4 ++ le32 9))), 0 + 8 + 7 + 7 % 2, false⟩,
                0, false⟩) :=
  ⟨⟨by decide, by decide⟩,
    other_list_is_skipped _ ([1, 2, 3, 0] ++ tag_rate ++ le32 4 ++ le32 9) [73, 78, 70, 79]
      0 0 7 1 (by decide) (by decide) (by decide) (by norm_num) (by rfl)⟩

/-! ## Where the decoder departs from the chunk layout -/

/-- C6. A `rate` chunk of declared size 5 stands at offset 12, complete with its
five payload bytes and its pad byte, before a complete `seq ` chunk at offset
26.  The decoder consumes 4 + 1 bytes behind the length field, not 5 + 1: it
ends at offset 25, reads the next identifier one byte early, and the `seq `
chunk is lost. -/
theorem odd_rate_chunk_is_not_consumed :
    (parse_chunk 0
        ⟨⟨tag_RIFF ++ le32 30 ++ tag_ACON ++ tag_rate ++ le32 5 ++ [1, 0, 0, 0, 9, 0]
            ++ tag_seq ++ le32 4 ++ le32 3, 12, false⟩, 0, false⟩).map
        (fun p => (p.1, p.2.file.pos, p.2.eof))
      = some (some ⟨5, 12, .rate ⟨1, [1]⟩⟩, 25, false)
    ∧ 25 ≠ 12 + 8 + 5 + 1
    ∧ parse_ani 3 (tag_RIFF ++ le32 30 ++ tag_ACON ++ tag_rate ++ le32 5 ++ [1, 0, 0, 0, 9, 0]
          ++ tag_seq ++ le32 4 ++ le32 3)
      = some ⟨1, [⟨5, 12, .rate ⟨1, [1]⟩⟩]⟩ := by
  decide

/-- C7. A complete `rate` chunk of declared size 6 stands at offset 12.  The
decoder consumes 4 bytes behind the length field, not 6: it ends at offset 24,
two bytes before the end of the chunk.  Inserting behind that chunk a complete
chunk of declared size 0 whose identifier `te\0\0` is none of the four
recognised ones then adds an entry to the decoded chunk sequence: the leftover
payload bytes `ra` and the first half of the identifier are read as `rate`. -/
theorem unknown_chunk_behind_unconsumed_rate :
    ([116, 101, 0, 0] ≠ tag_anih ∧ [116, 101, 0, 0] ≠ tag_seq ∧ [116, 101, 0, 0] ≠ tag_rate
      ∧ [116, 101, 0, 0] ≠ tag_LIST)
    ∧ (parse_chunk 0
        ⟨⟨tag_RIFF ++ le32 18 ++ tag_ACON ++ tag_rate ++ le32 6 ++ [1, 0, 0, 0, 114, 97]
            ++ ([116, 101, 0, 0] ++ le32 0), 12, false⟩, 0, false⟩).map
        (fun p => (p.1, p.2.file.pos, p.2.eof))
      = some (some ⟨6, 12, .rate ⟨1, [1]⟩⟩, 24, false)
    ∧ 24 ≠ 12 + 8 + 6
    ∧ parse_ani 2 (tag_RIFF ++ le32 18 ++ tag_ACON ++ tag_rate ++ le32 6 ++ [1, 0, 0, 0, 114, 97])
      = some ⟨1, [⟨6, 12, .rate ⟨1, [1]⟩⟩]⟩
    ∧ parse_ani 3 (tag_RIFF ++ le32 18 ++ tag_ACON ++ tag_rate ++ le32 6 ++ [1, 0, 0, 0, 114, 97]
          ++ ([116, 101, 0, 0] ++ le32 0))
      = some ⟨2, [⟨6, 12, .rate ⟨1, [1]⟩⟩, ⟨0, 24, .rate ⟨0, []⟩⟩]⟩ := by
  decide

/-- C9. An `anih` chunk of declared size 20 is first skipped (20 bytes) and the
36 header bytes are read behind it.  With exactly 36 bytes behind the length
field the read is short and no header is decoded; with 56 bytes the nine fields
are the words of bytes 20 to 55, not of bytes 0 to 35. -/
theorem short_anih_is_skipped_before_the_read :
    parse_ani 2 (tag_RIFF ++ le32 48 ++ tag_ACON ++ tag_anih ++ le32 20
        ++ anih_bytes ⟨36, 2, 2, 32, 32, 8, 1, 10, 1⟩)
      = some ⟨0, []⟩
    ∧ parse_ani 2 (tag_RIFF ++ le32 68 ++ tag_ACON ++ tag_anih ++ le32 20
        ++ anih_bytes ⟨36, 2, 2, 32, 32, 8, 1, 10, 1⟩ ++ List.replicate 20 0)
      = some ⟨1, [⟨20, 12, .anih ⟨8, 1, 10, 1, 0, 0, 0, 0, 0⟩⟩]⟩ := by
  decide

/-- C10. `parse_seq` reads the entries and stores none of them: whatever the
stream, the decoded sequence has `csize / 4` slots and every slot is still
unwritten.  On a `seq ` chunk that holds the indices 3 and 5 the document has
two unwritten slots. -/
theorem seq_indexes_are_never_written :
    (∀ ctx : ParseContext,
      (parse_seq ctx).1 = some ⟨ctx.csize / 4, List.replicate (ctx.csize / 4) none⟩)
    ∧ parse_ani 2 (tag_RIFF ++ le32 20 ++ tag_ACON ++ tag_seq ++ le32 8 ++ le32 3 ++ le32 5)
      = some ⟨1, [⟨8, 12, .seq ⟨2, [none, none]⟩⟩]⟩ :=
  ⟨fun _ => rfl, by decide⟩

/-! ## Streams of chunks that the decoder consumes whole -/

theorem raw_bytes_length_eq (c : RawChunk) (hid : c.id.length = 4) :
    c.bytes.length = 8 + c.payload.length + c.payload.length % 2 := by
  rw [raw_bytes_length, pad_bytes_length_mod, hid]

theorem raw_concat_even (subs : List RawChunk) (hid : ∀ s ∈ subs, s.id.length = 4) :
    (raw_concat subs).length % 2 = 0 := by
  induction subs with
  | nil => rfl
  | cons s subs ih =>
    have h1 := raw_bytes_length_eq s (hid s (List.mem_cons_self _ _))
    have h2 := ih (fun s' hs' => hid s' (List.mem_cons_of_mem _ hs'))
    simp only [raw_concat, List.length_append]
    omega

theorem read_u32_le_bytes {data : List Nat} {pos : Nat} {rest : List Nat} (b0 b1 b2 b3 : Nat)
    (cs : Nat) (e : Bool) (h : data.drop pos = b0 :: b1 :: b2 :: b3 :: rest) :
    read_u32_le ⟨⟨data, pos, false⟩, cs, e⟩
      = (u32_of_bytes b0 b1 b2 b3, ⟨⟨data, pos + 4, false⟩, cs, e⟩) := by
  have h' : data.drop pos = [b0, b1, b2, b3] ++ rest := h
  have hf : fread ⟨data, pos, false⟩ 4 = ([b0, b1, b2, b3], ⟨data, pos + 4, false⟩) :=
    fread_ok false h'
  simp only [read_u32_le, hf]

theorem read_u32_loop_words (data rest : List Nat) (cs : Nat) (e : Bool) :
    ∀ (k : Nat) (p : List Nat) (pos : Nat), p.length = 4 * k →
      data.drop pos = p ++ rest →
      read_u32_loop k ⟨⟨data, pos, false⟩, cs, e⟩
        = (words_of p, ⟨⟨data, pos + 4 * k, false⟩, cs, e⟩) := by
  intro k
  induction k with
  | zero =>
    intro p pos hp _
    have : p = [] := List.length_eq_zero.mp (by simpa using hp)
    subst this
    rfl
  | succ k ih =>
    intro p pos hp hdrop
    rcases p with _ | ⟨b0, _ | ⟨b1, _ | ⟨b2, _ | ⟨b3, p⟩⟩⟩⟩ <;>
      simp only [List.length_cons, List.length_nil] at hp <;> try omega
    have hd : data.drop pos = b0 :: b1 :: b2 :: b3 :: (p ++ rest) := by rw [hdrop]; rfl
    have r1 := read_u32_le_bytes b0 b1 b2 b3 cs e hd
    have h2 : data.drop (pos + 4) = p ++ rest := by
      have hd' : data.drop pos = [b0, b1, b2, b3] ++ (p ++ rest) := hd
      exact drop_after hd'
    have hrec := ih p (pos + 4) (by omega) h2
    have hp4 : pos + 4 + 4 * k = pos + 4 * (k + 1) := by omega
    simp only [read_u32_loop, r1, hrec, words_of, hp4]

theorem append_split (p : List Nat) (k : Nat) (tail : List Nat) :
    p ++ tail = p.take k ++ (p.drop k ++ tail) := by
  rw [← List.append_assoc, List.take_append_drop]

theorem plain_drop {data : List Nat} {pos : Nat} {rest : List Nat} (c : RawChunk)
    (hid : c.id.length = 4) (hdrop : data.drop pos = c.bytes ++ rest) :
    data.drop pos = c.id ++ (le32 c.payload.length ++
        (c.payload ++ (pad_bytes c.payload.length c.padv ++ rest)))
      ∧ data.drop (pos + 8) = c.payload ++ (pad_bytes c.payload.length c.padv ++ rest) := by
  have h1 : data.drop pos = c.id ++ (le32 c.payload.length ++
      (c.payload ++ (pad_bytes c.payload.length c.padv ++ rest))) := by
    rw [hdrop]; simp [RawChunk.bytes]
  refine ⟨h1, ?_⟩
  have := drop_after (drop_after h1)
  simpa [hid, le32_length, Nat.add_assoc] using this

theorem parse_chunk_plain (data rest : List Nat) (pos cs fuel : Nat) (c : RawChunk)
    (hw : (Item.plain c).Whole) (hdrop : data.drop pos = c.bytes ++ rest) :
    parse_chunk fuel ⟨⟨data, pos, false⟩, cs, false⟩
      = some ((Item.plain c).decoded pos,
          ⟨⟨data, pos + c.bytes.length, false⟩, c.payload.length, false⟩) := by
  obtain ⟨hid, hn32, hanih, hwords, hlist⟩ := hw
  obtain ⟨h1, h8⟩ := plain_drop c hid hdrop
  have hlen := raw_bytes_length_eq c hid
  have hend : pos + 8 + c.payload.length + c.payload.length % 2 = pos + c.bytes.length := by
    omega
  by_cases ha : c.id = tag_anih
  · -- the header, its remainder skipped
    have h36 := hanih ha
    have hsplit : data.drop (pos + 8) = c.payload.take 36 ++
        (c.payload.drop 36 ++ (pad_bytes c.payload.length c.padv ++ rest)) := by
      rw [h8]
      exact append_split c.payload 36 _
    have r1 := read_exact_ok false c.payload.length false hsplit
    have ht : (c.payload.take 36).length = 36 := by
      rw [List.length_take]; omega
    rw [ht] at r1
    rw [parse_chunk_header data _ c.id pos cs _ fuel false hid hn32 h1]
    simp only [ha, if_true, parse_anih, Nat.not_lt.mpr h36, if_false, r1, Item.decoded]
    by_cases hgt : c.payload.length > 36
    · have hp : pos + 8 + 36 + (c.payload.length - 36) = pos + 8 + c.payload.length := by omega
      simp only [hgt, if_true, consume_bytes, fseek_cur, consume_pad_mod, hp, hend,
        Option.map_some']
    · have hp : pos + 8 + 36 = pos + 8 + c.payload.length := by omega
      simp only [hgt, if_false, consume_pad_mod, hp, hend, Option.map_some']
  · by_cases hs : c.id = tag_seq
    · have h4 := hwords (Or.inl hs)
      have hk : c.payload.length = 4 * (c.payload.length / 4) := by omega
      have hloop := read_u32_loop_words data _ c.payload.length false (c.payload.length / 4)
        c.payload (pos + 8) hk h8
      have hp : pos + 8 + 4 * (c.payload.length / 4) + c.payload.length % 2
          = pos + c.bytes.length := by omega
      rw [parse_chunk_header data _ c.id pos cs _ fuel false hid hn32 h1]
      simp only [ha, hs, if_false, if_true, parse_seq, hloop, consume_pad_mod, hp, Item.decoded,
        Option.map_some']
      simp [tag_seq, tag_anih]
    · by_cases hr : c.id = tag_rate
      · have h4 := hwords (Or.inr hr)
        have hk : c.payload.length = 4 * (c.payload.length / 4) := by omega
        have hloop := read_u32_loop_words data _ c.payload.length false (c.payload.length / 4)
          c.payload (pos + 8) hk h8
        have hp : pos + 8 + 4 * (c.payload.length / 4) + c.payload.length % 2
            = pos + c.bytes.length := by omega
        rw [parse_chunk_header data _ c.id pos cs _ fuel false hid hn32 h1]
        simp only [ha, hs, hr, if_false, if_true, parse_rate, hloop, consume_pad_mod, hp,
          Item.decoded, Option.map_some']
        simp [tag_seq, tag_anih, tag_rate]
      · by_cases hl : c.id = tag_LIST
        · obtain ⟨hl4, hnf⟩ := hlist hl
          have hsplit : data.drop pos = tag_LIST ++ (le32 c.payload.length ++
              (c.payload.take 4 ++
                (c.payload.drop 4 ++ (pad_bytes c.payload.length c.padv ++ rest)))) := by
            rw [h1, hl, append_split c.payload 4 _]
          have ht : (c.payload.take 4).length = 4 := by
            rw [List.length_take]; omega
          rw [parse_chunk_other_list data _ (c.payload.take 4) pos cs c.payload.length fuel false
            ht hnf hl4 hn32 hsplit, hend]
          simp [Item.decoded, hl, tag_LIST, tag_anih, tag_seq, tag_rate]
        · rw [parse_chunk_header data _ c.id pos cs _ fuel false hid hn32 h1]
          simp only [ha, hs, hr, hl, if_false, consume_bytes, fseek_cur, consume_pad_mod, hend,
            Item.decoded]

theorem item_bytes_length (it : Item) (hw : it.Whole) :
    it.bytes.length = 8 + it.csize + it.csize % 2 := by
  cases it with
  | plain c => exact raw_bytes_length_eq c hw.1
  | fram subs =>
    have he := raw_concat_even subs hw.1
    simp only [Item.bytes, Item.csize, List.length_append, le32_length, tag_LIST, tag_fram,
      List.length_cons, List.length_nil]
    omega

theorem raw_concat_count (subs : List RawChunk) (hid : ∀ s ∈ subs, s.id.length = 4) :
    subs.length ≤ (raw_concat subs).length := by
  induction subs with
  | nil => exact Nat.le_refl _
  | cons s subs ih =>
    have h1 := raw_bytes_length_eq s (hid s (List.mem_cons_self _ _))
    have h2 := ih (fun s' hs' => hid s' (List.mem_cons_of_mem _ hs'))
    simp only [raw_concat, List.length_append, List.length_cons]
    omega

theorem item_subchunks_le (it : Item) (hw : it.Whole) : it.subchunks ≤ it.bytes.length := by
  cases it with
  | plain c => exact Nat.zero_le _
  | fram subs =>
    have := raw_concat_count subs hw.1
    simp only [Item.subchunks, Item.bytes, List.length_append]
    omega

theorem items_bytes_append (a b : List Item) :
    items_bytes (a ++ b) = items_bytes a ++ items_bytes b := by
  induction a with
  | nil => rfl
  | cons it a ih =>
    show it.bytes ++ items_bytes (a ++ b) = (it.bytes ++ items_bytes a) ++ items_bytes b
    rw [ih, List.append_assoc]

theorem items_count (its : List Item) (hw : ∀ it ∈ its, it.Whole) :
    its.length ≤ (items_bytes its).length
      ∧ ∀ it ∈ its, it.subchunks ≤ (items_bytes its).length := by
  induction its with
  | nil => exact ⟨Nat.le_refl _, fun it h => by cases h⟩
  | cons it its ih =>
    obtain ⟨h1, h2⟩ := ih (fun it' h' => hw it' (List.mem_cons_of_mem _ h'))
    have hb := item_bytes_length it (hw it (List.mem_cons_self _ _))
    have hs := item_subchunks_le it (hw it (List.mem_cons_self _ _))
    simp only [items_bytes, List.length_append, List.length_cons]
    refine ⟨by omega, ?_⟩
    intro it' h'
    rcases List.mem_cons.mp h' with rfl | h''
    · omega
    · have := h2 it' h''; omega

theorem parse_chunk_item (data rest : List Nat) (pos cs fuel : Nat) (it : Item)
    (hw : it.Whole) (hfuel : it.subchunks ≤ fuel) (hdrop : data.drop pos = it.bytes ++ rest) :
    parse_chunk fuel ⟨⟨data, pos, false⟩, cs, false⟩
      = some (it.decoded pos, ⟨⟨data, pos + it.bytes.length, false⟩, it.csize, false⟩) := by
  cases it with
  | plain c => exact parse_chunk_plain data rest pos cs fuel c hw hdrop
  | fram subs =>
    have hb := item_bytes_length (Item.fram subs) hw
    have he := raw_concat_even subs hw.1
    have hd : data.drop pos = tag_LIST ++ (le32 (4 + (raw_concat subs).length) ++
        (tag_fram ++ (raw_concat subs ++ rest))) := by
      rw [hdrop]; simp [Item.bytes]
    rw [parse_chunk_fram data rest pos cs (4 + (raw_concat subs).length) fuel false subs hfuel
      hw.1 rfl hw.2 hd]
    simp only [Item.csize] at hb
    have hp : pos + 8 + (4 + (raw_concat subs).length) + (4 + (raw_concat subs).length) % 2
        = pos + (Item.fram subs).bytes.length := by omega
    rw [hp]
    rfl

theorem chunks_loop_items (data : List Nat) (inner : Nat) :
    ∀ (its : List Item) (fuel pos cs : Nat) (ani : AniFile),
      (∀ it ∈ its, it.Whole) → (∀ it ∈ its, it.subchunks ≤ inner) → its.length < fuel →
      data.drop pos = items_bytes its →
      chunks_loop inner fuel ani ⟨⟨data, pos, false⟩, cs, false⟩
        = some ⟨ani.chunk_count + (decode_items pos its).length,
            ani.chunks ++ decode_items pos its⟩ := by
  intro its
  induction its with
  | nil =>
    intro fuel pos cs ani _ _ hfuel hdrop
    obtain ⟨k, rfl⟩ : ∃ k, fuel = k + 1 := ⟨fuel - 1, by simp at hfuel; omega⟩
    have hlen : data.length ≤ pos := List.drop_eq_nil_iff.mp hdrop
    rw [chunks_loop_short data pos cs inner k false false ani (by omega)]
    simp [decode_items]
  | cons it its ih =>
    intro fuel pos cs ani hw hsub hfuel hdrop
    obtain ⟨k, rfl⟩ : ∃ k, fuel = k + 1 := ⟨fuel - 1, by simp at hfuel; omega⟩
    have hp := parse_chunk_item data (items_bytes its) pos cs inner it
      (hw it (List.mem_cons_self _ _)) (hsub it (List.mem_cons_self _ _)) hdrop
    have hnext : data.drop (pos + it.bytes.length) = items_bytes its := drop_after hdrop
    have hrec := fun ani' => ih k (pos + it.bytes.length) it.csize ani'
      (fun it' h' => hw it' (List.mem_cons_of_mem _ h'))
      (fun it' h' => hsub it' (List.mem_cons_of_mem _ h'))
      (by simp at hfuel; omega) hnext
    cases hd : it.decoded pos with
    | none =>
      rw [hd] at hp
      rw [chunks_loop_none inner k ani _ _ hp rfl, hrec]
      simp [decode_items, hd]
    | some c =>
      rw [hd] at hp
      rw [chunks_loop_some inner k ani _ _ c hp rfl, hrec]
      simp only [decode_items, hd, Option.toList_some, List.singleton_append, List.length_cons,
        List.append_assoc]
      congr 2
      omega

theorem parse_ani_items (env : List Nat) (its : List Item) (fuel : Nat) (henv : env.length = 12)
    (hw : ∀ it ∈ its, it.Whole) (hfuel : (env ++ items_bytes its).length < fuel) :
    parse_ani fuel (env ++ items_bytes its)
      = some ⟨(decode_items 12 its).length, decode_items 12 its⟩ := by
  obtain ⟨h1, h2⟩ := items_count its hw
  rw [List.length_append] at hfuel
  have hd : (env ++ items_bytes its).drop 12 = items_bytes its := List.drop_left' henv
  have hl := chunks_loop_items (env ++ items_bytes its) fuel its fuel 12 0 ⟨0, []⟩ hw
    (fun it h => by have := h2 it h; omega) (by omega) hd
  show chunks_loop fuel fuel ⟨0, []⟩ (read_envelope (initial_ctx (env ++ items_bytes its))) = _
  rw [read_envelope_ok _ (by rw [List.length_append]; omega), hl]
  simp

theorem decoded_shift (it : Item) (pos k : Nat) :
    it.decoded (pos + k) = (it.decoded pos).map (Chunk.shifted k) := by
  have hm : (pos + k) % 2 ^ 32 = (pos % 2 ^ 32 + k) % 2 ^ 32 := by omega
  cases it with
  | plain c =>
    simp only [Item.decoded]
    split
    · simp [Chunk.shifted, hm]
    · split
      · simp [Chunk.shifted, hm]
      · split
        · simp [Chunk.shifted, hm]
        · rfl
  | fram subs => simp [Item.decoded, Chunk.shifted, hm]

theorem decode_items_shift (its : List Item) :
    ∀ (pos k : Nat), decode_items (pos + k) its = (decode_items pos its).map (Chunk.shifted k) := by
  induction its with
  | nil => intro pos k; rfl
  | cons it its ih =>
    intro pos k
    have hp : pos + k + it.bytes.length = pos + it.bytes.length + k := by omega
    simp only [decode_items, decoded_shift, hp, ih, List.map_append]
    cases it.decoded pos <;> simp

theorem decode_items_append (a b : List Item) :
    ∀ pos : Nat, decode_items pos (a ++ b)
      = decode_items pos a ++ decode_items (pos + (items_bytes a).length) b := by
  induction a with
  | nil => intro pos; simp [decode_items, items_bytes]
  | cons it a ih =>
    intro pos
    show (it.decoded pos).toList ++ decode_items (pos + it.bytes.length) (a ++ b)
      = ((it.decoded pos).toList ++ decode_items (pos + it.bytes.length) a)
        ++ decode_items (pos + (it.bytes ++ items_bytes a).length) b
    rw [ih, List.append_assoc, List.length_append, Nat.add_assoc]

/-- The skip of an unrecognised chunk is exact.  In a stream made of a 12-byte
envelope and complete chunks that the decoder consumes whole, inserting between
two chunks (or before the first, or behind the last) a complete chunk `u` whose
identifier is none of `anih`, `seq `, `rate`, `LIST`, of any declared size `n`,
adds no entry to the decoded chunk sequence: the chunks `before` it are
unchanged, and the chunks `after` it keep kind, declared size and payload while
their offsets grow by `8 + n + n mod 2`. -/
theorem unknown_chunk_insertion (env : List Nat) (pre post : List Item) (u : RawChunk)
    (fuel : Nat) (henv : env.length = 12) (hpre : ∀ it ∈ pre, it.Whole)
    (hpost : ∀ it ∈ post, it.Whole) (hid : u.id.length = 4) (hn : u.payload.length < 2 ^ 32)
    (hu : u.id ≠ tag_anih ∧ u.id ≠ tag_seq ∧ u.id ≠ tag_rate ∧ u.id ≠ tag_LIST)
    (hfuel : (env ++ items_bytes (pre ++ Item.plain u :: post)).length < fuel) :
    parse_ani fuel (env ++ items_bytes (pre ++ post))
      = some ⟨(decode_items 12 pre ++ decode_items (12 + (items_bytes pre).length) post).length,
          decode_items 12 pre ++ decode_items (12 + (items_bytes pre).length) post⟩
    ∧ parse_ani fuel (env ++ items_bytes (pre ++ Item.plain u :: post))
      = some ⟨(decode_items 12 pre ++ decode_items (12 + (items_bytes pre).length) post).length,
          decode_items 12 pre ++
            (decode_items (12 + (items_bytes pre).length) post).map
              (Chunk.shifted (8 + u.payload.length + u.payload.length % 2))⟩ := by
  obtain ⟨h1, h2, h3, h4⟩ := hu
  have hwu : (Item.plain u).Whole :=
    ⟨hid, hn, fun h => absurd h h1, fun h => h.elim (fun h => absurd h h2) (fun h => absurd h h3),
      fun h => absurd h h4⟩
  have hwA : ∀ it ∈ pre ++ post, it.Whole := by
    intro it h
    rcases List.mem_append.mp h with h | h
    · exact hpre it h
    · exact hpost it h
  have hwB : ∀ it ∈ pre ++ Item.plain u :: post, it.Whole := by
    intro it h
    rcases List.mem_append.mp h with h | h
    · exact hpre it h
    · rcases List.mem_cons.mp h with rfl | h
      · exact hwu
      · exact hpost it h
  have hlenA : (env ++ items_bytes (pre ++ post)).length < fuel := by
    simp only [List.length_append, items_bytes_append, items_bytes] at hfuel ⊢
    omega
  have hdu : (Item.plain u).decoded (12 + (items_bytes pre).length) = none := by
    simp [Item.decoded, h1, h2, h3]
  have hbu : (Item.plain u).bytes.length = 8 + u.payload.length + u.payload.length % 2 :=
    raw_bytes_length_eq u hid
  refine ⟨?_, ?_⟩
  · rw [parse_ani_items env _ fuel henv hwA hlenA, decode_items_append]
  · rw [parse_ani_items env _ fuel henv hwB hfuel, decode_items_append]
    simp only [decode_items, hdu, Option.toList_none, List.nil_append, hbu, decode_items_shift,
      List.length_append, List.length_map]

/-- A chunk `fOOO` of declared size 3 inserted between a `rate` chunk and a
`seq ` chunk, both of a declared size that is a multiple of 4. -/
theorem unknown_chunk_insertion_witness :
    ((∀ it ∈ [Item.plain ⟨tag_rate, le32 7, 0⟩], it.Whole)
      ∧ (∀ it ∈ [Item.plain ⟨tag_seq, le32 1, 0⟩], it.Whole))
    ∧ parse_ani 60 (tag_RIFF ++ le32 28 ++ tag_ACON ++ items_bytes
          ([Item.plain ⟨tag_rate, le32 7, 0⟩] ++ [Item.plain ⟨tag_seq, le32 1, 0⟩]))
      = some ⟨(decode_items 12 [Item.plain ⟨tag_rate, le32 7, 0⟩] ++ decode_items
            (12 + (items_bytes [Item.plain ⟨tag_rate, le32 7, 0⟩]).length)
            [Item.plain ⟨tag_seq, le32 1, 0⟩]).length,
          decode_items 12 [Item.plain ⟨tag_rate, le32 7, 0⟩] ++ decode_items
            (12 + (items_bytes [Item.plain ⟨tag_rate, le32 7, 0⟩]).length)
            [Item.plain ⟨tag_seq, le32 1, 0⟩]⟩
    ∧ parse_ani 60 (tag_RIFF ++ le32 28 ++ tag_ACON ++ items_bytes
          ([Item.plain ⟨tag_rate, le32 7, 0⟩] ++
            Item.plain ⟨[102, 79, 79, 79], [1, 2, 3], 0⟩ :: [Item.plain ⟨tag_seq, le32 1, 0⟩]))
      = some ⟨(decode_items 12 [Item.plain ⟨tag_rate, le32 7, 0⟩] ++ decode_items
            (12 + (items_bytes [Item.plain ⟨tag_rate, le32 7, 0⟩]).length)
            [Item.plain ⟨tag_seq, le32 1, 0⟩]).length,
          decode_items 12 [Item.plain ⟨tag_rate, le32 7, 0⟩] ++
            (decode_items (12 + (items_bytes [Item.plain ⟨tag_rate, le32 7, 0⟩]).length)
              [Item.plain ⟨tag_seq, le32 1, 0⟩]).map
              (Chunk.shifted (8 + [1, 2, 3].length + [1, 2, 3].length % 2))⟩ :=
  have hr : ∀ it ∈ [Item.plain ⟨tag_rate, le32 7, 0⟩], it.Whole := by
    intro it h
    rw [List.mem_singleton] at h
    subst h
    exact ⟨rfl, by decide, by decide, by decide, by decide⟩
  have hs : ∀ it ∈ [Item.plain ⟨tag_seq, le32 1, 0⟩], it.Whole := by
    intro it h
    rw [List.mem_singleton] at h
    subst h
    exact ⟨rfl, by decide, by decide, by decide, by decide⟩
  ⟨⟨hr, hs⟩,
    unknown_chunk_insertion (tag_RIFF ++ le32 28 ++ tag_ACON) [Item.plain ⟨tag_rate, le32 7, 0⟩]
      [Item.plain ⟨tag_seq, le32 1, 0⟩] ⟨[102, 79, 79, 79], [1, 2, 3], 0⟩ 60 rfl hr hs rfl
      (by decide) (by decide) (by decide)⟩

/-! ## Decoded documents are well formed -/

theorem push_frame_fields (st : ChunkList × Nat) (f : Frame) :
    (push_frame st f).1.frames = st.1.frames ++ [f]
      ∧ (push_frame st f).1.count = st.1.count + 1 := by
  obtain ⟨h1, h2, _⟩ := push_frame_fold_frames [f] st
  exact ⟨h1, h2⟩

theorem frames_loop_counts (list_end : Nat) :
    ∀ (fuel : Nat) (st : ChunkList × Nat) (ctx : ParseContext) (l : ChunkList)
      (ctx1 : ParseContext),
      st.1.count = st.1.frames.length →
      frames_loop list_end fuel st ctx = some (l, ctx1) → l.count = l.frames.length := by
  intro fuel
  induction fuel with
  | zero =>
    intro st ctx l ctx1 hst h
    unfold frames_loop at h
    split at h
    · cases h
    · cases h; exact hst
  | succ fuel ih =>
    intro st ctx l ctx1 hst h
    unfold frames_loop at h
    split at h
    · generalize parse_frame ctx = r at h
      obtain ⟨r1, r2⟩ := r
      cases r1 with
      | none => exact ih _ _ _ _ hst h
      | some f =>
        obtain ⟨h1, h2⟩ := push_frame_fields st f
        refine ih _ _ _ _ ?_ h
        rw [h1, h2, hst, List.length_append]
        rfl
    · cases h; exact hst

theorem parse_list_counts (fuel : Nat) (ctx : ParseContext) (l : ChunkList)
    (ctx1 : ParseContext) (h : parse_list fuel ctx = some (some l, ctx1)) :
    l.count = l.frames.length := by
  unfold parse_list at h
  generalize read_exact ctx 4 = q at h
  obtain ⟨q1, q2⟩ := q
  cases q1 with
  | none => cases h
  | some listtype =>
    dsimp only at h
    split at h
    · split at h
      · cases h
      · rename_i l' ctx2 hl
        cases h
        exact frames_loop_counts _ _ _ _ _ _ rfl hl
    · cases h

theorem parse_chunk_counts (fuel : Nat) (ctx : ParseContext) (c : Chunk) (ctx1 : ParseContext)
    (h : parse_chunk fuel ctx = some (some c, ctx1)) :
    ∀ l, c.inner = .list l → l.count = l.frames.length := by
  unfold parse_chunk at h
  generalize read_exact ctx 4 = q at h
  obtain ⟨q1, q2⟩ := q
  cases q1 with
  | none => cases h
  | some cid =>
    dsimp only at h
    split at h
    · cases h
    · split at h
      · simp only [Option.some.injEq, Prod.mk.injEq] at h
        obtain ⟨a, rfl⟩ := map_chunk_some _ _ _ _ _ h.1
        intro l hl; cases hl
      · split at h
        · simp only [Option.some.injEq, Prod.mk.injEq] at h
          obtain ⟨a, rfl⟩ := map_chunk_some _ _ _ _ _ h.1
          intro l hl; cases hl
        · split at h
          · simp only [Option.some.injEq, Prod.mk.injEq] at h
            obtain ⟨a, rfl⟩ := map_chunk_some _ _ _ _ _ h.1
            intro l hl; cases hl
          · split at h
            · split at h
              · cases h
              · rename_i p hpl
                simp only [Option.some.injEq, Prod.mk.injEq] at h
                obtain ⟨a, rfl⟩ := map_chunk_some _ _ _ _ _ h.1
                intro l hl
                cases hl
                have hp1 : p.1 = some a := by
                  cases hp : p.1 with
                  | none => rw [hp] at h; cases h.1
                  | some a' =>
                    rw [hp] at h
                    simp only [Option.map_some', Option.some.injEq, Chunk.mk.injEq,
                      Inner.list.injEq, true_and] at h
                    rw [h.1]
                exact parse_list_counts _ _ a p.2 (by rw [hpl, ← hp1])
            · cases h

theorem chunks_loop_wellFormed (inner : Nat) :
    ∀ (fuel : Nat) (ani : AniFile) (ctx : ParseContext) (doc : AniFile),
      ani.WellFormed → chunks_loop inner fuel ani ctx = some doc → doc.WellFormed := by
  intro fuel
  induction fuel with
  | zero => intro ani ctx doc _ h; cases h
  | succ fuel ih =>
    intro ani ctx doc hw h
    unfold chunks_loop at h
    split at h
    · cases h
    · rename_i chunk ctx1 hp
      split at h
      · cases h; exact hw
      · split at h
        · exact ih _ _ _ hw h
        · rename_i c
          refine ih _ _ _ ⟨by simp [hw.1], ?_⟩ h
          intro c' hc'
          rcases List.mem_append.mp hc' with hm | hm
          · exact hw.2 c' hm
          · rw [List.mem_singleton] at hm
            subst hm
            exact parse_chunk_counts inner ctx c' ctx1 hp

/-- Every document that `parse_ani` returns is well formed: its counters are the
lengths of its arrays. -/
theorem parse_ani_wellFormed (fuel : Nat) (data : List Nat) (doc : AniFile)
    (h : parse_ani fuel data = some doc) : doc.WellFormed :=
  chunks_loop_wellFormed fuel fuel ⟨0, []⟩ _ doc
    ⟨rfl, fun c hc => by cases hc⟩ h

/-! ## The decoder only looks at the bytes from the read position on -/

theorem agreeFrom_advanced {d : List Nat} {ctx ctx1 : ParseContext} (h : AgreeFrom d ctx)
    (ha : Advanced ctx ctx1) : AgreeFrom d ctx1 := by
  unfold AgreeFrom at h ⊢
  obtain ⟨hd, hp⟩ := ha
  obtain ⟨k, hk⟩ : ∃ k, ctx1.file.pos = ctx.file.pos + k := ⟨ctx1.file.pos - ctx.file.pos, by omega⟩
  rw [hd, hk, ← List.drop_drop, ← List.drop_drop, h]

theorem fread_with_data (d : List Nat) (f : FILE) (n : Nat)
    (h : f.data.drop f.pos = d.drop f.pos) :
    fread { f with data := d } n = ((fread f n).1, { (fread f n).2 with data := d }) := by
  unfold fread
  dsimp only
  rw [← h]
  split <;> rfl

theorem read_exact_with_data (d : List Nat) (ctx : ParseContext) (n : Nat) (h : AgreeFrom d ctx) :
    read_exact (with_data d ctx) n
      = ((read_exact ctx n).1, with_data d (read_exact ctx n).2) := by
  unfold read_exact with_data
  dsimp only
  rw [fread_with_data d ctx.file n h]

theorem read_u32_le_with_data (d : List Nat) (ctx : ParseContext) (h : AgreeFrom d ctx) :
    read_u32_le (with_data d ctx) = ((read_u32_le ctx).1, with_data d (read_u32_le ctx).2) := by
  unfold read_u32_le with_data
  dsimp only
  rw [fread_with_data d ctx.file 4 h]
  dsimp only
  split <;> rfl

theorem consume_bytes_with_data (d : List Nat) (ctx : ParseContext) (n : Nat) :
    consume_bytes (with_data d ctx) n = with_data d (consume_bytes ctx n) := rfl

theorem consume_pad_with_data (d : List Nat) (ctx : ParseContext) (n : Nat) :
    consume_pad (with_data d ctx) n = with_data d (consume_pad ctx n) := by
  unfold consume_pad
  split <;> rfl

theorem parse_anih_with_data (d : List Nat) (ctx : ParseContext) (h : AgreeFrom d ctx) :
    parse_anih (with_data d ctx) = ((parse_anih ctx).1, with_data d (parse_anih ctx).2) := by
  have h0 : Advanced ctx
      (if ctx.csize < 36 then consume_bytes ctx (ctx.csize + (ctx.csize &&& 1)) else ctx) := by
    split
    · exact consume_bytes_advanced _ _
    · exact Advanced.refl _
  have hsw : (if (with_data d ctx).csize < 36 then
        consume_bytes (with_data d ctx) ((with_data d ctx).csize + ((with_data d ctx).csize &&& 1))
      else with_data d ctx)
      = with_data d
        (if ctx.csize < 36 then consume_bytes ctx (ctx.csize + (ctx.csize &&& 1)) else ctx) := by
    show (if ctx.csize < 36 then _ else _) = _
    split <;> rfl
  unfold parse_anih
  dsimp only
  rw [hsw]
  generalize (if ctx.csize < 36 then consume_bytes ctx (ctx.csize + (ctx.csize &&& 1)) else ctx)
    = ctx0 at h0
  rw [read_exact_with_data d ctx0 36 (agreeFrom_advanced h h0)]
  generalize read_exact ctx0 36 = r
  obtain ⟨r1, r2⟩ := r
  cases r1 with
  | none => rfl
  | some b =>
    show (some (anih_of_buf b), consume_pad (if ctx.csize > 36 then _ else _) ctx.csize) = _
    dsimp only
    split
    · rw [consume_bytes_with_data, consume_pad_with_data]
      rfl
    · rw [consume_pad_with_data]

theorem read_u32_loop_with_data (d : List Nat) (n : Nat) :
    ∀ ctx : ParseContext, AgreeFrom d ctx →
      read_u32_loop n (with_data d ctx)
        = ((read_u32_loop n ctx).1, with_data d (read_u32_loop n ctx).2) := by
  induction n with
  | zero => intro ctx _; rfl
  | succ n ih =>
    intro ctx h
    simp only [read_u32_loop, read_u32_le_with_data d ctx h,
      ih _ (agreeFrom_advanced h (read_u32_le_advanced ctx))]

theorem parse_seq_with_data (d : List Nat) (ctx : ParseContext) (h : AgreeFrom d ctx) :
    parse_seq (with_data d ctx) = ((parse_seq ctx).1, with_data d (parse_seq ctx).2) := by
  have hc : (with_data d ctx).csize = ctx.csize := rfl
  unfold parse_seq
  dsimp only
  rw [hc, read_u32_loop_with_data d _ ctx h, consume_pad_with_data]

theorem parse_rate_with_data (d : List Nat) (ctx : ParseContext) (h : AgreeFrom d ctx) :
    parse_rate (with_data d ctx) = ((parse_rate ctx).1, with_data d (parse_rate ctx).2) := by
  have hc : (with_data d ctx).csize = ctx.csize := rfl
  unfold parse_rate
  dsimp only
  rw [hc, read_u32_loop_with_data d _ ctx h, consume_pad_with_data]

theorem parse_frame_with_data (d : List Nat) (ctx : ParseContext) (h : AgreeFrom d ctx) :
    parse_frame (with_data d ctx) = ((parse_frame ctx).1, with_data d (parse_frame ctx).2) := by
  unfold parse_frame
  rw [read_exact_with_data d ctx 4 h]
  have h1 := agreeFrom_advanced h (read_exact_advanced ctx 4)
  generalize read_exact ctx 4 = r at h1
  obtain ⟨r1, r2⟩ := r
  cases r1 with
  | none => rfl
  | some subid =>
    dsimp only at h1 ⊢
    rw [read_u32_le_with_data d r2 h1]
    have h2 := agreeFrom_advanced h1 (read_u32_le_advanced r2)
    dsimp only
    split
    · rw [read_exact_with_data d _ _ h2]
      generalize read_exact (read_u32_le r2).2 (read_u32_le r2).1 = q
      obtain ⟨q1, q2⟩ := q
      cases q1 with
      | none => rfl
      | some buf => dsimp only; rw [consume_pad_with_data]
    · rw [consume_bytes_with_data, consume_pad_with_data]

theorem frames_loop_with_data (d : List Nat) (list_end : Nat) :
    ∀ (fuel : Nat) (st : ChunkList × Nat) (ctx : ParseContext), AgreeFrom d ctx →
      frames_loop list_end fuel st (with_data d ctx)
        = (frames_loop list_end fuel st ctx).map (fun p => (p.1, with_data d p.2)) := by
  intro fuel
  induction fuel with
  | zero =>
    intro st ctx _
    unfold frames_loop
    show (if ctx.file.pos < list_end then _ else _) = _
    split <;> rfl
  | succ fuel ih =>
    intro st ctx h
    unfold frames_loop
    show (if ctx.file.pos < list_end then _ else _) = _
    split
    · rw [parse_frame_with_data d ctx h]
      have h1 := agreeFrom_advanced h (parse_frame_advanced ctx)
      generalize parse_frame ctx = r at h1
      obtain ⟨r1, r2⟩ := r
      cases r1 with
      | none => exact ih _ _ h1
      | some f => exact ih _ _ h1
    · rfl

theorem parse_list_with_data (d : List Nat) (fuel : Nat) (ctx : ParseContext)
    (h : AgreeFrom d ctx) :
    parse_list fuel (with_data d ctx)
      = (parse_list fuel ctx).map (fun p => (p.1, with_data d p.2)) := by
  have hc : (with_data d ctx).csize = ctx.csize := rfl
  unfold parse_list
  rw [read_exact_with_data d ctx 4 h, hc]
  have h1 := agreeFrom_advanced h (read_exact_advanced ctx 4)
  generalize read_exact ctx 4 = r at h1
  obtain ⟨r1, r2⟩ := r
  cases r1 with
  | none => rfl
  | some listtype =>
    dsimp only at h1 ⊢
    have hp : (with_data d r2).file.pos = r2.file.pos := rfl
    rw [hp]
    split
    · rw [frames_loop_with_data d _ _ _ r2 h1]
      generalize frames_loop _ fuel _ r2 = q
      cases q with
      | none => rfl
      | some p =>
        obtain ⟨p1, p2⟩ := p
        show some (some p1, consume_pad (with_data d p2) ctx.csize) = _
        rw [consume_pad_with_data]
        rfl
    · rw [consume_bytes_with_data, consume_pad_with_data]
      rfl

theorem parse_chunk_eq_dispatch (fuel : Nat) (ctx : ParseContext) :
    parse_chunk fuel ctx =
      match read_exact ctx 4 with
      | (none, ctx1) => some (none, { ctx1 with eof := true })
      | (some cid, ctx1) =>
        if (read_u32_le ctx1).2.file.eofInd then
          some (none, { (read_u32_le ctx1).2 with csize := (read_u32_le ctx1).1, eof := true })
        else
          chunk_dispatch fuel cid ctx.file.pos
            { (read_u32_le ctx1).2 with csize := (read_u32_le ctx1).1 } := rfl

theorem chunk_dispatch_with_data (d : List Nat) (fuel : Nat) (cid : List Nat) (pos : Nat)
    (ctx2 : ParseContext) (h2 : AgreeFrom d ctx2) :
    chunk_dispatch fuel cid pos (with_data d ctx2)
      = (chunk_dispatch fuel cid pos ctx2).map (fun p => (p.1, with_data d p.2)) := by
  have hcs : (with_data d ctx2).csize = ctx2.csize := rfl
  unfold chunk_dispatch
  dsimp only
  rw [hcs]
  split
  · rw [parse_anih_with_data d ctx2 h2]; rfl
  · split
    · rw [parse_seq_with_data d ctx2 h2]; rfl
    · split
      · rw [parse_rate_with_data d ctx2 h2]; rfl
      · split
        · rw [parse_list_with_data d fuel ctx2 h2]
          generalize parse_list fuel ctx2 = q
          cases q <;> rfl
        · rw [consume_bytes_with_data, consume_pad_with_data]; rfl

theorem parse_chunk_with_data (d : List Nat) (fuel : Nat) (ctx : ParseContext)
    (h : AgreeFrom d ctx) :
    parse_chunk fuel (with_data d ctx)
      = (parse_chunk fuel ctx).map (fun p => (p.1, with_data d p.2)) := by
  have hp : (with_data d ctx).file.pos = ctx.file.pos := rfl
  rw [parse_chunk_eq_dispatch, parse_chunk_eq_dispatch, read_exact_with_data d ctx 4 h, hp]
  have h1 := agreeFrom_advanced h (read_exact_advanced ctx 4)
  generalize read_exact ctx 4 = r at h1
  obtain ⟨r1, r2⟩ := r
  cases r1 with
  | none => rfl
  | some cid =>
    dsimp only at h1 ⊢
    rw [read_u32_le_with_data d r2 h1]
    have h2 : AgreeFrom d ({ (read_u32_le r2).2 with csize := (read_u32_le r2).1 } : ParseContext) :=
      agreeFrom_advanced h1 (read_u32_le_advanced r2)
    have key := chunk_dispatch_with_data d fuel cid ctx.file.pos _ h2
    show (if (read_u32_le r2).2.file.eofInd = true then _ else _) = _
    split
    · rfl
    · exact key

theorem chunks_loop_with_data (d : List Nat) (inner : Nat) :
    ∀ (fuel : Nat) (ani : AniFile) (ctx : ParseContext), AgreeFrom d ctx →
      chunks_loop inner fuel ani (with_data d ctx) = chunks_loop inner fuel ani ctx := by
  intro fuel
  induction fuel with
  | zero => intro ani ctx _; rfl
  | succ fuel ih =>
    intro ani ctx h
    unfold chunks_loop
    rw [parse_chunk_with_data d inner ctx h]
    cases hp : parse_chunk inner ctx with
    | none => rfl
    | some p =>
      obtain ⟨chunk, ctx1⟩ := p
      have h1 := agreeFrom_advanced h (parse_chunk_spec inner ctx chunk ctx1 hp).1
      have he : (with_data d ctx1).eof = ctx1.eof := rfl
      dsimp only [Option.map]
      rw [he]
      split
      · rfl
      · cases chunk with
        | none => exact ih _ _ h1
        | some c => exact ih _ _ h1

/-- C11. The decoded document does not depend on the envelope: two streams of at
least 12 bytes that hold the same bytes from byte 12 on decode alike, whatever
their first twelve bytes (tags and declared total size, matching or not) and
for every fuel: `parse_ani` returns on the one exactly when it returns on the
other, and with the same document (same chunks, offsets, sizes and payloads). -/
theorem envelope_is_not_interpreted (fuel : Nat) (s s' : List Nat) (hs : 12 ≤ s.length)
    (hs' : 12 ≤ s'.length) (h : s.drop 12 = s'.drop 12) :
    parse_ani fuel s = parse_ani fuel s' := by
  show chunks_loop fuel fuel ⟨0, []⟩ (read_envelope (initial_ctx s))
    = chunks_loop fuel fuel ⟨0, []⟩ (read_envelope (initial_ctx s'))
  rw [read_envelope_ok s hs, read_envelope_ok s' hs']
  exact chunks_loop_with_data s fuel fuel ⟨0, []⟩ ⟨⟨s', 12, false⟩, 0, false⟩ h.symm

/-- Witness of C11: a `rate` chunk behind the proper envelope and behind twelve
zero bytes. -/
theorem envelope_is_not_interpreted_witness :
    (12 ≤ (tag_RIFF ++ le32 12 ++ tag_ACON ++ tag_rate ++ le32 4 ++ le32 7).length
      ∧ (tag_RIFF ++ le32 12 ++ tag_ACON ++ tag_rate ++ le32 4 ++ le32 7).drop 12
        = (List.replicate 12 0 ++ tag_rate ++ le32 4 ++ le32 7).drop 12)
    ∧ parse_ani 2 (tag_RIFF ++ le32 12 ++ tag_ACON ++ tag_rate ++ le32 4 ++ le32 7)
      = parse_ani 2 (List.replicate 12 0 ++ tag_rate ++ le32 4 ++ le32 7)
    ∧ parse_ani 2 (List.replicate 12 0 ++ tag_rate ++ le32 4 ++ le32 7)
      = some ⟨1, [⟨4, 12, .rate ⟨1, [7]⟩⟩]⟩ :=
  ⟨⟨by decide, by decide⟩,
    envelope_is_not_interpreted 2 _ _ (by decide) (by decide) (by decide), by decide⟩

/-! ## The `rate` decoder on a payload that holds its entries -/

theorem words_of_length : ∀ (k : Nat) (p : List Nat), p.length = 4 * k → (words_of p).length = k := by
  intro k
  induction k with
  | zero =>
    intro p hp
    have : p = [] := List.length_eq_zero.mp (by simpa using hp)
    subst this
    rfl
  | succ k ih =>
    intro p hp
    rcases p with _ | ⟨b0, _ | ⟨b1, _ | ⟨b2, _ | ⟨b3, p⟩⟩⟩⟩ <;>
      simp only [List.length_cons, List.length_nil] at hp <;> try omega
    simp only [words_of, List.length_cons]
    rw [ih p (by omega)]

theorem words_of_getD : ∀ (i : Nat) (p : List Nat), 4 * i + 3 < p.length →
    (words_of p).getD i 0
      = u32_of_bytes (p.getD (4 * i) 0) (p.getD (4 * i + 1) 0) (p.getD (4 * i + 2) 0)
          (p.getD (4 * i + 3) 0) := by
  intro i
  induction i with
  | zero =>
    intro p hp
    rcases p with _ | ⟨b0, _ | ⟨b1, _ | ⟨b2, _ | ⟨b3, p⟩⟩⟩⟩ <;>
      simp only [List.length_cons, List.length_nil] at hp <;> try omega
    rfl
  | succ i ih =>
    intro p hp
    rcases p with _ | ⟨b0, _ | ⟨b1, _ | ⟨b2, _ | ⟨b3, p⟩⟩⟩⟩ <;>
      simp only [List.length_cons, List.length_nil] at hp <;> try omega
    have h := ih p (by omega)
    have e0 : 4 * (i + 1) = 4 * i + 1 + 1 + 1 + 1 := by omega
    have e1 : 4 * (i + 1) + 1 = 4 * i + 1 + 1 + 1 + 1 + 1 := by omega
    have e2 : 4 * (i + 1) + 2 = 4 * i + 2 + 1 + 1 + 1 + 1 := by omega
    have e3 : 4 * (i + 1) + 3 = 4 * i + 3 + 1 + 1 + 1 + 1 := by omega
    rw [e1, e2, e3, e0]
    simp only [words_of, List.getD_cons_succ]
    exact h

theorem parse_chunk_rate_floor (data rest p : List Nat) (pos cs n fuel : Nat) (e : Bool)
    (hn : n < 2 ^ 32) (hp : p.length = 4 * (n / 4))
    (hdrop : data.drop pos = tag_rate ++ (le32 n ++ (p ++ rest))) :
    parse_chunk fuel ⟨⟨data, pos, false⟩, cs, e⟩
      = some (some ⟨n, pos % 2 ^ 32, .rate ⟨n / 4, words_of p⟩⟩,
          ⟨⟨data, pos + 8 + (4 * (n / 4) + n % 2), false⟩, n, e⟩) := by
  have h3 : data.drop (pos + 8) = p ++ rest := by
    have := drop_after (drop_after hdrop)
    simpa [tag_rate, le32_length, Nat.add_assoc] using this
  have hloop := read_u32_loop_words data rest n e (n / 4) p (pos + 8) hp h3
  have hpos : pos + 8 + 4 * (n / 4) + n % 2 = pos + 8 + (4 * (n / 4) + n % 2) := by omega
  rw [parse_chunk_header data _ tag_rate pos cs n fuel e rfl hn hdrop]
  simp only [parse_rate, hloop, consume_pad_mod, hpos]
  simp [tag_rate, tag_anih, tag_seq]

/-- C15. A `rate` chunk of declared size `n` whose first `4 * (n / 4)` payload
bytes `p` are in the stream decodes to a rate table with count `n / 4` whose
`i`-th jiffy value is the little-endian word of the payload bytes `4i .. 4i+3`;
the decoder ends `4 * (n / 4) + n mod 2` bytes behind the length field, and the
document loop reads the next identifier there: two bytes before the declared
end of the chunk when `n mod 4 = 2`. -/
theorem rate_chunk_reads_floor (data rest p : List Nat) (pos cs n fuel : Nat)
    (hn : n < 2 ^ 32) (hp : p.length = 4 * (n / 4)) (hb : Bytes p)
    (hdrop : data.drop pos = tag_rate ++ (le32 n ++ (p ++ rest))) :
    ∃ jiffies,
      parse_chunk fuel ⟨⟨data, pos, false⟩, cs, false⟩
        = some (some ⟨n, pos % 2 ^ 32, .rate ⟨n / 4, jiffies⟩⟩,
            ⟨⟨data, pos + 8 + (4 * (n / 4) + n % 2), false⟩, n, false⟩)
      ∧ jiffies.length = n / 4
      ∧ (∀ i, i < n / 4 →
          jiffies.getD i 0 = p.getD (4 * i) 0 + 256 * p.getD (4 * i + 1) 0
            + 65536 * p.getD (4 * i + 2) 0 + 16777216 * p.getD (4 * i + 3) 0)
      ∧ (∀ (k : Nat) (ani : AniFile),
          chunks_loop fuel (k + 1) ani ⟨⟨data, pos, false⟩, cs, false⟩
            = chunks_loop fuel k
                ⟨ani.chunk_count + 1, ani.chunks ++ [⟨n, pos % 2 ^ 32, .rate ⟨n / 4, jiffies⟩⟩]⟩
                ⟨⟨data, pos + 8 + (4 * (n / 4) + n % 2), false⟩, cs, false⟩)
      ∧ (n % 4 = 2 → pos + 8 + (4 * (n / 4) + n % 2) + 2 = pos + 8 + n) := by
  have hpc := parse_chunk_rate_floor data rest p pos cs n fuel false hn hp hdrop
  refine ⟨words_of p, hpc, words_of_length _ p hp, ?_, ?_, ?_⟩
  · intro i hi
    have hget : ∀ j, j < p.length → p.getD j 0 < 256 := by
      intro j hj
      rw [List.getD_eq_getElem _ _ hj]
      exact hb _ (List.getElem_mem hj)
    rw [words_of_getD i p (by omega),
      u32_of_bytes_eq _ _ _ _ (hget _ (by omega)) (hget _ (by omega)) (hget _ (by omega))
        (hget _ (by omega))]
  · intro k ani
    rw [chunks_loop_some fuel k ani _ _ _ hpc rfl]
    exact chunks_loop_csize fuel k _ _ n cs false
  · intro h
    omega

/-- Witness of C15: a `rate` chunk of declared size 6 before a `seq ` chunk. -/
theorem rate_chunk_reads_floor_witness :
    ([7, 0, 0, 0].length = 4 * (6 / 4) ∧ Bytes [7, 0, 0, 0]) ∧
    ∃ jiffies,
      parse_chunk 0 ⟨⟨tag_rate ++ (le32 6 ++ ([7, 0, 0, 0] ++ ([5, 5] ++ tag_seq ++ le32 0))),
          0, false⟩, 0, false⟩
        = some (some ⟨6, 0 % 2 ^ 32, .rate ⟨6 / 4, jiffies⟩⟩,
            ⟨⟨tag_rate ++ (le32 6 ++ ([7, 0, 0, 0] ++ ([5, 5] ++ tag_seq ++ le32 0))),
              0 + 8 + (4 * (6 / 4) + 6 % 2), false⟩, 6, false⟩)
      ∧ jiffies.length = 6 / 4
      ∧ (∀ i, i < 6 / 4 →
          jiffies.getD i 0 = [7, 0, 0, 0].getD (4 * i) 0 + 256 * [7, 0, 0, 0].getD (4 * i + 1) 0
            + 65536 * [7, 0, 0, 0].getD (4 * i + 2) 0
            + 16777216 * [7, 0, 0, 0].getD (4 * i + 3) 0)
      ∧ (∀ (k : Nat) (ani : AniFile),
          chunks_loop 0 (k + 1) ani
              ⟨⟨tag_rate ++ (le32 6 ++ ([7, 0, 0, 0] ++ ([5, 5] ++ tag_seq ++ le32 0))),
                0, false⟩, 0, false⟩
            = chunks_loop 0 k
                ⟨ani.chunk_count + 1, ani.chunks ++ [⟨6, 0 % 2 ^ 32, .rate ⟨6 / 4, jiffies⟩⟩]⟩
                ⟨⟨tag_rate ++ (le32 6 ++ ([7, 0, 0, 0] ++ ([5, 5] ++ tag_seq ++ le32 0))),
                  0 + 8 + (4 * (6 / 4) + 6 % 2), false⟩, 0, false⟩)
      ∧ (6 % 4 = 2 → 0 + 8 + (4 * (6 / 4) + 6 % 2) + 2 = 0 + 8 + 6) :=
  ⟨⟨by decide, by intro x hx; simp at hx; omega⟩,
    rate_chunk_reads_floor _ ([5, 5] ++ tag_seq ++ le32 0) [7, 0, 0, 0] 0 0 6 0 (by norm_num)
      (by decide) (by intro x hx; simp at hx; omega) (by rfl)⟩

/-! ## A chunk header at the very end of the stream -/

theorem chunks_loop_at_end (inner fuel : Nat) (ani : AniFile) (ctx : ParseContext)
    (h : ctx.file.data.length < ctx.file.pos + 4) :
    chunks_loop inner (fuel + 1) ani ctx = some ani := by
  obtain ⟨⟨data, pos, ei⟩, cs, e⟩ := ctx
  exact chunks_loop_short data pos cs inner fuel ei e ani h

theorem parse_chunk_dispatch (data rest cid : List Nat) (pos cs n fuel : Nat) (e : Bool)
    (hcid : cid.length = 4) (hn : n < 2 ^ 32) (hdrop : data.drop pos = cid ++ (le32 n ++ rest)) :
    parse_chunk fuel ⟨⟨data, pos, false⟩, cs, e⟩
      = chunk_dispatch fuel cid pos ⟨⟨data, pos + 8, false⟩, n, e⟩ :=
  (parse_chunk_header data rest cid pos cs n fuel e hcid hn hdrop).trans rfl

theorem parse_list_at_end (fuel : Nat) (ctx : ParseContext)
    (h : ctx.file.data.length < ctx.file.pos + 4) :
    ∃ ctx1, parse_list fuel ctx = some (none, ctx1) ∧ ctx1.eof = true ∧ Advanced ctx ctx1 := by
  obtain ⟨⟨data, pos, ei⟩, cs, e⟩ := ctx
  have hr := read_exact_short data pos 4 cs ei e h (by omega)
  have ha := read_exact_advanced ⟨⟨data, pos, ei⟩, cs, e⟩ 4
  unfold parse_list
  generalize read_exact ⟨⟨data, pos, ei⟩, cs, e⟩ 4 = r at hr ha
  obtain ⟨r1, r2⟩ := r
  simp only at hr
  subst hr
  exact ⟨_, rfl, rfl, ha⟩

theorem chunk_dispatch_at_end (fuel : Nat) (cid : List Nat) (pos : Nat) (ctx2 : ParseContext)
    (h : ctx2.file.data.length < ctx2.file.pos + 4) :
    ∃ r ctx1, chunk_dispatch fuel cid pos ctx2 = some (r, ctx1) ∧ Advanced ctx2 ctx1 := by
  unfold chunk_dispatch
  dsimp only
  split
  · exact ⟨_, _, rfl, parse_anih_advanced ctx2⟩
  · split
    · exact ⟨_, _, rfl, parse_seq_advanced ctx2⟩
    · split
      · exact ⟨_, _, rfl, parse_rate_advanced ctx2⟩
      · split
        · obtain ⟨ctx1, h1, _, h3⟩ := parse_list_at_end fuel ctx2 h
          rw [h1]
          exact ⟨_, _, rfl, h3⟩
        · exact ⟨_, _, rfl, (consume_bytes_advanced _ _).trans (consume_pad_advanced _ _)⟩

/-- A chunk header that ends the stream gives at most one entry, and the
document loop halts behind it. -/
theorem chunks_loop_last_header (data cid : List Nat) (pos cs n inner k : Nat) (ani : AniFile)
    (hcid : cid.length = 4) (hn : n < 2 ^ 32) (hdrop : data.drop pos = cid ++ le32 n) :
    ∃ extra : List Chunk, extra.length ≤ 1 ∧
      chunks_loop inner (k + 2) ani ⟨⟨data, pos, false⟩, cs, false⟩
        = some ⟨ani.chunk_count + extra.length, ani.chunks ++ extra⟩ := by
  have hlen : data.length = pos + 8 := by
    have := congrArg List.length hdrop
    simp only [List.length_drop, List.length_append, hcid, le32_length] at this
    omega
  have hd : data.drop pos = cid ++ (le32 n ++ []) := by rw [hdrop]; simp
  have hpc := parse_chunk_dispatch data [] cid pos cs n inner false hcid hn hd
  obtain ⟨r, ctx1, hr, hadv⟩ := chunk_dispatch_at_end inner cid pos ⟨⟨data, pos + 8, false⟩, n, false⟩
    (by show data.length < pos + 8 + 4; omega)
  rw [hr] at hpc
  have hend : ctx1.file.data.length < ctx1.file.pos + 4 := by
    have h1 : ctx1.file.data = data := hadv.1
    have h2 : pos + 8 ≤ ctx1.file.pos := hadv.2
    rw [h1]; omega
  unfold chunks_loop
  rw [hpc]
  dsimp only
  split
  · exact ⟨[], by simp, by simp⟩
  · cases r with
    | none =>
      refine ⟨[], by simp, ?_⟩
      dsimp only
      rw [chunks_loop_at_end inner k ani ctx1 hend]
      simp
    | some c =>
      refine ⟨[c], by simp, ?_⟩
      dsimp only
      rw [chunks_loop_at_end inner k _ ctx1 hend]
      simp

theorem chunks_loop_items_then (data tail : List Nat) (inner : Nat) :
    ∀ (its : List Item) (k pos cs : Nat) (ani : AniFile),
      (∀ it ∈ its, it.Whole) → (∀ it ∈ its, it.subchunks ≤ inner) →
      data.drop pos = items_bytes its ++ tail →
      chunks_loop inner (its.length + k) ani ⟨⟨data, pos, false⟩, cs, false⟩
        = chunks_loop inner k
            ⟨ani.chunk_count + (decode_items pos its).length, ani.chunks ++ decode_items pos its⟩
            ⟨⟨data, pos + (items_bytes its).length, false⟩, cs, false⟩ := by
  intro its
  induction its with
  | nil =>
    intro k pos cs ani _ _ _
    simp [decode_items, items_bytes]
  | cons it its ih =>
    intro k pos cs ani hw hsub hdrop
    have hd : data.drop pos = it.bytes ++ (items_bytes its ++ tail) := by
      rw [hdrop]; simp [items_bytes]
    have hp := parse_chunk_item data _ pos cs inner it
      (hw it (List.mem_cons_self _ _)) (hsub it (List.mem_cons_self _ _)) hd
    have hnext := drop_after hd
    have hrec := fun ani' => ih k (pos + it.bytes.length) cs ani'
      (fun it' h' => hw it' (List.mem_cons_of_mem _ h'))
      (fun it' h' => hsub it' (List.mem_cons_of_mem _ h')) hnext
    have hfuel : (it :: its).length + k = (its.length + k) + 1 := by
      simp only [List.length_cons]; omega
    have hpos : pos + it.bytes.length + (items_bytes its).length
        = pos + (items_bytes (it :: its)).length := by
      simp only [items_bytes, List.length_append]; omega
    rw [hfuel]
    cases hdec : it.decoded pos with
    | none =>
      rw [hdec] at hp
      rw [chunks_loop_none inner _ ani _ _ hp rfl,
        chunks_loop_csize inner _ ani _ it.csize cs false, hrec, hpos]
      simp [decode_items, hdec]
    | some c =>
      rw [hdec] at hp
      rw [chunks_loop_some inner _ ani _ _ c hp rfl,
        chunks_loop_csize inner _ _ _ it.csize cs false, hrec, hpos]
      simp only [decode_items, hdec, Option.toList_some, List.singleton_append, List.length_cons,
        List.append_assoc]
      congr 2
      omega

/-- C12. The stream holds the envelope and two complete chunks, a `rate` chunk
of declared size 6 and a chunk of declared size 0 with the identifier
`te\x08\0`.  The decoder reads the second header two bytes early, as a `rate`
chunk of size 8 whose two entries are cut off by the end of the stream, and
enters it into the document with the entries `0xFFFFFFFF`.  With the identifier
`JUNK` and the length 1 appended, the stream ending there, that second chunk of
the document is no longer the same: its entries are now read off the last two
bytes of the stream and the appended header. -/
theorem truncated_header_behind_unconsumed_rate :
    parse_ani 3 (tag_RIFF ++ le32 26 ++ tag_ACON ++ tag_rate ++ le32 6 ++ [1, 0, 0, 0, 114, 97]
        ++ ([116, 101, 8, 0] ++ le32 0))
      = some ⟨2, [⟨6, 12, .rate ⟨1, [1]⟩⟩, ⟨8, 24, .rate ⟨2, [4294967295, 4294967295]⟩⟩]⟩
    ∧ parse_ani 3 (tag_RIFF ++ le32 26 ++ tag_ACON ++ tag_rate ++ le32 6 ++ [1, 0, 0, 0, 114, 97]
        ++ ([116, 101, 8, 0] ++ le32 0) ++ ([74, 85, 78, 75] ++ le32 1))
      = some ⟨2, [⟨6, 12, .rate ⟨1, [1]⟩⟩, ⟨8, 24, .rate ⟨2, [1430913024, 84814]⟩⟩]⟩ := by
  decide

/-- The halt at a header that ends the stream is exact.  Let the stream be a
12-byte envelope followed by complete chunks that the decoder consumes whole,
and let an identifier of four bytes and a 4-byte length `L ≥ 1` follow, with no
payload byte.  With enough fuel `parse_ani` returns on both streams, and the
chunk sequence of the longer one begins with that of the shorter one, every
chunk unchanged; at most one further entry follows. -/
theorem truncated_header_keeps_document (env : List Nat) (its : List Item) (cid : List Nat)
    (L fuel : Nat) (henv : env.length = 12) (hw : ∀ it ∈ its, it.Whole)
    (hcid : cid.length = 4) (_hL1 : 1 ≤ L) (hL : L < 2 ^ 32)
    (hfuel : (env ++ (items_bytes its ++ (cid ++ le32 L))).length < fuel) :
    parse_ani fuel (env ++ items_bytes its)
      = some ⟨(decode_items 12 its).length, decode_items 12 its⟩
    ∧ ∃ extra : List Chunk, extra.length ≤ 1 ∧
        parse_ani fuel (env ++ (items_bytes its ++ (cid ++ le32 L)))
          = some ⟨(decode_items 12 its).length + extra.length, decode_items 12 its ++ extra⟩ := by
  obtain ⟨h1, h2⟩ := items_count its hw
  simp only [List.length_append, hcid, le32_length, henv] at hfuel
  refine ⟨parse_ani_items env its fuel henv hw (by rw [List.length_append]; omega), ?_⟩
  obtain ⟨k, hk⟩ : ∃ k, fuel = its.length + (k + 2) := ⟨fuel - its.length - 2, by omega⟩
  generalize hdata : env ++ (items_bytes its ++ (cid ++ le32 L)) = data
  have hd : data.drop 12 = items_bytes its ++ (cid ++ le32 L) := by
    rw [← hdata]; exact List.drop_left' henv
  have hd2 : data.drop (12 + (items_bytes its).length) = cid ++ le32 L := drop_after hd
  have hloop := chunks_loop_items_then data (cid ++ le32 L) fuel its (k + 2) 12 0 ⟨0, []⟩ hw
    (fun it h => by have := h2 it h; omega) hd
  obtain ⟨extra, hex, hlast⟩ := chunks_loop_last_header data cid (12 + (items_bytes its).length) 0
    L fuel k ⟨0 + (decode_items 12 its).length, [] ++ decode_items 12 its⟩ hcid hL hd2
  refine ⟨extra, hex, ?_⟩
  show chunks_loop fuel fuel ⟨0, []⟩ (read_envelope (initial_ctx data)) = _
  rw [read_envelope_ok data (by rw [← hdata, List.length_append]; omega)]
  conv_lhs => arg 2; rw [hk]
  rw [hloop, hlast]
  simp

/-- The header of a `rate` chunk of declared size 8 behind a complete `seq `
chunk of declared size 4. -/
theorem truncated_header_keeps_document_witness :
    (∀ it ∈ [Item.plain ⟨tag_seq, le32 1, 0⟩], it.Whole)
    ∧ parse_ani 40 (tag_RIFF ++ le32 12 ++ tag_ACON ++ items_bytes [Item.plain ⟨tag_seq, le32 1, 0⟩])
      = some ⟨(decode_items 12 [Item.plain ⟨tag_seq, le32 1, 0⟩]).length,
          decode_items 12 [Item.plain ⟨tag_seq, le32 1, 0⟩]⟩
    ∧ ∃ extra : List Chunk, extra.length ≤ 1 ∧
        parse_ani 40 (tag_RIFF ++ le32 12 ++ tag_ACON ++
            (items_bytes [Item.plain ⟨tag_seq, le32 1, 0⟩] ++ (tag_rate ++ le32 8)))
          = some ⟨(decode_items 12 [Item.plain ⟨tag_seq, le32 1, 0⟩]).length + extra.length,
              decode_items 12 [Item.plain ⟨tag_seq, le32 1, 0⟩] ++ extra⟩ :=
  have hs : ∀ it ∈ [Item.plain ⟨tag_seq, le32 1, 0⟩], it.Whole := by
    intro it h
    rw [List.mem_singleton] at h
    subst h
    exact ⟨rfl, by decide, by decide, by decide, by decide⟩
  ⟨hs, truncated_header_keeps_document (tag_RIFF ++ le32 12 ++ tag_ACON)
    [Item.plain ⟨tag_seq, le32 1, 0⟩] tag_rate 8 40 rfl hs rfl (by norm_num) (by norm_num)
    (by decide)⟩

/-! ## The frame loop at the end of the stream -/

theorem parse_frame_at_end (data : List Nat) (pos cs : Nat) (ei e : Bool)
    (h : data.length ≤ pos) :
    parse_frame ⟨⟨data, pos, ei⟩, cs, e⟩ = (none, ⟨⟨data, pos, true⟩, cs, true⟩) := by
  have hd : data.drop pos = [] := List.drop_eq_nil_iff.mpr h
  simp [parse_frame, read_exact, fread, hd]

/-- Once the read position has reached the end of the stream before the end
offset of the list, no number of iterations leaves the frame loop:
`parse_frame` fails without moving, and the loop tests the position only. -/
theorem frames_loop_stuck (list_end : Nat) (data : List Nat) (pos cs : Nat) :
    ∀ (fuel : Nat) (st : ChunkList × Nat) (ei e : Bool),
      data.length ≤ pos → pos < list_end →
      frames_loop list_end fuel st ⟨⟨data, pos, ei⟩, cs, e⟩ = none := by
  intro fuel
  induction fuel with
  | zero =>
    intro st ei e _ h2
    simp [frames_loop, h2]
  | succ fuel ih =>
    intro st ei e h1 h2
    unfold frames_loop
    rw [parse_frame_at_end data pos cs ei e h1]
    simp only [h2, if_true]
    exact ih st true true h1 h2

theorem parse_list_hangs (s rest : List Nat) (pos n fuel : Nat) (e : Bool) (hn4 : 4 ≤ n)
    (hn : n < 2 ^ 32) (hdrop : s.drop pos = tag_fram ++ rest)
    (hloop : frames_loop (pos + 4 + (n - 4)) fuel (⟨0, [], none, none⟩, 0)
      ⟨⟨s, pos + 4, false⟩, n, e⟩ = none) :
    parse_list fuel ⟨⟨s, pos, false⟩, n, e⟩ = none := by
  have r1 : read_exact ⟨⟨s, pos, false⟩, n, e⟩ 4
      = (some tag_fram, ⟨⟨s, pos + 4, false⟩, n, e⟩) := read_exact_ok false n e hdrop
  have hpay : (n + 2 ^ 32 - 4) % 2 ^ 32 = n - 4 := by omega
  unfold parse_list
  rw [r1]
  dsimp only
  rw [hpay, if_pos rfl, hloop]

theorem chunk_dispatch_list (fuel pos : Nat) (ctx2 : ParseContext) :
    chunk_dispatch fuel tag_LIST pos ctx2
      = match parse_list fuel ctx2 with
        | none => none
        | some p =>
          some (p.1.map (fun a => ⟨ctx2.csize, pos % 2 ^ 32, .list a⟩), p.2) := by
  unfold chunk_dispatch
  dsimp only
  rw [if_neg (by decide : tag_LIST ≠ tag_anih), if_neg (by decide : tag_LIST ≠ tag_seq),
    if_neg (by decide : tag_LIST ≠ tag_rate), if_pos rfl]

theorem parse_ani_hangs_in_list (s rest : List Nat) (n : Nat) (hs : 12 ≤ s.length)
    (hn4 : 4 ≤ n) (hn : n < 2 ^ 32)
    (hdrop : s.drop 12 = tag_LIST ++ (le32 n ++ (tag_fram ++ rest)))
    (hloop : ∀ fuel, frames_loop (20 + 4 + (n - 4)) fuel (⟨0, [], none, none⟩, 0)
      ⟨⟨s, 20 + 4, false⟩, n, false⟩ = none) :
    ∀ fuel, parse_ani fuel s = none := by
  intro fuel
  show chunks_loop fuel fuel ⟨0, []⟩ (read_envelope (initial_ctx s)) = none
  rw [read_envelope_ok s hs]
  cases fuel with
  | zero => rfl
  | succ k =>
    have h3 : s.drop 20 = tag_fram ++ rest := by
      have := drop_after (drop_after hdrop)
      simpa [tag_LIST, le32_length] using this
    have hpl := parse_list_hangs s rest 20 n (k + 1) false hn4 hn h3 (hloop (k + 1))
    have hpc : parse_chunk (k + 1) ⟨⟨s, 12, false⟩, 0, false⟩ = none := by
      rw [parse_chunk_dispatch s _ tag_LIST 12 0 n (k + 1) false rfl hn hdrop,
        chunk_dispatch_list]
      show (match parse_list (k + 1) ⟨⟨s, 20, false⟩, n, false⟩ with
        | none => none
        | some p => some (p.1.map (fun a => (⟨n, 12 % 2 ^ 32, .list a⟩ : Chunk)), p.2)) = none
      rw [hpl]
    unfold chunks_loop
    rw [hpc]

theorem frames_loop_stuck_after (list_end fuel : Nat) (st : ChunkList × Nat)
    (ctx : ParseContext) (data : List Nat) (pos cs : Nat) (ei e : Bool)
    (hlt : ctx.file.pos < list_end)
    (hpf : parse_frame ctx = (none, ⟨⟨data, pos, ei⟩, cs, e⟩))
    (h1 : data.length ≤ pos) (h2 : pos < list_end) :
    frames_loop list_end fuel st ctx = none := by
  cases fuel with
  | zero => simp [frames_loop, hlt]
  | succ k =>
    unfold frames_loop
    rw [if_pos hlt, hpf]
    exact frames_loop_stuck list_end data pos cs k st ei e h1 h2

/-- C13. Three streams that end inside a `fram` list of declared size 20, on
which `parse_ani` never returns, whatever the fuel: the stream ends before any
subchunk, inside the length field of an `icon` subchunk, and inside the payload
of an `icon` subchunk.  Each time `parse_frame` fails at the end of the stream
and sets the end-of-stream flag, and the frame loop goes on, since it tests the
read position only. -/
theorem truncated_frame_list_never_returns :
    (∀ fuel, parse_ani fuel (tag_RIFF ++ le32 16 ++ tag_ACON ++ tag_LIST ++ le32 20 ++ tag_fram)
        = none)
    ∧ (∀ fuel, parse_ani fuel (tag_RIFF ++ le32 22 ++ tag_ACON ++ tag_LIST ++ le32 20 ++ tag_fram
          ++ tag_icon ++ [4, 0]) = none)
    ∧ (∀ fuel, parse_ani fuel (tag_RIFF ++ le32 27 ++ tag_ACON ++ tag_LIST ++ le32 20 ++ tag_fram
          ++ tag_icon ++ le32 8 ++ [1, 2, 3]) = none) := by
  refine ⟨?_, ?_, ?_⟩
  · refine parse_ani_hangs_in_list _ [] 20 (by decide) (by norm_num) (by norm_num) (by rfl) ?_
    intro fuel
    exact frames_loop_stuck _ _ 24 20 fuel _ false false (by decide) (by norm_num)
  · refine parse_ani_hangs_in_list _ (tag_icon ++ [4, 0]) 20 (by decide) (by norm_num)
      (by norm_num) (by rfl) ?_
    intro fuel
    exact frames_loop_stuck_after _ fuel _ _
      (tag_RIFF ++ le32 22 ++ tag_ACON ++ tag_LIST ++ le32 20 ++ tag_fram ++ tag_icon ++ [4, 0])
      30 20 true false (by decide) (by decide) (by decide) (by norm_num)
  · refine parse_ani_hangs_in_list _ (tag_icon ++ le32 8 ++ [1, 2, 3]) 20 (by decide)
      (by norm_num) (by norm_num) (by rfl) ?_
    intro fuel
    exact frames_loop_stuck_after _ fuel _ _
      (tag_RIFF ++ le32 27 ++ tag_ACON ++ tag_LIST ++ le32 20 ++ tag_fram ++ tag_icon ++ le32 8
        ++ [1, 2, 3])
      35 20 true false (by decide) (by decide) (by decide) (by norm_num)

/-! ## Reads and ranges that the decoder does not check -/

theorem buf_word_isSome (buf : List Nat) (i : Nat) :
    (buf_word buf i).isSome = true ↔ i + 1 < buf.length := by
  unfold buf_word
  constructor
  · intro h
    split at h
    · rename_i lo hi h1 h2
      exact (List.getElem?_eq_some_iff.mp h2).1
    · cases h
  · intro h
    have h0 : i < buf.length := by omega
    rw [List.getElem?_eq_getElem h0, List.getElem?_eq_getElem h]
    rfl

/-- The hotspot of the first frame is determined exactly when every read of the
hotspot block lies inside the buffer of the frame. -/
theorem hotspot_determined_iff (l : ChunkList) (f : Frame) :
    ((hotspot l f).hotx.isSome = true ∧ (hotspot l f).hoty.isSome = true)
      ↔ ∀ i ∈ hotspot_reads f.buffer, i < f.buffer.length := by
  have h2 := buf_word_isSome f.buffer 2
  have h10 := buf_word_isSome f.buffer 10
  have h12 := buf_word_isSome f.buffer 12
  unfold hotspot hotspot_reads
  cases hw : buf_word f.buffer 2 with
  | none =>
    rw [hw] at h2
    simp only [Option.isSome_none, Bool.false_eq_true, false_iff, Nat.not_lt] at h2
    simp only [Option.isSome_none, Bool.false_eq_true, and_self, List.mem_cons, List.mem_singleton,
      List.not_mem_nil, or_false, false_iff, not_forall]
    exact ⟨3, Or.inr rfl, by omega⟩
  | some type =>
    rw [hw] at h2
    simp only [Option.isSome_some, true_iff] at h2
    dsimp only
    split
    · simp only [h10, h12, List.mem_cons, List.mem_singleton, List.not_mem_nil, or_false]
      constructor
      · rintro ⟨a, b⟩ i (rfl | rfl | rfl | rfl | rfl | rfl) <;> omega
      · intro h
        exact ⟨by have := h 11 (by simp); omega, by have := h 13 (by simp); omega⟩
    · simp only [Option.isSome_some, and_self, List.mem_cons, List.mem_singleton,
        List.not_mem_nil, or_false, true_iff]
      rintro i (rfl | rfl) <;> omega

/-- C14. A `rate` chunk declares 8 bytes and the stream ends after 5 of them; a
`seq ` chunk declares 8 bytes and the stream ends after 1.  Neither decode
fails: `read_u32_le` answers a short read with `0xFFFFFFFF`, `parse_rate` stores
that value as a jiffy, and both chunks enter the document. -/
theorem truncated_rate_is_not_a_failure :
    parse_ani 2 (tag_RIFF ++ le32 13 ++ tag_ACON ++ tag_rate ++ le32 8 ++ [1, 0, 0, 0, 2])
      = some ⟨1, [⟨8, 12, .rate ⟨2, [1, 4294967295]⟩⟩]⟩
    ∧ parse_ani 2 (tag_RIFF ++ le32 9 ++ tag_ACON ++ tag_seq ++ le32 8 ++ [1])
      = some ⟨1, [⟨8, 12, .seq ⟨2, [none, none]⟩⟩]⟩
    ∧ (read_u32_le ⟨⟨[2], 0, false⟩, 8, false⟩).1 = 0xFFFFFFFF := by
  decide

/-- C16. A `fram` list whose first `icon` subchunk has the declared subsize 0,
and one whose first frame is the four bytes `00 00 02 00`.  In the first the
hotspot block reads the indices 2 and 3 of an empty buffer; in the second the
type field is 2 and the block reads the indices 10 to 13 of a buffer of four
bytes.  Both hotspots are indeterminate. -/
theorem hotspot_reads_outside_the_frame :
    (parse_chunk 1 ⟨⟨tag_LIST ++ le32 12 ++ tag_fram ++ tag_icon ++ le32 0, 0, false⟩, 0, false⟩
        = some (some ⟨12, 0, .list ⟨1, [⟨0, []⟩], none, none⟩⟩,
            ⟨⟨tag_LIST ++ le32 12 ++ tag_fram ++ tag_icon ++ le32 0, 20, false⟩, 12, false⟩)
      ∧ hotspot_reads [] = [2, 3]
      ∧ ¬ (2 < ([] : List Nat).length))
    ∧ (parse_chunk 1
          ⟨⟨tag_LIST ++ le32 16 ++ tag_fram ++ tag_icon ++ le32 4 ++ [0, 0, 2, 0], 0, false⟩,
            0, false⟩
        = some (some ⟨16, 0, .list ⟨1, [⟨4, [0, 0, 2, 0]⟩], none, none⟩⟩,
            ⟨⟨tag_LIST ++ le32 16 ++ tag_fram ++ tag_icon ++ le32 4 ++ [0, 0, 2, 0], 24, false⟩,
              16, false⟩)
      ∧ hotspot_reads [0, 0, 2, 0] = [2, 3, 10, 11, 12, 13]
      ∧ ¬ (10 < [0, 0, 2, 0].length)) := by
  decide

/-- C18. A `LIST` chunk of list-type `fram` and declared size 12 stands at
offset 12: its payload span ends at offset 32 and holds the header of one
`icon` subchunk of declared subsize 8.  A complete `rate` chunk of declared size
0 follows at offset 32.  The frame is made of the eight bytes 32 to 39, all
behind the end of the list, the read position ends at 40, not at 32, and the
`rate` chunk is gone from the document. -/
theorem frame_read_beyond_the_list_end :
    (parse_chunk 1
        ⟨⟨tag_RIFF ++ le32 32 ++ tag_ACON ++ tag_LIST ++ le32 12 ++ tag_fram ++ tag_icon ++ le32 8
            ++ (tag_rate ++ le32 0), 12, false⟩, 0, false⟩).map
        (fun p => (p.1, p.2.file.pos, p.2.eof))
      = some (some ⟨12, 12, .list ⟨1, [⟨8, tag_rate ++ le32 0⟩], some 0, some 0⟩⟩, 40, false)
    ∧ ¬ (40 = 12 + 8 + 12 + 12 % 2)
    ∧ parse_ani 2 (tag_RIFF ++ le32 32 ++ tag_ACON ++ tag_LIST ++ le32 12 ++ tag_fram ++ tag_icon
        ++ le32 8 ++ (tag_rate ++ le32 0))
      = some ⟨1, [⟨12, 12, .list ⟨1, [⟨8, tag_rate ++ le32 0⟩], some 0, some 0⟩⟩]⟩ := by
  decide

theorem parse_chunk_short_list (s rest ltype : List Nat) (pos cs n fuel : Nat) (e : Bool)
    (hlt : ltype.length = 4) (hnf : ltype ≠ tag_fram) (hn : n < 4)
    (hdrop : s.drop pos = tag_LIST ++ (le32 n ++ (ltype ++ rest))) :
    parse_chunk fuel ⟨⟨s, pos, false⟩, cs, e⟩
      = some (none, ⟨⟨s, pos + 8 + 4 + (n + 2 ^ 32 - 4) + n % 2, false⟩, n, e⟩) := by
  have h3 : s.drop (pos + 8) = ltype ++ rest := by
    have := drop_after (drop_after hdrop)
    simpa [tag_LIST, le32_length, Nat.add_assoc] using this
  have r1 : read_exact ⟨⟨s, pos + 8, false⟩, n, e⟩ 4
      = (some ltype, ⟨⟨s, pos + 8 + 4, false⟩, n, e⟩) := by
    have := read_exact_ok false n e h3
    rwa [hlt] at this
  have hpay : (n + 2 ^ 32 - 4) % 2 ^ 32 = n + 2 ^ 32 - 4 := by omega
  have hpl : parse_list fuel ⟨⟨s, pos + 8, false⟩, n, e⟩
      = some (none, ⟨⟨s, pos + 8 + 4 + (n + 2 ^ 32 - 4) + n % 2, false⟩, n, e⟩) := by
    unfold parse_list
    rw [r1]
    dsimp only
    rw [hpay, if_neg hnf]
    simp only [consume_bytes, fseek_cur, consume_pad_mod]
  rw [parse_chunk_dispatch s _ tag_LIST pos cs n fuel e rfl (by omega) hdrop,
    chunk_dispatch_list, hpl]
  rfl

/-- C17. A `LIST` chunk of declared size 0 stands at offset 12, before a
complete `rate` chunk at offset 20.  `parse_list` reads the identifier `rate` as
the list-type and computes the remaining length `0 - 4` in 32 bits, that is
4294967292: it skips to offset 4294967316, far beyond the declared end 20 of
the chunk, and the `rate` chunk is lost. -/
theorem list_payload_wraps_below_four :
    parse_chunk 0
        ⟨⟨tag_RIFF ++ le32 20 ++ tag_ACON ++ tag_LIST ++ le32 0 ++ tag_rate ++ le32 4 ++ le32 7,
          12, false⟩, 0, false⟩
      = some (none,
          ⟨⟨tag_RIFF ++ le32 20 ++ tag_ACON ++ tag_LIST ++ le32 0 ++ tag_rate ++ le32 4 ++ le32 7,
            4294967316, false⟩, 0, false⟩)
    ∧ (0 + 2 ^ 32 - 4) % 2 ^ 32 = 4294967292
    ∧ 24 + 4294967292 = 4294967316
    ∧ ¬ (4294967316 ≤ 12 + 8 + 0)
    ∧ parse_ani 2 (tag_RIFF ++ le32 20 ++ tag_ACON ++ tag_LIST ++ le32 0 ++ tag_rate ++ le32 4
        ++ le32 7)
      = some ⟨0, []⟩ := by
  have hp := parse_chunk_short_list
    (tag_RIFF ++ le32 20 ++ tag_ACON ++ tag_LIST ++ le32 0 ++ tag_rate ++ le32 4 ++ le32 7)
    (le32 4 ++ le32 7) tag_rate 12 0 0 0 false rfl (by decide) (by norm_num) (by rfl)
  have hp2 := parse_chunk_short_list
    (tag_RIFF ++ le32 20 ++ tag_ACON ++ tag_LIST ++ le32 0 ++ tag_rate ++ le32 4 ++ le32 7)
    (le32 4 ++ le32 7) tag_rate 12 0 0 2 false rfl (by decide) (by norm_num) (by rfl)
  have hpos : 12 + 8 + 4 + (0 + 2 ^ 32 - 4) + 0 % 2 = 4294967316 := by norm_num
  rw [hpos] at hp hp2
  refine ⟨hp, by norm_num, by norm_num, by norm_num, ?_⟩
  show chunks_loop 2 2 ⟨0, []⟩ (read_envelope (initial_ctx _)) = _
  rw [read_envelope_ok _ (by decide), chunks_loop_none 2 1 _ _ _ hp2 rfl]
  exact chunks_loop_short _ 4294967316 0 2 0 false false _ (by norm_num [tag_RIFF, tag_ACON,
    tag_LIST, tag_rate, le32])

/-! ## The hotspot of every decoded frame list -/

theorem hotspot_hot_indep (l l' : ChunkList) (f : Frame) :
    (hotspot l f).hotx = (hotspot l' f).hotx ∧ (hotspot l f).hoty = (hotspot l' f).hoty := by
  unfold hotspot
  split
  · exact ⟨rfl, rfl⟩
  · split <;> exact ⟨rfl, rfl⟩

/-- A frame that `parse_frame` returns holds `size` bytes of the stream. -/
theorem parse_frame_buffer (ctx : ParseContext) (f : Frame) (ctx1 : ParseContext)
    (h : parse_frame ctx = (some f, ctx1)) :
    (∃ p, f.buffer = (ctx.file.data.drop p).take f.size) ∧ f.buffer.length = f.size := by
  unfold parse_frame at h
  generalize hr : read_exact ctx 4 = r at h
  obtain ⟨r1, r2⟩ := r
  cases r1 with
  | none => cases h
  | some subid =>
    obtain ⟨_, _, hr2⟩ := read_exact_some ctx 4 subid r2 hr
    dsimp only at h
    split at h
    · generalize hq : read_exact (read_u32_le r2).2 (read_u32_le r2).1 = q at h
      obtain ⟨q1, q2⟩ := q
      cases q1 with
      | none => cases h
      | some buf =>
        obtain ⟨hb, hlen, _⟩ := read_exact_some _ _ buf q2 hq
        have hd : (read_u32_le r2).2.file.data = ctx.file.data := by
          rw [(read_u32_le_advanced r2).1, hr2]
        simp only [Prod.mk.injEq, Option.some.injEq] at h
        obtain ⟨hf, _⟩ := h
        subst hf
        dsimp only
        exact ⟨⟨_, by rw [← hd, hb]⟩, hlen⟩
    · cases h

theorem parse_frame_bytes (ctx : ParseContext) (f : Frame) (ctx1 : ParseContext)
    (hd : Bytes ctx.file.data) (h : parse_frame ctx = (some f, ctx1)) : Bytes f.buffer := by
  obtain ⟨⟨p, hp⟩, _⟩ := parse_frame_buffer ctx f ctx1 h
  rw [hp]
  intro b hb
  exact hd b (List.mem_of_mem_drop (List.mem_of_mem_take hb))

/-- What the frame loop keeps true of the list under construction: when it has
a first frame, the hotspot is the one that the hotspot block computes from that
frame, and the frame holds bytes of the stream. -/
theorem frames_loop_hotspot (list_end : Nat) :
    ∀ (fuel : Nat) (st : ChunkList × Nat) (ctx : ParseContext) (l : ChunkList)
      (ctx1 : ParseContext),
      Bytes ctx.file.data →
      st.1.frames.length = st.2 →
      (∀ f fs, st.1.frames = f :: fs →
        Bytes f.buffer ∧ st.1.hotx = (hotspot st.1 f).hotx ∧ st.1.hoty = (hotspot st.1 f).hoty) →
      frames_loop list_end fuel st ctx = some (l, ctx1) →
      ∀ f fs, l.frames = f :: fs →
        Bytes f.buffer ∧ l.hotx = (hotspot l f).hotx ∧ l.hoty = (hotspot l f).hoty := by
  intro fuel
  induction fuel with
  | zero =>
    intro st ctx l ctx1 _ _ hinv h
    unfold frames_loop at h
    split at h
    · cases h
    · cases h; exact hinv
  | succ fuel ih =>
    intro st ctx l ctx1 hd hcnt hinv h
    unfold frames_loop at h
    split at h
    · have hadv := parse_frame_advanced ctx
      generalize hr : parse_frame ctx = r at hadv h
      obtain ⟨r1, r2⟩ := r
      have hd2 : Bytes r2.file.data := by
        have e : r2.file.data = ctx.file.data := hadv.1
        rw [e]; exact hd
      cases r1 with
      | none => exact ih _ _ _ _ hd2 hcnt hinv h
      | some fr =>
        have hfb := parse_frame_bytes ctx fr r2 hd hr
        obtain ⟨hfr, _⟩ := push_frame_fields st fr
        obtain ⟨hx, hy⟩ := push_frame_hot st fr
        refine ih _ _ _ _ hd2 ?_ ?_ h
        · rw [hfr, List.length_append, hcnt]; rfl
        · intro f fs hf
          rw [hfr] at hf
          by_cases h0 : st.2 = 0
          · have hnil : st.1.frames = [] := List.length_eq_zero.mp (hcnt.trans h0)
            rw [hnil] at hf
            simp only [List.nil_append, List.cons.injEq] at hf
            obtain ⟨rfl, _⟩ := hf
            rw [hx, hy, if_pos h0, if_pos h0]
            exact ⟨hfb, (hotspot_hot_indep _ _ _).1, (hotspot_hot_indep _ _ _).2⟩
          · cases hst : st.1.frames with
            | nil => rw [hst] at hcnt; exact absurd hcnt.symm h0
            | cons g gs =>
              rw [hst] at hf
              simp only [List.cons_append, List.cons.injEq] at hf
              obtain ⟨rfl, _⟩ := hf
              obtain ⟨hb, h1, h2⟩ := hinv g gs hst
              rw [hx, hy, if_neg h0, if_neg h0, h1, h2]
              exact ⟨hb, (hotspot_hot_indep _ _ _).1, (hotspot_hot_indep _ _ _).2⟩
    · cases h; exact hinv

theorem parse_list_hotspot (fuel : Nat) (ctx : ParseContext) (l : ChunkList)
    (ctx1 : ParseContext) (hd : Bytes ctx.file.data)
    (h : parse_list fuel ctx = some (some l, ctx1)) :
    ∀ f fs, l.frames = f :: fs →
      Bytes f.buffer ∧ l.hotx = (hotspot l f).hotx ∧ l.hoty = (hotspot l f).hoty := by
  unfold parse_list at h
  have hadv := read_exact_advanced ctx 4
  generalize read_exact ctx 4 = q at h hadv
  obtain ⟨q1, q2⟩ := q
  cases q1 with
  | none => cases h
  | some listtype =>
    dsimp only at h
    split at h
    · split at h
      · cases h
      · rename_i l1 ctx2 hl
        cases h
        have e : q2.file.data = ctx.file.data := hadv.1
        exact frames_loop_hotspot _ _ _ _ _ _ (by rw [e]; exact hd) rfl
          (fun f fs hf => by cases hf) hl
    · cases h

/-- A `LIST` entry of the document is what `parse_list` returned on the stream
of the chunk. -/
theorem parse_chunk_list (fuel : Nat) (ctx : ParseContext) (c : Chunk) (ctx1 : ParseContext)
    (l : ChunkList) (h : parse_chunk fuel ctx = some (some c, ctx1)) (hl : c.inner = .list l) :
    ∃ ctx2 ctx3, ctx2.file.data = ctx.file.data ∧ parse_list fuel ctx2 = some (some l, ctx3) := by
  unfold parse_chunk at h
  have hadv := read_exact_advanced ctx 4
  generalize read_exact ctx 4 = q at h hadv
  obtain ⟨q1, q2⟩ := q
  cases q1 with
  | none => cases h
  | some cid =>
    dsimp only at h
    split at h
    · cases h
    · split at h
      · simp only [Option.some.injEq, Prod.mk.injEq] at h
        obtain ⟨a, rfl⟩ := map_chunk_some _ _ _ _ _ h.1
        cases hl
      · split at h
        · simp only [Option.some.injEq, Prod.mk.injEq] at h
          obtain ⟨a, rfl⟩ := map_chunk_some _ _ _ _ _ h.1
          cases hl
        · split at h
          · simp only [Option.some.injEq, Prod.mk.injEq] at h
            obtain ⟨a, rfl⟩ := map_chunk_some _ _ _ _ _ h.1
            cases hl
          · split at h
            · split at h
              · cases h
              · rename_i p hpl
                simp only [Option.some.injEq, Prod.mk.injEq] at h
                obtain ⟨a, rfl⟩ := map_chunk_some _ _ _ _ _ h.1
                cases hl
                have hp1 : p.1 = some l := by
                  cases hp : p.1 with
                  | none => rw [hp] at h; cases h.1
                  | some a' =>
                    rw [hp] at h
                    simp only [Option.map_some', Option.some.injEq, Chunk.mk.injEq,
                      Inner.list.injEq, true_and] at h
                    rw [h.1]
                refine ⟨_, p.2, ?_, by rw [hpl, ← hp1]⟩
                have e1 : (read_u32_le q2).2.file.data = q2.file.data := (read_u32_le_advanced q2).1
                have e2 : q2.file.data = ctx.file.data := hadv.1
                exact e1.trans e2
            · cases h

/-- C3. Whatever the stream of bytes and wherever `parse_chunk` is called on
it: when it returns a `LIST` chunk whose frame list has a first frame with a
buffer `b` of at least 14 bytes, the hotspot of the list is
`(b[10] + 256*b[11], b[12] + 256*b[13])` when `b[2] + 256*b[3] = 2` and `(0, 0)`
otherwise.  The subchunks of the list are not restricted: they may be of any
kind, stand before or behind the first `icon` subchunk, overrun the declared
end of the list or be followed by bytes that form no subchunk.  The hotspot is
a function of the first frame alone. -/
theorem hotspot_from_first_frame (fuel : Nat) (ctx ctx1 : ParseContext) (c : Chunk)
    (l : ChunkList) (f : Frame) (fs : List Frame) (hdata : Bytes ctx.file.data)
    (h : parse_chunk fuel ctx = some (some c, ctx1)) (hl : c.inner = .list l)
    (hf : l.frames = f :: fs) (hlen : 14 ≤ f.buffer.length) :
    (l.hotx, l.hoty)
      = if f.buffer.getD 2 0 + 256 * f.buffer.getD 3 0 = 2 then
          (some (f.buffer.getD 10 0 + 256 * f.buffer.getD 11 0),
           some (f.buffer.getD 12 0 + 256 * f.buffer.getD 13 0))
        else (some 0, some 0) := by
  obtain ⟨ctx2, ctx3, hd, hpl⟩ := parse_chunk_list fuel ctx c ctx1 l h hl
  obtain ⟨hb, hx, hy⟩ := parse_list_hotspot fuel ctx2 l ctx3 (by rw [hd]; exact hdata) hpl f fs hf
  rw [hx, hy]
  exact hotspot_eq l f hlen hb

/-- Witness of C3: a list of declared size 38 with a `JUNK` subchunk, a cursor
resource with hotspot `(5, 7)`, and a second `icon` subchunk that begins two
bytes before the declared end of the list and overruns it. -/
theorem hotspot_from_first_frame_witness :
    (Bytes (tag_LIST ++ (le32 38 ++ (tag_fram ++ (([74, 85, 78, 75] ++ (le32 1 ++ [9, 0])) ++
        ((tag_icon ++ (le32 14 ++ [0, 0, 2, 0, 1, 0, 32, 32, 0, 0, 5, 0, 7, 0])) ++
          (tag_icon ++ (le32 14 ++ [0, 0, 1, 0, 1, 0, 32, 32, 0, 0, 9, 0, 9, 0])))))))
      ∧ parse_chunk 3
          ⟨⟨tag_LIST ++ (le32 38 ++ (tag_fram ++ (([74, 85, 78, 75] ++ (le32 1 ++ [9, 0])) ++
            ((tag_icon ++ (le32 14 ++ [0, 0, 2, 0, 1, 0, 32, 32, 0, 0, 5, 0, 7, 0])) ++
              (tag_icon ++ (le32 14 ++ [0, 0, 1, 0, 1, 0, 32, 32, 0, 0, 9, 0, 9, 0])))))),
            0, false⟩, 0, false⟩
        = some (some ⟨38, 0, .list ⟨2, [⟨14, [0, 0, 2, 0, 1, 0, 32, 32, 0, 0, 5, 0, 7, 0]⟩,
              ⟨14, [0, 0, 1, 0, 1, 0, 32, 32, 0, 0, 9, 0, 9, 0]⟩], some 5, some 7⟩⟩,
            ⟨⟨tag_LIST ++ (le32 38 ++ (tag_fram ++ (([74, 85, 78, 75] ++ (le32 1 ++ [9, 0])) ++
              ((tag_icon ++ (le32 14 ++ [0, 0, 2, 0, 1, 0, 32, 32, 0, 0, 5, 0, 7, 0])) ++
                (tag_icon ++ (le32 14 ++ [0, 0, 1, 0, 1, 0, 32, 32, 0, 0, 9, 0, 9, 0])))))),
              66, false⟩, 38, false⟩)
      ∧ 14 ≤ [0, 0, 2, 0, 1, 0, 32, 32, 0, 0, 5, 0, 7, 0].length)
    ∧ ((some 5, some 7) : Option Nat × Option Nat)
      = if [0, 0, 2, 0, 1, 0, 32, 32, 0, 0, 5, 0, 7, 0].getD 2 0
            + 256 * [0, 0, 2, 0, 1, 0, 32, 32, 0, 0, 5, 0, 7, 0].getD 3 0 = 2 then
          (some ([0, 0, 2, 0, 1, 0, 32, 32, 0, 0, 5, 0, 7, 0].getD 10 0
              + 256 * [0, 0, 2, 0, 1, 0, 32, 32, 0, 0, 5, 0, 7, 0].getD 11 0),
           some ([0, 0, 2, 0, 1, 0, 32, 32, 0, 0, 5, 0, 7, 0].getD 12 0
              + 256 * [0, 0, 2, 0, 1, 0, 32, 32, 0, 0, 5, 0, 7, 0].getD 13 0))
        else (some 0, some 0) :=
  have hb : Bytes (tag_LIST ++ (le32 38 ++ (tag_fram ++ (([74, 85, 78, 75] ++ (le32 1 ++ [9, 0])) ++
        ((tag_icon ++ (le32 14 ++ [0, 0, 2, 0, 1, 0, 32, 32, 0, 0, 5, 0, 7, 0])) ++
          (tag_icon ++ (le32 14 ++ [0, 0, 1, 0, 1, 0, 32, 32, 0, 0, 9, 0, 9, 0]))))))) := by
    unfold Bytes; decide
  ⟨⟨hb, by decide, by decide⟩,
    hotspot_from_first_frame 3
      ⟨⟨tag_LIST ++ (le32 38 ++ (tag_fram ++ (([74, 85, 78, 75] ++ (le32 1 ++ [9, 0])) ++
        ((tag_icon ++ (le32 14 ++ [0, 0, 2, 0, 1, 0, 32, 32, 0, 0, 5, 0, 7, 0])) ++
          (tag_icon ++ (le32 14 ++ [0, 0, 1, 0, 1, 0, 32, 32, 0, 0, 9, 0, 9, 0])))))),
        0, false⟩, 0, false⟩
      ⟨⟨tag_LIST ++ (le32 38 ++ (tag_fram ++ (([74, 85, 78, 75] ++ (le32 1 ++ [9, 0])) ++
        ((tag_icon ++ (le32 14 ++ [0, 0, 2, 0, 1, 0, 32, 32, 0, 0, 5, 0, 7, 0])) ++
          (tag_icon ++ (le32 14 ++ [0, 0, 1, 0, 1, 0, 32, 32, 0, 0, 9, 0, 9, 0])))))),
        66, false⟩, 38, false⟩
      ⟨38, 0, .list ⟨2, [⟨14, [0, 0, 2, 0, 1, 0, 32, 32, 0, 0, 5, 0, 7, 0]⟩,
        ⟨14, [0, 0, 1, 0, 1, 0, 32, 32, 0, 0, 9, 0, 9, 0]⟩], some 5, some 7⟩⟩
      ⟨2, [⟨14, [0, 0, 2, 0, 1, 0, 32, 32, 0, 0, 5, 0, 7, 0]⟩,
        ⟨14, [0, 0, 1, 0, 1, 0, 32, 32, 0, 0, 9, 0, 9, 0]⟩], some 5, some 7⟩
      ⟨14, [0, 0, 2, 0, 1, 0, 32, 32, 0, 0, 5, 0, 7, 0]⟩
      [⟨14, [0, 0, 1, 0, 1, 0, 32, 32, 0, 0, 9, 0, 9, 0]⟩]
      hb (by decide) rfl rfl (by decide)⟩

end AniHelper
